import Mathlib

/-!
# Verification of the netrie CIDR index

A shallow embedding of the vearutop/netrie repository: the flat-array
binary trie over CIDR prefixes (netrie.go), its lookup and insertion
engines, the DAWG minimizer, the binary codec (binary.go), the strict
insertion variant, and the file-backed index with its block cache
(CIDRIndexFile, bufReaderAt).

Conventions of the embedding:
* Go byte values are Nat (with explicit bounds where they matter);
  machine integers (int8 / int16 / int32) are Int with explicit
  two's-complement casts at exactly the places Go casts.
* Go strings are byte strings; labels are modelled as List Nat, the
  empty label [] standing for the empty Go string.
* Go slices are List; an index read that Go would panic on is modelled
  with Option (for the lookup path, where the safety claim lives) or is
  proved in-bounds (for the insertion path).
* Go maps (string keyed) are association lists with last-write-wins
  update; a read of a missing key yields the zero value 0, as in Go.
-/

namespace Netrie

/-! ## Two's-complement casts and big-endian byte helpers -/

/-- Two's-complement cast of an arbitrary Int into the signed w-bit
range, modelling Go conversions such as int16(x) and int8(x). -/
def icast (w : Nat) (x : Int) : Int :=
  (x + 2 ^ (w - 1)) % (2 ^ w : Nat) - 2 ^ (w - 1)

/-- Decode an unsigned w-bit value into the signed w-bit range,
modelling Go conversions such as int16(u) for u : uint16. -/
def toSigned (w : Nat) (u : Nat) : Int :=
  if u < 2 ^ (w - 1) then (u : Int) else (u : Int) - (2 ^ w : Nat)

/-- Encode a signed value as its unsigned w-bit representative,
modelling Go conversions such as uint32(x) for x : int32. -/
def toUnsigned (w : Nat) (x : Int) : Nat :=
  (x % (2 ^ w : Nat)).toNat

/-- Big-endian 4-byte encoding of a Nat (binary.BigEndian.PutUint32). -/
def putU32 (n : Nat) : List Nat :=
  [n / 2 ^ 24 % 256, n / 2 ^ 16 % 256, n / 2 ^ 8 % 256, n % 256]

/-- Big-endian 2-byte encoding of a Nat (binary.BigEndian.PutUint16). -/
def putU16 (n : Nat) : List Nat :=
  [n / 2 ^ 8 % 256, n % 256]

/-- Big-endian 4-byte decoding (binary.BigEndian.Uint32). -/
def getU32 (b : List Nat) : Nat :=
  b.getD 0 0 * 2 ^ 24 + b.getD 1 0 * 2 ^ 16 + b.getD 2 0 * 2 ^ 8 + b.getD 3 0

/-- Big-endian 2-byte decoding (binary.BigEndian.Uint16). -/
def getU16 (b : List Nat) : Nat :=
  b.getD 0 0 * 2 ^ 8 + b.getD 1 0

/-! ## Core data model (netrie.go) -/

/-- A label: a Go string viewed as its byte sequence. -/
abbrev Label := List Nat

/-- trieNode: children are int32 indices (-1 absent), id is the label
id (-1 none), maskLen the stored prefix length (-1 none). -/
structure TrieNode where
  child0 : Int
  child1 : Int
  id : Int
  maskLen : Int
  deriving DecidableEq, Repr

/-- The fresh node appended by AddNet. -/
def freshNode : TrieNode := ⟨-1, -1, -1, -1⟩

instance : Inhabited TrieNode := ⟨freshNode⟩

/-- Select the child field by bit value (children[bit]). -/
def TrieNode.child (n : TrieNode) (b : Nat) : Int :=
  if b = 0 then n.child0 else n.child1

/-- Metadata (build date modelled as a Nat timestamp; the free-form
Extra payload is not modelled). -/
structure Metadata where
  buildDate : Nat
  name : Label
  description : Label
  deriving DecidableEq, Repr

def Metadata.empty : Metadata := ⟨0, [], []⟩

/-- CIDRIndex: the in-memory trie.  The Go generic parameter S
(int16 or int32) appears in the embedding as the width argument of the
casts; the node ids themselves are stored as Int. -/
structure CIDRIndex where
  meta : Metadata
  nodes : List TrieNode
  names : List Label
  total : Nat
  idByName : List (Label × Int)
  deriving DecidableEq, Repr

/-- Go map read: zero value 0 when the key is missing. -/
def mapGet (m : List (Label × Int)) (k : Label) : Int :=
  match m with
  | [] => 0
  | (k2, v) :: rest => if k2 = k then v else mapGet rest k

/-- Go map write: replace the binding if present, otherwise append. -/
def mapSet (m : List (Label × Int)) (k : Label) (v : Int) : List (Label × Int) :=
  match m with
  | [] => [(k, v)]
  | (k2, v2) :: rest => if k2 = k then (k, v) :: rest else (k2, v2) :: mapSet rest k v

/-- newCIDRIndex: one root node, empty tables. -/
def newCIDRIndex : CIDRIndex :=
  { meta := Metadata.empty
    nodes := [freshNode]
    names := []
    total := 0
    idByName := [] }

/-- Read a node at an Int index; none models the Go panic on an
out-of-range index. -/
def nodeAt (nodes : List TrieNode) (i : Int) : Option TrieNode :=
  if i < 0 then none else nodes[i.toNat]?

/-- Total read used on the insertion path (every use is proved
in-bounds for indexes reachable from newCIDRIndex). -/
def getN (nodes : List TrieNode) (i : Int) : TrieNode :=
  (nodeAt nodes i).getD freshNode

/-- Total write used on the insertion path (no-op out of bounds; every
use is proved in-bounds for indexes reachable from newCIDRIndex). -/
def setN (nodes : List TrieNode) (i : Int) (n : TrieNode) : List TrieNode :=
  if 0 ≤ i then nodes.set i.toNat n else nodes

/-- Update one child field of the node at index i. -/
def setChild (nodes : List TrieNode) (i : Int) (b : Nat) (v : Int) : List TrieNode :=
  let nd := getN nodes i
  setN nodes i (if b = 0 then { nd with child0 := v } else { nd with child1 := v })

/-- Stamp id and maskLen at the node at index i (children kept). -/
def stampN (nodes : List TrieNode) (i : Int) (id maskLen : Int) : List TrieNode :=
  let nd := getN nodes i
  setN nodes i { nd with id := id, maskLen := maskLen }

/-! ## Addresses and bits -/

/-- Bit i of an octet sequence: (oct[i/8] >> (7 - i%8)) & 1. -/
def bit (oct : List Nat) (i : Nat) : Nat :=
  (oct.getD (i / 8) 0) >>> (7 - i % 8) &&& 1

/-- A CIDR prefix after Go canonicalization: octets (4 for IPv4, 16
for IPv6, the IPv4-in-IPv6 form already converted by To4) and the mask
length. -/
structure Pfx where
  oct : List Nat
  maskLen : Nat
  deriving DecidableEq, Repr

/-- The bit path of a prefix: its first maskLen bits. -/
def pathBits (p : Pfx) : List Nat :=
  (List.range p.maskLen).map (bit p.oct)

/-- A valid canonical prefix: 4 or 16 octets, mask within the family
range, octets are bytes. -/
def ValidPfx (p : Pfx) : Prop :=
  (p.oct.length = 4 ∨ p.oct.length = 16) ∧ p.maskLen ≤ 8 * p.oct.length ∧
    ∀ b ∈ p.oct, b < 256

/-- A valid canonical address: 4 or 16 byte octets. -/
def ValidAddr (a : List Nat) : Prop :=
  (a.length = 4 ∨ a.length = 16) ∧ ∀ b ∈ a, b < 256

/-! ## Insertion (CIDRIndex.AddNet) -/

/-- The trie walk of AddNet over the prefix bits: follow the child for
each bit, linking and appending a fresh node where the child is -1.
Returns the extended node array and the terminal index. -/
def insertBits (nodes : List TrieNode) (cur : Int) (bs : List Nat) :
    List TrieNode × Int :=
  match bs with
  | [] => (nodes, cur)
  | b :: rest =>
    let ci := (getN nodes cur).child b
    if ci = -1 then
      let newIdx : Int := nodes.length
      let nodes1 := setChild nodes cur b newIdx
      insertBits (nodes1 ++ [freshNode]) newIdx rest
    else
      insertBits nodes ci rest

/-- AddNet for the width-w id variant (w = 16 for CIDRIndex[int16],
w = 32 for CIDRIndex[int32]): intern the name, walk/build the path,
stamp the terminal with (id, int8(maskLen)), bump total. -/
def addNet (w : Nat) (idx : CIDRIndex) (p : Pfx) (name : Label) : CIDRIndex :=
  let id0 := mapGet idx.idByName name
  let st :=
    if id0 = 0 then
      let names1 := idx.names ++ [name]
      let id := icast w (names1.length : Int)
      (names1, id, mapSet idx.idByName name id)
    else
      (idx.names, id0, idx.idByName)
  let walked := insertBits idx.nodes 0 (pathBits p)
  { meta := idx.meta
    nodes := stampN walked.1 walked.2 st.2.1 (icast 8 (p.maskLen : Int))
    names := st.1
    total := idx.total + 1
    idByName := st.2.2 }

/-- Insert a whole list of (prefix, label) pairs in order. -/
def insertAll (w : Nat) (ps : List (Pfx × Label)) : CIDRIndex :=
  ps.foldl (fun idx q => addNet w idx q.1 q.2) newCIDRIndex

/-! ## Lookup (CIDRIndex.LookupIP) -/

/-- The lookup loop of LookupIP.  rem is the remaining bit budget
(maxBits - i); the result is the final node index together with the
running best (id, maskLen), or none if a node read is out of bounds
(the Go panic). -/
def lookupLoop (nodes : List TrieNode) (oct : List Nat) :
    Int → Nat → Nat → Int → Int → Option (Int × Int × Int)
  | cur, _, 0, bestID, bestLen => some (cur, bestID, bestLen)
  | cur, i, rem + 1, bestID, bestLen =>
    match nodeAt nodes cur with
    | none => none
    | some nd =>
      let best :=
        if nd.id ≠ -1 ∧ bestLen < nd.maskLen then (nd.id, nd.maskLen)
        else (bestID, bestLen)
      let ci := nd.child (bit oct i)
      if ci = -1 then some (cur, best.1, best.2)
      else lookupLoop nodes oct ci (i + 1) rem best.1 best.2

/-- The walk of LookupIP including the final re-check, producing the
best id (without resolving it through the names table). -/
def lookupCore (nodes : List TrieNode) (oct : List Nat) : Option Int :=
  let maxBits := if oct.length = 4 then 32 else 128
  match lookupLoop nodes oct 0 0 maxBits (-1) (-1) with
  | none => none
  | some (fin, bestID, bestLen) =>
    match nodeAt nodes fin with
    | none => none
    | some nd =>
      some (if nd.id ≠ -1 ∧ bestLen < nd.maskLen then nd.id else bestID)

/-- LookupIP on canonical octets: walk, then resolve the best id via
names[bestID-1]; none models a Go panic (out-of-range node or name
access), some [] the empty-string result. -/
def lookupIP (idx : CIDRIndex) (oct : List Nat) : Option Label :=
  match lookupCore idx.nodes oct with
  | none => none
  | some bestID =>
    if bestID = -1 then some []
    else if bestID < 1 then none
    else idx.names[bestID.toNat - 1]?

/-- Lookup over a textual address, with the stdlib parser net.ParseIP
abstracted as the parse argument (none models a nil return). -/
def lookupStr (parse : String → Option (List Nat)) (idx : CIDRIndex)
    (s : String) : Option Label :=
  match parse s with
  | none => some []
  | some oct => lookupIP idx oct

/-- SafeLookupIP: the lookup result together with the always-nil
error. -/
def safeLookupIP (idx : CIDRIndex) (oct : List Nat) :
    Option Label × Option String :=
  (lookupIP idx oct, none)

/-- Len: number of inserted CIDRs. -/
def lenIdx (idx : CIDRIndex) : Nat := idx.total

/-- LenNames: size of the reverse label map. -/
def lenNames (idx : CIDRIndex) : Nat := idx.idByName.length

/-! ## Minimization (CIDRIndex.Minimize) -/

/-- The signature of a node after its children are canonicalized. -/
structure Sig where
  ch0 : Int
  ch1 : Int
  id : Int
  maskLen : Int
  deriving DecidableEq, Repr

/-- Go map read over the signature map (none when absent). -/
def sigGet (m : List (Sig × Int)) (s : Sig) : Option Int :=
  match m with
  | [] => none
  | (s2, v) :: rest => if s2 = s then some v else sigGet rest s

/-- Go map write over the signature map. -/
def sigSet (m : List (Sig × Int)) (s : Sig) (v : Int) : List (Sig × Int) :=
  match m with
  | [] => [(s, v)]
  | (s2, v2) :: rest => if s2 = s then (s, v) :: rest else (s2, v2) :: sigSet rest s v

/-- The state threaded through the bottom-up pass of Minimize:
signature map, remap table and the output node array. -/
structure MinState where
  sigToIndex : List (Sig × Int)
  remap : List Int
  minimal : List TrieNode
  deriving Repr

/-- One iteration of the bottom-up pass, processing old index i. -/
def minimizeStep (nodes : List TrieNode) (i : Nat) (st : MinState) : MinState :=
  let old := nodes.getD i freshNode
  let ch0 := if old.child0 = -1 then -1 else st.remap.getD old.child0.toNat 0
  let ch1 := if old.child1 = -1 then -1 else st.remap.getD old.child1.toNat 0
  let currentSig : Sig := ⟨ch0, ch1, old.id, old.maskLen⟩
  match sigGet st.sigToIndex currentSig with
  | some newIdx =>
    { st with remap := st.remap.set i newIdx }
  | none =>
    let newIdx : Int := st.minimal.length
    { sigToIndex := sigSet st.sigToIndex currentSig newIdx
      remap := st.remap.set i newIdx
      minimal := st.minimal ++ [⟨ch0, ch1, old.id, old.maskLen⟩] }

/-- The pass over old indices k-1, k-2, ..., 0 (Go iterates i from
len(nodes)-1 down to 0). -/
def minimizeGo (nodes : List TrieNode) : Nat → MinState → MinState
  | 0, st => st
  | k + 1, st => minimizeGo nodes k (minimizeStep nodes k st)

/-- Minimize: bottom-up canonicalization followed by the root swap.
The remap fix-up loop of the source rewrites only the remap slice,
which is never read afterwards, so it does not appear in the result. -/
def minimize (idx : CIDRIndex) : CIDRIndex :=
  if idx.nodes.length ≤ 1 then idx
  else
    let st := minimizeGo idx.nodes idx.nodes.length
      ⟨[], List.replicate idx.nodes.length 0, []⟩
    let finalRoot := st.remap.getD 0 0
    let minimal2 :=
      if finalRoot = 0 then st.minimal
      else
        let a := st.minimal.getD 0 freshNode
        let b := st.minimal.getD finalRoot.toNat freshNode
        (st.minimal.set finalRoot.toNat a).set 0 b
    { idx with nodes := minimal2 }

/-! ## The strict insertion variant (the non-generic CIDRIndex) -/

/-- The strict, IPv4-only, id-keyed index variant. -/
structure SCIDRIndex where
  nodes : List TrieNode
  total : Nat
  deriving DecidableEq, Repr

def newSCIDRIndex : SCIDRIndex := ⟨[freshNode], 0⟩

/-- The strict AddCIDR after CIDR parsing succeeded with a 4-octet
network (cidr is the original text, kept for the error message; id is
the caller-chosen int16).  The walk mutates the node array exactly as
the source does before the overlap check, so the returned state is the
array as left behind on either path. -/
def addCIDRStrict (t : SCIDRIndex) (cidr : String) (oct : List Nat)
    (maskLen : Nat) (id : Int) : SCIDRIndex × Option String :=
  let walked := insertBits t.nodes 0 ((List.range maskLen).map (bit oct))
  let nd := getN walked.1 walked.2
  if nd.id ≠ -1 then
    ({ t with nodes := walked.1 }, some ("overlap: " ++ cidr))
  else
    ({ nodes := stampN walked.1 walked.2 id (icast 8 (maskLen : Int))
       total := t.total + 1 }, none)

/-! ## Binary codec (binary.go: Save / Load) -/

/-- Node record size: 11 bytes for narrow (int16) ids, 13 for wide. -/
def nodeSize (w : Nat) : Nat := if w = 16 then 11 else 13

/-- trieNode.MarshalBinary. -/
def marshalNode (w : Nat) (n : TrieNode) : List Nat :=
  if w = 16 then
    putU32 (toUnsigned 32 n.child0) ++ putU32 (toUnsigned 32 n.child1) ++
      putU16 (toUnsigned 16 n.id) ++ [toUnsigned 8 n.maskLen]
  else
    putU32 (toUnsigned 32 n.child0) ++ putU32 (toUnsigned 32 n.child1) ++
      putU32 (toUnsigned 32 n.id) ++ [toUnsigned 8 n.maskLen]

/-- trieNode.UnmarshalBinary (none is the length-check error). -/
def unmarshalNode (w : Nat) (b : List Nat) : Option TrieNode :=
  if w = 16 then
    if b.length = 11 then
      some ⟨toSigned 32 (getU32 (b.take 4)), toSigned 32 (getU32 ((b.drop 4).take 4)),
        toSigned 16 (getU16 ((b.drop 8).take 2)), toSigned 8 (b.getD 10 0)⟩
    else none
  else
    if b.length = 13 then
      some ⟨toSigned 32 (getU32 (b.take 4)), toSigned 32 (getU32 ((b.drop 4).take 4)),
        toSigned 32 (getU32 ((b.drop 8).take 4)), toSigned 8 (b.getD 12 0)⟩
    else none

/-- CIDRIndex.Save to a byte sequence: 12-byte header (total,
nodesLen, namesLen), then the node records, then the length-prefixed
names.  Metadata is not written. -/
def save (w : Nat) (idx : CIDRIndex) : List Nat :=
  putU32 idx.total ++ putU32 idx.nodes.length ++ putU32 idx.names.length ++
    idx.nodes.flatMap (marshalNode w) ++
    idx.names.flatMap (fun n => putU32 n.length ++ n)

/-- io.ReadFull: take exactly n bytes or fail. -/
def readN (b : List Nat) (n : Nat) : Option (List Nat × List Nat) :=
  if n ≤ b.length then some (b.take n, b.drop n) else none

/-- The node-reading loop of Load. -/
def loadNodes (w : Nat) : Nat → List Nat → Option (List TrieNode × List Nat)
  | 0, b => some ([], b)
  | k + 1, b => do
    let (nb, b1) ← readN b (nodeSize w)
    let nd ← unmarshalNode w nb
    let (rest, b2) ← loadNodes w k b1
    some (nd :: rest, b2)

/-- The name-reading loop of Load. -/
def loadNames : Nat → List Nat → Option (List Label × List Nat)
  | 0, b => some ([], b)
  | k + 1, b => do
    let (lenb, b1) ← readN b 4
    let (name, b2) ← readN b1 (getU32 lenb)
    let (rest, b3) ← loadNames k b2
    some (name :: rest, b3)

/-- The reverse-map reconstruction of Load: idByName[name] = S(i) for
the loop index i, which is 0-based. -/
def buildIdByName (w : Nat) (names : List Label) : List (Label × Int) :=
  names.enum.foldl (fun m q => mapSet m q.2 (icast w (q.1 : Int))) []

/-- CIDRIndex.Load of a byte sequence into a fresh index (none models
a returned error).  The fresh index's metadata is left untouched. -/
def load (w : Nat) (b : List Nat) : Option CIDRIndex := do
  let (hdr, b1) ← readN b 12
  let total := getU32 (hdr.take 4)
  let nodesLen := getU32 ((hdr.drop 4).take 4)
  let namesLen := getU32 (hdr.drop 8)
  let (nodes, b2) ← loadNodes w nodesLen b1
  let (names, _) ← loadNames namesLen b2
  some { meta := Metadata.empty
         nodes := nodes
         names := names
         total := total
         idByName := buildIdByName w names }

/-! ## The underlying positional reader

The file-backed engine consumes an io.ReaderAt.  The underlying source
is modelled as an immutable byte sequence with the standard ReadAt
contract of bytes.Reader / SectionReader: reading at or past the end
yields (0, EOF); a short read yields the available bytes and EOF. -/

/-- The only read error the byte-sequence source produces. -/
inductive RErr where
  | eof
  deriving DecidableEq, Repr

/-- A ReadAt result: count, error, and the bytes written. -/
abbrev RRes := Nat × Option RErr × List Nat

/-- ReadAt on an immutable byte sequence. -/
def readAtD (d : List Nat) (off lenb : Nat) : RRes :=
  if d.length ≤ off then (0, some .eof, [])
  else
    let n := min lenb (d.length - off)
    (n, if n < lenb then some RErr.eof else none, (d.drop off).take n)

/-! ## bufReaderAt (the block cache) -/

/-- bufReaderAt: one cached block. -/
structure BufReaderAt where
  offset : Nat
  buf : List Nat
  sizeTilEOF : Int
  lastErr : Option RErr
  deriving Repr

/-- newBufReaderAt. -/
def newBufReaderAt (size : Nat) : BufReaderAt :=
  ⟨0, List.replicate size 0, -1, none⟩

namespace BufReaderAt

def bufSize (r : BufReaderAt) : Nat := r.buf.length

def cacheOffset (r : BufReaderAt) (off : Nat) : Nat :=
  off / r.bufSize * r.bufSize

def expectedCacheEnd (r : BufReaderAt) (off : Nat) : Nat :=
  r.cacheOffset off + r.bufSize

def cacheEnd (r : BufReaderAt) : Nat := r.offset + r.bufSize

def dataEnd (r : BufReaderAt) : Int := (r.offset : Int) + r.sizeTilEOF

def isInitialized (r : BufReaderAt) : Prop := 0 ≤ r.sizeTilEOF

instance (r : BufReaderAt) : Decidable r.isInitialized := by
  unfold isInitialized; infer_instance

/-- readAtAndRenewCache: reset to the aligned block and read it whole
from the underlying source d. -/
def readAtAndRenewCache (r : BufReaderAt) (d : List Nat) (off : Nat) :
    (Nat × Option RErr) × BufReaderAt :=
  let expOffset := r.cacheOffset off
  if r.isInitialized ∧ expOffset = r.offset then ((0, none), r)
  else
    let q := readAtD d expOffset r.bufSize
    (⟨q.1, q.2.1⟩,
      { offset := expOffset
        buf := q.2.2 ++ r.buf.drop q.1
        sizeTilEOF := (q.1 : Int)
        lastErr := q.2.1 })

/-- copySafe: serve a request from the cache, honouring the short-read
boundary. -/
def copySafe (r : BufReaderAt) (lenb off : Nat) : RRes :=
  let bufEnd := off + lenb
  let s := off - r.cacheOffset off
  if r.dataEnd ≤ (off : Int) then (0, some .eof, [])
  else if (off : Int) < r.dataEnd ∧ r.dataEnd < (bufEnd : Int) then
    let e := r.sizeTilEOF.toNat
    (e - s, r.lastErr, (r.buf.take e).drop s)
  else if (bufEnd : Int) ≤ r.dataEnd then
    (lenb, none, (r.buf.take (s + lenb)).drop s)
  else (0, none, [])

/-- bufReaderAt.ReadAt: delegate on a block-straddling request,
otherwise serve from the (possibly renewed) cache. -/
def readAt (r : BufReaderAt) (d : List Nat) (off lenb : Nat) :
    RRes × BufReaderAt :=
  let bufEnd := off + lenb
  if (off < r.cacheOffset off ∧ r.cacheOffset off < bufEnd) ∨
      (off < r.expectedCacheEnd off ∧ r.expectedCacheEnd off < bufEnd) then
    (readAtD d off lenb, r)
  else if ¬ r.isInitialized ∨ r.expectedCacheEnd off ≤ r.offset ∨
      r.cacheEnd ≤ r.cacheOffset off then
    let q := r.readAtAndRenewCache d off
    if q.1.1 = 0 then ((0, q.1.2, []), q.2)
    else (q.2.copySafe lenb off, q.2)
  else if r.offset ≤ off ∧ bufEnd ≤ r.cacheEnd then
    (r.copySafe lenb off, r)
  else ((0, none, []), r)

end BufReaderAt

/-- The reachable-state invariant of the block cache: the block size is
positive, and once initialized the cached block is aligned, holds
exactly the bytes of d at its offset up to the short-read boundary, and
records the EOF status of that block read. -/
def GoodBuf (d : List Nat) (r : BufReaderAt) : Prop :=
  0 < r.bufSize ∧
    (0 ≤ r.sizeTilEOF →
      r.offset % r.bufSize = 0 ∧
      r.sizeTilEOF = ((min r.bufSize (d.length - r.offset) : Nat) : Int) ∧
      r.buf.take r.sizeTilEOF.toNat =
        (d.drop r.offset).take r.sizeTilEOF.toNat ∧
      r.lastErr =
        (if r.sizeTilEOF.toNat < r.bufSize then some RErr.eof else none))

/-! ## The current (versioned) codec

The current on-disk format carries a 20-byte header (a version/flags
word and a metadata region) parsed by the type hd, which Open consumes;
hd and the current versioned Save/Load are repository code that is not
part of the corpus (Open references them), so they are modelled from
spec section 6.2. -/

/-- Modelled from the spec: the hd header record of the versioned
binary format (spec 6.2): version_and_flags (bit 31 = wide ids,
low bits = version, must be 1), total, nodes_len, labels_len,
metadata_len. -/
structure Hd where
  wide : Bool
  total : Nat
  nodesLen : Nat
  namesLen : Nat
  metadataLen : Nat
  deriving DecidableEq, Repr

/-- Modelled from the spec: hd.UnmarshalBinary over the 20-byte
header; the version in the low 31 bits must be 1. -/
def hdUnmarshal (b : List Nat) : Option Hd :=
  if b.length = 20 then
    let vf := getU32 (b.take 4)
    if vf % 2 ^ 31 = 1 then
      some ⟨2 ^ 31 ≤ vf, getU32 ((b.drop 4).take 4), getU32 ((b.drop 8).take 4),
        getU32 ((b.drop 12).take 4), getU32 ((b.drop 16).take 4)⟩
    else none
  else none

/-- Modelled from the spec: the versioned encoder (spec 6.2): 20-byte
header, metadata JSON bytes (kept opaque here as metaBytes), node
records, label records. -/
def encodeV2 (w : Nat) (idx : CIDRIndex) (metaBytes : List Nat) : List Nat :=
  putU32 ((if w = 16 then 0 else 2 ^ 31) + 1) ++ putU32 idx.total ++
    putU32 idx.nodes.length ++ putU32 idx.names.length ++
    putU32 metaBytes.length ++ metaBytes ++
    idx.nodes.flatMap (marshalNode w) ++
    idx.names.flatMap (fun n => putU32 n.length ++ n)

/-- Modelled from the spec: the versioned decoder into a fresh
in-memory index (spec 4.4: decoding reconstructs nodes, names and
idByName; the metadata JSON region is skipped here since no claim
reads the decoded metadata). -/
def loadV2 (b : List Nat) : Option CIDRIndex := do
  let (hdrb, b1) ← readN b 20
  let h ← hdUnmarshal hdrb
  let (_mb, b2) ← readN b1 h.metadataLen
  let wv := if h.wide then 32 else 16
  let (nodes, b3) ← loadNodes wv h.nodesLen b2
  let (names, _) ← loadNames h.namesLen b3
  some { meta := Metadata.empty
         nodes := nodes
         names := names
         total := h.total
         idByName := buildIdByName wv names }

/-! ## The file-backed index (CIDRIndexFile, Open)

Open wraps the underlying reader in a bufReaderAt; by the cache
equivalence proved below every ReadAt through the cache returns
exactly what the underlying source returns, so the file-backed
operations are modelled with direct reads on the byte sequence. -/

/-- CIDRIndexFile: offsets and the eagerly-read label table. -/
structure CIDRIndexFile where
  nodesOffset : Nat
  nodeSize : Nat
  nodesLen : Nat
  namesOffset : Nat
  namesLen : Nat
  names : List Label
  total : Nat
  deriving DecidableEq, Repr

/-- CIDRIndexFile.readNames: length-prefixed label records read via
ReadAt (an EOF on the 4-byte length read is tolerated by the source,
leaving the unread suffix of the length buffer zero). -/
def readNamesF (d : List Nat) : Nat → Nat → Option (List Label)
  | 0, _ => some []
  | k + 1, off =>
    let q := readAtD d off 4
    let nameLen := getU32 (q.2.2 ++ List.replicate (4 - q.1) 0)
    let q2 := readAtD d (off + 4) nameLen
    match q2.2.1 with
    | some _ => none
    | none =>
      (readNamesF d k (off + 4 + nameLen)).map
        fun rest => (q2.2.2 ++ List.replicate (nameLen - q2.1) 0) :: rest

/-- CIDRIndexFile.readNode: read one node record at
nodesOffset + id*nodeSize and unmarshal it (w is the id width the
generic instantiation fixes; nodeSize w bytes per record). -/
def readNodeF (d : List Nat) (w nodesOffset : Nat) (id : Nat) : Option TrieNode :=
  let q := readAtD d (nodesOffset + id * nodeSize w) (nodeSize w)
  match q.2.1 with
  | some _ => none
  | none => if q.1 = nodeSize w then unmarshalNode w q.2.2 else none

/-- The lookup loop of CIDRIndexFile.lookupIP: like the in-memory
loop, but each visited node is read from the source. -/
def fileLookupLoop (d : List Nat) (w nodesOffset : Nat) (oct : List Nat) :
    Int → Nat → Nat → Int → Int → Option (Int × Int × Int)
  | cur, _, 0, bestID, bestLen => some (cur, bestID, bestLen)
  | cur, i, rem + 1, bestID, bestLen =>
    match (if cur < 0 then none else readNodeF d w nodesOffset cur.toNat) with
    | none => none
    | some nd =>
      let best :=
        if nd.id ≠ -1 ∧ bestLen < nd.maskLen then (nd.id, nd.maskLen)
        else (bestID, bestLen)
      let ci := nd.child (bit oct i)
      if ci = -1 then some (cur, best.1, best.2)
      else fileLookupLoop d w nodesOffset oct ci (i + 1) rem best.1 best.2

/-- CIDRIndexFile.lookupIP on canonical octets (none models a
propagated read error or panic). -/
def fileLookupIP (d : List Nat) (w : Nat) (f : CIDRIndexFile)
    (oct : List Nat) : Option Label :=
  let maxBits := if oct.length = 4 then 32 else 128
  match fileLookupLoop d w f.nodesOffset oct 0 0 maxBits (-1) (-1) with
  | none => none
  | some (fin, bestID, bestLen) =>
    match (if fin < 0 then none else readNodeF d w f.nodesOffset fin.toNat) with
    | none => none
    | some nd =>
      let best := if nd.id ≠ -1 ∧ bestLen < nd.maskLen then nd.id else bestID
      if best = -1 then some []
      else if best < 1 then none
      else f.names[best.toNat - 1]?

/-- Open: parse the 20-byte header via hd, read the metadata region,
pick the id width from the header flag, compute the node and name
offsets and read the label table eagerly. -/
def openIndex (d : List Nat) : Option (CIDRIndexFile × Nat) :=
  let q := readAtD d 0 20
  match q.2.1 with
  | some _ => none
  | none =>
    match hdUnmarshal q.2.2 with
    | none => none
    | some h =>
      let metaOK :=
        if 0 < h.metadataLen then (readAtD d 20 h.metadataLen).2.1 = none
        else True
      if metaOK then
        let w := if h.wide then 32 else 16
        let nodesOffset := 20 + h.metadataLen
        let namesOffset := nodesOffset + h.nodesLen * nodeSize w
        match readNamesF d h.namesLen namesOffset with
        | none => none
        | some names =>
          some (⟨nodesOffset, nodeSize w, h.nodesLen, namesOffset,
            h.namesLen, names, h.total⟩, w)
      else none

/-- The lookup of the index Open builds on a byte sequence. -/
def openLookup (d : List Nat) (oct : List Nat) : Option Label :=
  match openIndex d with
  | none => none
  | some (f, w) => fileLookupIP d w f oct

/-! ## The specification side: longest-prefix match -/

/-- A prefix contains an address (spec glossary: a CIDR denotes all
addresses that share the given prefix): the mask fits in the address
and the first maskLen bits agree. -/
def pmatch (p : Pfx) (a : List Nat) : Prop :=
  p.maskLen ≤ 8 * a.length ∧ ∀ i < p.maskLen, bit p.oct i = bit a i

instance (p : Pfx) (a : List Nat) : Decidable (pmatch p a) := by
  unfold pmatch; infer_instance

/-- The element of P with the longest prefix containing a. -/
def specBest (P : List (Pfx × Label)) (a : List Nat) : Option (Pfx × Label) :=
  P.foldr
    (fun q acc =>
      if pmatch q.1 a then
        match acc with
        | none => some q
        | some r => if r.1.maskLen < q.1.maskLen then some q else some r
      else acc)
    none

/-- The specified lookup result: the best label, or empty. -/
def specLookup (P : List (Pfx × Label)) (a : List Nat) : Label :=
  ((specBest P a).map (fun q => q.2)).getD []

/-! ## Well-formedness predicates -/

/-- A child field is -1 or an in-bounds index. -/
def ChildOK (len : Nat) (c : Int) : Prop := c = -1 ∨ (0 ≤ c ∧ c < (len : Int))

/-- Every child of every node is -1 or in bounds. -/
def WFC (nodes : List TrieNode) : Prop :=
  ∀ nd ∈ nodes, ChildOK nodes.length nd.child0 ∧ ChildOK nodes.length nd.child1

/-- Field ranges required for an exact binary round trip of width w. -/
def EncOK (w : Nat) (idx : CIDRIndex) : Prop :=
  idx.total < 2 ^ 32 ∧ idx.nodes.length < 2 ^ 32 ∧ idx.names.length < 2 ^ 32 ∧
    (∀ nd ∈ idx.nodes,
      (-(2 ^ 31) ≤ nd.child0 ∧ nd.child0 < 2 ^ 31) ∧
      (-(2 ^ 31) ≤ nd.child1 ∧ nd.child1 < 2 ^ 31) ∧
      (-(2 ^ (w - 1)) ≤ nd.id ∧ nd.id < 2 ^ (w - 1)) ∧
      (-(2 ^ 7) ≤ nd.maskLen ∧ nd.maskLen < 2 ^ 7)) ∧
    ∀ n ∈ idx.names, (∀ b ∈ n, b < 256) ∧ n.length < 2 ^ 32

/-! ## Path semantics of the trie -/

/-- Follow a bit path from a node index (none when the path leaves the
trie or an index is invalid). -/
def follow (nodes : List TrieNode) : Int → List Nat → Option Int
  | cur, [] => some cur
  | cur, b :: rest =>
    match nodeAt nodes cur with
    | none => none
    | some nd => if nd.child b = -1 then none else follow nodes (nd.child b) rest

/-- The stamp found at the end of a bit path from the root: the
(id, maskLen) pair of the node there, none if the path does not exist
or the node is unstamped. -/
def stampOf (nodes : List TrieNode) (bs : List Nat) : Option (Int × Int) :=
  match follow nodes 0 bs with
  | none => none
  | some f =>
    match nodeAt nodes f with
    | none => none
    | some nd => if nd.id = -1 then none else some (nd.id, nd.maskLen)

/-- The first n bits of an address. -/
def firstBits (a : List Nat) (n : Nat) : List Nat :=
  (List.range n).map (bit a)

/-- A list of bit values. -/
def BitsOK (bs : List Nat) : Prop := ∀ x ∈ bs, x = 0 ∨ x = 1

/-- The label of the (first) entry of P whose prefix has the given bit
path. -/
def labelAt (P : List (Pfx × Label)) (bs : List Nat) : Option Label :=
  (P.find? (fun q => decide (pathBits q.1 = bs))).map (fun q => q.2)

/-- The 1-based position of a label in the names table. -/
def posOf (names : List Label) (l : Label) : Int := (names.indexOf l : Int) + 1

/-- One step of the running-best update used by the lookup loop. -/
def stepBest (b : Int × Int) (s : Option (Int × Int)) : Int × Int :=
  match s with
  | none => b
  | some q => if q.1 ≠ -1 ∧ b.2 < q.2 then q else b

/-- Fold the best update over the stamps at depths i, i+1, ..., i+k
along the bit path of a. -/
def foldStamps (nodes : List TrieNode) (a : List Nat) :
    (Int × Int) → Nat → Nat → Int × Int
  | b, i, 0 => stepBest b (stampOf nodes (firstBits a i))
  | b, i, k + 1 =>
    foldStamps nodes a (stepBest b (stampOf nodes (firstBits a i))) (i + 1) k

/-- The child field of the node at a Nat index. -/
def childOf (nodes : List TrieNode) (j : Nat) (b : Nat) : Int :=
  (nodes.getD j freshNode).child b

/-- The tree shape of the insertion-built trie: no edge targets the
root, and every node has at most one in-edge. -/
def ParentInv (nodes : List TrieNode) : Prop :=
  (∀ j, j < nodes.length → ∀ b, b ≤ 1 → childOf nodes j b ≠ 0) ∧
    ∀ j1, j1 < nodes.length → ∀ j2, j2 < nodes.length →
      ∀ b1, b1 ≤ 1 → ∀ b2, b2 ≤ 1 →
        childOf nodes j1 b1 ≠ -1 → childOf nodes j1 b1 = childOf nodes j2 b2 →
        j1 = j2 ∧ b1 = b2

/-- nodes2 extends nodes: old node stamps are untouched, present old
edges are untouched, newly linked edges of old nodes and all edges of
new nodes point into the new region, and new nodes are unstamped. -/
def Extends (nodes nodes2 : List TrieNode) : Prop :=
  nodes.length ≤ nodes2.length ∧
    (∀ j, j < nodes.length →
      (nodes2.getD j freshNode).id = (nodes.getD j freshNode).id ∧
      (nodes2.getD j freshNode).maskLen = (nodes.getD j freshNode).maskLen ∧
      ∀ b, ((nodes.getD j freshNode).child b ≠ -1 →
              (nodes2.getD j freshNode).child b = (nodes.getD j freshNode).child b) ∧
           ((nodes.getD j freshNode).child b = -1 →
              (nodes2.getD j freshNode).child b = -1 ∨
                ((nodes.length : Int) ≤ (nodes2.getD j freshNode).child b ∧
                  (nodes2.getD j freshNode).child b < (nodes2.length : Int)))) ∧
    ∀ j, nodes.length ≤ j → j < nodes2.length →
      (nodes2.getD j freshNode).id = -1 ∧
      ∀ b, (nodes2.getD j freshNode).child b = -1 ∨
        ((nodes.length : Int) ≤ (nodes2.getD j freshNode).child b ∧
          (nodes2.getD j freshNode).child b < (nodes2.length : Int))

/-- The build invariant tying the trie, the label tables and the list
of already-inserted prefixes together. -/
def Inv (idx : CIDRIndex) (P : List (Pfx × Label)) : Prop :=
  0 < idx.nodes.length ∧ WFC idx.nodes ∧ ParentInv idx.nodes ∧
    idx.names.Nodup ∧
    (∀ l ∈ idx.names, ∃ q ∈ P, q.2 = l) ∧
    (∀ q ∈ P, q.2 ∈ idx.names) ∧
    (∀ nm, mapGet idx.idByName nm =
      if nm ∈ idx.names then posOf idx.names nm else 0) ∧
    ∀ bs, BitsOK bs →
      stampOf idx.nodes bs =
        (labelAt P bs).map (fun l => (posOf idx.names l, (bs.length : Int)))

end Netrie

namespace Netrie

/-! # Theorems

Basic facts about the casts and byte codecs, then the claims. -/

theorem emod_two_pow_eq (w : Nat) (x : Int) (h0 : 0 ≤ x) (h1 : x < (2 ^ w : Nat)) :
    x % ((2 ^ w : Nat) : Int) = x :=
  Int.emod_eq_of_lt h0 (by exact_mod_cast h1)

theorem toSigned_toUnsigned (w : Nat) (hw : 1 ≤ w) (x : Int)
    (h0 : -(2 ^ (w - 1)) ≤ x) (h1 : x < 2 ^ (w - 1)) :
    toSigned w (toUnsigned w x) = x := by
  have hsplit : (2 : Int) ^ (w - 1) * 2 = 2 ^ w := by
    rw [← pow_succ]
    congr 1
    omega
  have hcast : ((2 ^ w : Nat) : Int) = (2 : Int) ^ w := by push_cast; ring
  unfold toSigned toUnsigned
  rcases le_or_lt 0 x with hx | hx
  · have hm : x % ((2 ^ w : Nat) : Int) = x := by
      refine Int.emod_eq_of_lt hx ?_
      rw [hcast]; omega
    rw [hm]
    have hxn : ((x.toNat : Int)) = x := Int.toNat_of_nonneg hx
    have hlt : x.toNat < 2 ^ (w - 1) := by
      have : (x.toNat : Int) < ((2 ^ (w - 1) : Nat) : Int) := by
        rw [hxn]; exact_mod_cast h1
      exact_mod_cast this
    rw [if_pos hlt, hxn]
  · have hm : x % ((2 ^ w : Nat) : Int) = x + 2 ^ w := by
      have h2 : (x + 2 ^ w) % ((2 ^ w : Nat) : Int) = x % ((2 ^ w : Nat) : Int) := by
        rw [hcast]
        have h3 := @Int.add_mul_emod_self_left x ((2 : Int) ^ w) 1
        rw [mul_one] at h3
        exact h3
      rw [← h2]
      refine Int.emod_eq_of_lt (by omega) ?_
      rw [hcast]; omega
    rw [hm]
    have hnn : 0 ≤ x + 2 ^ w := by omega
    have hxn : (((x + 2 ^ w).toNat : Int)) = x + 2 ^ w := Int.toNat_of_nonneg hnn
    have hge : ¬ (x + 2 ^ w).toNat < 2 ^ (w - 1) := by
      intro hcon
      have : ((x + 2 ^ w).toNat : Int) < ((2 ^ (w - 1) : Nat) : Int) := by
        exact_mod_cast hcon
      rw [hxn] at this
      push_cast at this
      omega
    rw [if_neg hge, hxn]
    push_cast
    omega

theorem icast_eq_self (w : Nat) (hw : 1 ≤ w) (x : Int)
    (h0 : -(2 ^ (w - 1)) ≤ x) (h1 : x < 2 ^ (w - 1)) : icast w x = x := by
  have hsplit : (2 : Int) ^ (w - 1) * 2 = 2 ^ w := by
    rw [← pow_succ]
    congr 1
    omega
  have hcast : ((2 ^ w : Nat) : Int) = (2 : Int) ^ w := by push_cast; ring
  unfold icast
  have hm : (x + 2 ^ (w - 1)) % ((2 ^ w : Nat) : Int) = x + 2 ^ (w - 1) := by
    refine Int.emod_eq_of_lt (by omega) ?_
    rw [hcast]; omega
  rw [hm]
  ring

theorem getU32_putU32 (n : Nat) (h : n < 2 ^ 32) : getU32 (putU32 n) = n := by
  unfold getU32 putU32
  simp [List.getD]
  omega

theorem putU32_length (n : Nat) : (putU32 n).length = 4 := rfl

theorem getU16_putU16 (n : Nat) (h : n < 2 ^ 16) : getU16 (putU16 n) = n := by
  unfold getU16 putU16
  simp [List.getD]
  omega

/-! ## C9: invalid address text -/

/-- C9: for every input string on which the address parser fails,
Lookup returns the empty string, and SafeLookupIP carries a nil error
on every input, on every index. -/
theorem C9_invalid_text_lookup_empty_no_error
    (parse : String → Option (List Nat)) (idx : CIDRIndex) (s : String)
    (h : parse s = none) :
    lookupStr parse idx s = some [] ∧
      ∀ oct, (safeLookupIP idx oct).2 = none := by
  refine ⟨?_, fun _ => rfl⟩
  unfold lookupStr
  rw [h]

/-- Witness for C9 at a concrete failing parse, string and the empty
index. -/
theorem C9_witness :
    (fun _ : String => (none : Option (List Nat))) "invalid" = none ∧
      (lookupStr (fun _ => none) newCIDRIndex "invalid" = some [] ∧
        ∀ oct, (safeLookupIP newCIDRIndex oct).2 = none) :=
  ⟨rfl, C9_invalid_text_lookup_empty_no_error (fun _ => none) newCIDRIndex "invalid" rfl⟩

/-! ## C5: family isolation fails -/

/-- C5 counterexample: the label inserted only under the IPv4 prefix
0.0.0.0/0 is returned for the IPv6 query ::1, contradicting both the
general family-isolation statement and the specific statement that
0.0.0.0/0 never matches an IPv6 query address. -/
theorem C5_counterexample :
    lookupIP (insertAll 16 [(⟨[0, 0, 0, 0], 0⟩, [118])])
      [0, 0, 0, 0, 0, 0, 0, 0, 0, 0, 0, 0, 0, 0, 0, 1] = some [118] := by
  decide

/-- C5 amended: the two families share the trie root, so a prefix
inserted as 0.0.0.0/0 stamps the root and matches every IPv4 and every
IPv6 query address (family isolation as claimed does not hold). -/
theorem C5_amended_zero_prefix_matches_all (L : Label) (a : List Nat)
    (ha : a.length = 4 ∨ a.length = 16) :
    lookupIP (insertAll 16 [(⟨[0, 0, 0, 0], 0⟩, L)]) a = some L := by
  have hidx : insertAll 16 [(⟨[0, 0, 0, 0], 0⟩, L)] =
      { meta := Metadata.empty
        nodes := [⟨-1, -1, 1, 0⟩]
        names := [L]
        total := 1
        idByName := [(L, 1)] } := by
    show addNet 16 newCIDRIndex ⟨[0, 0, 0, 0], 0⟩ L = _
    unfold addNet newCIDRIndex
    simp [mapGet, mapSet, pathBits, insertBits, stampN, setN, getN, nodeAt,
      freshNode, icast]
  rw [hidx]
  have hchild : ∀ b : Nat, TrieNode.child ⟨-1, -1, 1, 0⟩ b = -1 := by
    intro b
    unfold TrieNode.child
    split <;> rfl
  have hloop : ∀ rem : Nat,
      lookupLoop [⟨-1, -1, 1, 0⟩] a 0 0 (rem + 1) (-1) (-1) = some (0, 1, 0) := by
    intro rem
    unfold lookupLoop
    simp [nodeAt, hchild]
  unfold lookupIP lookupCore
  rcases ha with h | h <;> simp only [h] <;> norm_num
  · rw [show (32 : Nat) = 31 + 1 from rfl, hloop 31]
    simp [nodeAt]
  · rw [show (128 : Nat) = 127 + 1 from rfl, hloop 127]
    simp [nodeAt]

/-- Witness for the amended C5 at a concrete label and IPv4 address. -/
theorem C5_amended_witness :
    (([1, 2, 3, 4] : List Nat).length = 4 ∨ ([1, 2, 3, 4] : List Nat).length = 16) ∧
      lookupIP (insertAll 16 [(⟨[0, 0, 0, 0], 0⟩, [7])]) [1, 2, 3, 4] = some [7] :=
  ⟨Or.inl rfl, C5_amended_zero_prefix_matches_all [7] [1, 2, 3, 4] (Or.inl rfl)⟩

/-! ## C2: Minimize breaks lookups

The root swap at the end of Minimize exchanges the node values at
slots 0 and finalRoot and patches the (subsequently unused) remap
table, but never patches the child fields already stored inside the
output nodes.  Any node whose child referenced canonical slot 0 (the
class of the highest-index old node) afterwards points at the root.
With the two prefixes 0.0.0.0/2 -> a and 192.0.0.0/2 -> b, the address
192.0.0.1 resolves to b before minimization and to a after it. -/

/-- C2 fails on the code: minimization changes the lookup result of
192.0.0.1 on the index {0.0.0.0/2 -> [1], 192.0.0.0/2 -> [2]} from
[2] to [1]. -/
theorem C2_minimize_changes_lookup :
    lookupIP (insertAll 16 [(⟨[0, 0, 0, 0], 2⟩, [1]), (⟨[192, 0, 0, 0], 2⟩, [2])])
        [192, 0, 0, 1] = some [2] ∧
      lookupIP (minimize
          (insertAll 16 [(⟨[0, 0, 0, 0], 2⟩, [1]), (⟨[192, 0, 0, 0], 2⟩, [2])]))
        [192, 0, 0, 1] = some [1] := by
  decide

/-! ## C6: the reverse map after Load is 0-based -/

/-- C6 fails on the code: after loading the saved one-name index, the
reconstructed reverse map sends the name at (1-based) table position 1
to 0 — the reserved "absent" id — where every in-build insert uses the
1-based id, as the second conjunct shows. -/
theorem C6_load_reverse_map_off_by_one :
    ((load 16 (save 16 (insertAll 16 [(⟨[10, 0, 0, 0], 8⟩, [120])]))).map
        (fun j => mapGet j.idByName [120])) = some 0 ∧
      mapGet (insertAll 16 [(⟨[10, 0, 0, 0], 8⟩, [120])]).idByName [120] = 1 := by
  decide

/-! ## C7: the strict-insert variant -/

theorem setN_length (nodes : List TrieNode) (i : Int) (n : TrieNode) :
    (setN nodes i n).length = nodes.length := by
  unfold setN
  split <;> simp

theorem setChild_length (nodes : List TrieNode) (i : Int) (b : Nat) (v : Int) :
    (setChild nodes i b v).length = nodes.length := by
  unfold setChild
  exact setN_length _ _ _

theorem stampN_length (nodes : List TrieNode) (i : Int) (id m : Int) :
    (stampN nodes i id m).length = nodes.length := by
  unfold stampN
  exact setN_length _ _ _

theorem getN_append_length (l : List TrieNode) (nd : TrieNode) :
    getN (l ++ [nd]) (l.length : Int) = nd := by
  unfold getN nodeAt
  have hnn : ¬ ((l.length : Int) < 0) := by omega
  simp only [hnn, if_neg, Int.toNat_natCast]
  rw [List.getElem?_append_right (by omega)]
  simp

/-- The node freshly appended by an allocating step is itself fresh. -/
theorem fresh_after_alloc (nodes : List TrieNode) (cur : Int) (b : Nat) :
    getN (setChild nodes cur b (nodes.length : Int) ++ [freshNode])
      ((nodes.length : Nat) : Int) = freshNode := by
  have h1 := getN_append_length (setChild nodes cur b (nodes.length : Int)) freshNode
  rw [setChild_length] at h1
  exact h1

/-- If the strict walk ends on an already-stamped terminal, the walk
allocated nothing: a freshly created node is never stamped. -/
theorem insertBits_from_fresh (bs : List Nat) :
    ∀ (nodes : List TrieNode) (cur : Int), getN nodes cur = freshNode →
      (getN (insertBits nodes cur bs).1 (insertBits nodes cur bs).2).id = -1 := by
  induction bs with
  | nil =>
    intro nodes cur h
    simp [insertBits, h, freshNode]
  | cons b rest ih =>
    intro nodes cur h
    have hci : (getN nodes cur).child b = -1 := by
      rw [h]
      unfold TrieNode.child freshNode
      split <;> rfl
    rw [insertBits]
    simp only [hci, if_pos]
    exact ih _ _ (fresh_after_alloc nodes cur b)

/-- If the node reached by the strict walk is stamped, the walk left
the node array untouched. -/
theorem insertBits_stamped_unchanged (bs : List Nat) :
    ∀ (nodes : List TrieNode) (cur : Int),
      (getN (insertBits nodes cur bs).1 (insertBits nodes cur bs).2).id ≠ -1 →
      (insertBits nodes cur bs).1 = nodes := by
  induction bs with
  | nil => intro nodes cur _; rfl
  | cons b rest ih =>
    intro nodes cur hst
    rw [insertBits] at hst ⊢
    by_cases hci : (getN nodes cur).child b = -1
    · exfalso
      simp only [hci, if_pos] at hst
      exact hst (insertBits_from_fresh rest _ _ (fresh_after_alloc nodes cur b))
    · simp only [hci, if_neg] at hst ⊢
      exact ih nodes _ hst

/-- C7 corrected: when the terminal node of a strict insert is already
stamped, the operation returns the overlap error — which wraps
ErrOverlap and the offending CIDR text, not the labels — and leaves
the index entirely unchanged (no node modified, none appended). -/
theorem C7_strict_overlap_error_and_unchanged (t : SCIDRIndex) (cidr : String)
    (oct : List Nat) (m : Nat) (id : Int)
    (hov : (getN (insertBits t.nodes 0 ((List.range m).map (bit oct))).1
      (insertBits t.nodes 0 ((List.range m).map (bit oct))).2).id ≠ -1) :
    (addCIDRStrict t cidr oct m id).2 = some ("overlap: " ++ cidr) ∧
      (addCIDRStrict t cidr oct m id).1 = t := by
  unfold addCIDRStrict
  rw [if_pos hov]
  refine ⟨rfl, ?_⟩
  have hun := insertBits_stamped_unchanged _ t.nodes 0 hov
  cases t
  simp [hun]

/-- Witness for the corrected C7: a duplicate insert of 10.0.0.0/8. -/
theorem C7_witness :
    (getN (insertBits (addCIDRStrict newSCIDRIndex "10.0.0.0/8" [10, 0, 0, 0] 8 3).1.nodes
        0 ((List.range 8).map (bit [10, 0, 0, 0]))).1
      (insertBits (addCIDRStrict newSCIDRIndex "10.0.0.0/8" [10, 0, 0, 0] 8 3).1.nodes
        0 ((List.range 8).map (bit [10, 0, 0, 0]))).2).id ≠ -1 ∧
    (addCIDRStrict (addCIDRStrict newSCIDRIndex "10.0.0.0/8" [10, 0, 0, 0] 8 3).1
        "10.0.0.0/8" [10, 0, 0, 0] 8 5).2 = some ("overlap: " ++ "10.0.0.0/8") ∧
      (addCIDRStrict (addCIDRStrict newSCIDRIndex "10.0.0.0/8" [10, 0, 0, 0] 8 3).1
          "10.0.0.0/8" [10, 0, 0, 0] 8 5).1 =
        (addCIDRStrict newSCIDRIndex "10.0.0.0/8" [10, 0, 0, 0] 8 3).1 :=
  ⟨by decide,
    C7_strict_overlap_error_and_unchanged _ "10.0.0.0/8" [10, 0, 0, 0] 8 5 (by decide)⟩

/-- C7 counterexample to "the error carries both labels": two overlap
errors with entirely different existing and incoming ids are the very
same value, so the error determines neither; it is the fixed string
built from ErrOverlap and the CIDR text. -/
theorem C7_counterexample :
    (addCIDRStrict (addCIDRStrict newSCIDRIndex "10.0.0.0/8" [10, 0, 0, 0] 8 3).1
        "10.0.0.0/8" [10, 0, 0, 0] 8 5).2 = some "overlap: 10.0.0.0/8" ∧
      (addCIDRStrict (addCIDRStrict newSCIDRIndex "10.0.0.0/8" [10, 0, 0, 0] 8 7).1
          "10.0.0.0/8" [10, 0, 0, 0] 8 9).2 = some "overlap: 10.0.0.0/8" := by
  decide

/-! ## C1 counterexample: a /128 prefix never matches

AddNet stores the mask length through an int8 conversion; 128 becomes
-128, and the lookup comparison maskLen > best (with best starting at
-1) then never records the node, so the claim fails as stated on any
set containing a /128 prefix. -/

set_option maxRecDepth 4000 in
/-- C1 counterexample: the single /128 prefix ::1/128 contains the
queried address ::1 (it is the longest matching prefix of P), yet
LookupIP returns the empty string instead of its label. -/
theorem C1_counterexample :
    pmatch ⟨[0, 0, 0, 0, 0, 0, 0, 0, 0, 0, 0, 0, 0, 0, 0, 1], 128⟩
        [0, 0, 0, 0, 0, 0, 0, 0, 0, 0, 0, 0, 0, 0, 0, 1] ∧
      lookupIP (insertAll 16
          [(⟨[0, 0, 0, 0, 0, 0, 0, 0, 0, 0, 0, 0, 0, 0, 0, 1], 128⟩, [7])])
        [0, 0, 0, 0, 0, 0, 0, 0, 0, 0, 0, 0, 0, 0, 0, 1] = some [] := by
  constructor
  · constructor
    · decide
    · decide
  · decide

/-! ## Structural lemmas about the node array -/

theorem getN_eq_getD (nodes : List TrieNode) (i : Int) (h0 : 0 ≤ i) :
    getN nodes i = nodes.getD i.toNat freshNode := by
  unfold getN nodeAt
  rw [if_neg (by omega : ¬ i < 0), List.getD_eq_getElem?_getD]

theorem nodeAt_eq_some (nodes : List TrieNode) (i : Int) (h0 : 0 ≤ i)
    (h : i.toNat < nodes.length) :
    nodeAt nodes i = some (nodes.getD i.toNat freshNode) := by
  unfold nodeAt
  rw [if_neg (by omega : ¬ i < 0), List.getD_eq_getElem?_getD,
    List.getElem?_eq_getElem h]
  simp

theorem getD_set_self (nodes : List TrieNode) (j : Nat) (nd : TrieNode)
    (h : j < nodes.length) : (nodes.set j nd).getD j freshNode = nd := by
  rw [List.getD_eq_getElem?_getD, List.getElem?_set]
  simp [h]

theorem getD_set_other (nodes : List TrieNode) (i j : Nat) (nd : TrieNode)
    (h : i ≠ j) : (nodes.set i nd).getD j freshNode = nodes.getD j freshNode := by
  rw [List.getD_eq_getElem?_getD, List.getElem?_set, if_neg h,
    ← List.getD_eq_getElem?_getD]

theorem getD_append_left (nodes tail : List TrieNode) (j : Nat)
    (h : j < nodes.length) :
    (nodes ++ tail).getD j freshNode = nodes.getD j freshNode := by
  rw [List.getD_eq_getElem?_getD, List.getElem?_append_left h,
    ← List.getD_eq_getElem?_getD]

theorem getD_append_right_last (nodes : List TrieNode) (nd : TrieNode) :
    (nodes ++ [nd]).getD nodes.length freshNode = nd := by
  rw [List.getD_eq_getElem?_getD, List.getElem?_append_right (le_refl _)]
  simp

/-- The child field of the node written by setChild, for any read
bit c: updated exactly when c selects the same field as b. -/
theorem child_update (nd : TrieNode) (b c : Nat) (v : Int) :
    ((if b = 0 then { nd with child0 := v } else { nd with child1 := v }) :
        TrieNode).child c = if (c = 0) = (b = 0) then v else nd.child c := by
  unfold TrieNode.child
  by_cases hb : b = 0 <;> by_cases hc : c = 0 <;> simp [hb, hc]

theorem setChild_getD_self (nodes : List TrieNode) (i : Int) (b : Nat) (v : Int)
    (h0 : 0 ≤ i) (h : i.toNat < nodes.length) :
    (setChild nodes i b v).getD i.toNat freshNode =
      (if b = 0 then { nodes.getD i.toNat freshNode with child0 := v }
       else { nodes.getD i.toNat freshNode with child1 := v }) := by
  unfold setChild setN
  rw [if_pos h0, getN_eq_getD _ _ h0]
  split <;> exact getD_set_self _ _ _ h

theorem setChild_getD_other (nodes : List TrieNode) (i : Int) (b : Nat) (v : Int)
    (j : Nat) (h : j ≠ i.toNat) :
    (setChild nodes i b v).getD j freshNode = nodes.getD j freshNode := by
  unfold setChild setN
  split
  · exact getD_set_other _ _ _ _ (fun hc => h hc.symm)
  · rfl

theorem stampN_getD_self (nodes : List TrieNode) (i : Int) (id m : Int)
    (h0 : 0 ≤ i) (h : i.toNat < nodes.length) :
    (stampN nodes i id m).getD i.toNat freshNode =
      { nodes.getD i.toNat freshNode with id := id, maskLen := m } := by
  unfold stampN setN
  rw [if_pos h0, getN_eq_getD _ _ h0]
  exact getD_set_self _ _ _ h

theorem stampN_getD_other (nodes : List TrieNode) (i : Int) (id m : Int)
    (j : Nat) (h : j ≠ i.toNat) :
    (stampN nodes i id m).getD j freshNode = nodes.getD j freshNode := by
  unfold stampN setN
  split
  · exact getD_set_other _ _ _ _ (fun hc => h hc.symm)
  · rfl

theorem stampN_child (nodes : List TrieNode) (i : Int) (id m : Int)
    (j : Nat) (b : Nat) :
    ((stampN nodes i id m).getD j freshNode).child b =
      ((nodes.getD j freshNode).child b) := by
  by_cases h : j = i.toNat
  · subst h
    by_cases h0 : 0 ≤ i
    · by_cases hlt : i.toNat < nodes.length
      · rw [stampN_getD_self _ _ _ _ h0 hlt]
        unfold TrieNode.child
        split <;> rfl
      · have hsame : (stampN nodes i id m).getD i.toNat freshNode =
            nodes.getD i.toNat freshNode := by
          unfold stampN setN
          rw [if_pos h0, List.getD_eq_getElem?_getD, List.getElem?_set,
            if_pos rfl, if_neg hlt, List.getD_eq_getElem?_getD,
            List.getElem?_eq_none (by omega : nodes.length ≤ i.toNat)]
        rw [hsame]
    · unfold stampN setN
      rw [if_neg h0]
  · rw [stampN_getD_other _ _ _ _ _ h]

/-! ## Extends: structure-preserving growth -/

theorem extends_refl (nodes : List TrieNode) : Extends nodes nodes := by
  refine ⟨le_refl _, fun j hj => ⟨rfl, rfl, fun b => ⟨fun _ => rfl, fun h => Or.inl h⟩⟩,
    fun j hj hj2 => absurd hj2 (by omega)⟩

theorem extends_trans {n1 n2 n3 : List TrieNode}
    (h12 : Extends n1 n2) (h23 : Extends n2 n3) : Extends n1 n3 := by
  obtain ⟨hl12, hold12, hnew12⟩ := h12
  obtain ⟨hl23, hold23, hnew23⟩ := h23
  refine ⟨le_trans hl12 hl23, ?_, ?_⟩
  · intro j hj
    have h1 := hold12 j hj
    have h2 := hold23 j (lt_of_lt_of_le hj hl12)
    refine ⟨h2.1.trans h1.1, h2.2.1.trans h1.2.1, fun b => ⟨?_, ?_⟩⟩
    · intro hb
      have e1 : (n2.getD j freshNode).child b = (n1.getD j freshNode).child b :=
        (h1.2.2 b).1 hb
      have hb2 : (n2.getD j freshNode).child b ≠ -1 := by rw [e1]; exact hb
      have e2 : (n3.getD j freshNode).child b = (n2.getD j freshNode).child b :=
        (h2.2.2 b).1 hb2
      rw [e2, e1]
    · intro hb
      rcases (h1.2.2 b).2 hb with h1b | h1b
      · rcases (h2.2.2 b).2 h1b with h2b | h2b
        · exact Or.inl h2b
        · exact Or.inr ⟨by omega, h2b.2⟩
      · have hb2 : (n2.getD j freshNode).child b ≠ -1 := by omega
        have e2 : (n3.getD j freshNode).child b = (n2.getD j freshNode).child b :=
          (h2.2.2 b).1 hb2
        rw [e2]
        exact Or.inr ⟨h1b.1, by omega⟩
  · intro j hj hj3
    by_cases hj2 : j < n2.length
    · have h1 := hnew12 j hj hj2
      have h2 := hold23 j hj2
      refine ⟨h2.1.trans h1.1, fun b => ?_⟩
      rcases h1.2 b with hb | hb
      · rcases (h2.2.2 b).2 hb with h2b | h2b
        · exact Or.inl h2b
        · exact Or.inr ⟨by omega, h2b.2⟩
      · have hb2 : (n2.getD j freshNode).child b ≠ -1 := by omega
        have e2 : (n3.getD j freshNode).child b = (n2.getD j freshNode).child b :=
          (h2.2.2 b).1 hb2
        rw [e2]
        exact Or.inr ⟨hb.1, by omega⟩
    · have h2 := hnew23 j (by omega) hj3
      refine ⟨h2.1, fun b => ?_⟩
      rcases h2.2 b with hb | hb
      · exact Or.inl hb
      · exact Or.inr ⟨by omega, hb.2⟩

/-- One allocation step extends the array. -/
theorem extends_alloc (nodes : List TrieNode) (cur : Int) (b : Nat)
    (h0 : 0 ≤ cur) (hlt : cur.toNat < nodes.length)
    (hch : (getN nodes cur).child b = -1) :
    Extends nodes (setChild nodes cur b (nodes.length : Int) ++ [freshNode]) := by
  have hlen : (setChild nodes cur b (nodes.length : Int)).length = nodes.length :=
    setChild_length _ _ _ _
  have htot : (setChild nodes cur b (nodes.length : Int) ++ [freshNode]).length =
      nodes.length + 1 := by simp [hlen]
  refine ⟨by omega, ?_, ?_⟩
  · intro j hj
    rw [getD_append_left _ _ _ (by omega)]
    by_cases hji : j = cur.toNat
    · subst hji
      rw [setChild_getD_self _ _ _ _ h0 hlt]
      rw [getN_eq_getD _ _ h0] at hch
      refine ⟨by split <;> rfl, by split <;> rfl, fun c => ⟨?_, ?_⟩⟩
      · intro hcb
        rw [child_update]
        split
        · rename_i hsel
          exfalso
          apply hcb
          have heq : (nodes.getD cur.toNat freshNode).child c =
              (nodes.getD cur.toNat freshNode).child b := by
            unfold TrieNode.child
            by_cases hcc : c = 0 <;> by_cases hbb : b = 0 <;>
              simp [hcc, hbb] at hsel ⊢
          rw [heq, hch]
        · rfl
      · intro hcb
        rw [child_update]
        split
        · exact Or.inr ⟨le_refl _, by rw [htot]; omega⟩
        · exact Or.inl hcb
    · rw [setChild_getD_other _ _ _ _ _ hji]
      exact ⟨rfl, rfl, fun c => ⟨fun _ => rfl, fun h => Or.inl h⟩⟩
  · intro j hj hj2
    rw [htot] at hj2
    have hjeq : j = nodes.length := by omega
    subst hjeq
    have hfr : (setChild nodes cur b (nodes.length : Int) ++ [freshNode]).getD
        nodes.length freshNode = freshNode := by
      have h1 := getD_append_right_last (setChild nodes cur b (nodes.length : Int))
        freshNode
      rw [hlen] at h1
      exact h1
    rw [hfr]
    refine ⟨rfl, fun c => Or.inl ?_⟩
    unfold freshNode TrieNode.child
    split <;> rfl

theorem wfc_mem_bound {nodes : List TrieNode} (hwf : WFC nodes) (j : Nat)
    (hj : j < nodes.length) (b : Nat)
    (hch : (nodes.getD j freshNode).child b ≠ -1) :
    0 ≤ (nodes.getD j freshNode).child b ∧
      ((nodes.getD j freshNode).child b).toNat < nodes.length := by
  have hmem : nodes.getD j freshNode ∈ nodes := by
    rw [List.getD_eq_getElem?_getD, List.getElem?_eq_getElem hj]
    exact List.getElem_mem _
  obtain ⟨hc0, hc1⟩ := hwf _ hmem
  unfold ChildOK at hc0 hc1
  unfold TrieNode.child at hch ⊢
  by_cases hb : b = 0
  · rw [if_pos hb] at hch ⊢
    rcases hc0 with h | h
    · exact absurd h hch
    · exact ⟨h.1, by omega⟩
  · rw [if_neg hb] at hch ⊢
    rcases hc1 with h | h
    · exact absurd h hch
    · exact ⟨h.1, by omega⟩

/-- Old follows survive an extension. -/
theorem follow_of_extends {nodes nodes2 : List TrieNode}
    (hext : Extends nodes nodes2) (hwf : WFC nodes) :
    ∀ (bs : List Nat) (st f : Int), 0 ≤ st → st.toNat < nodes.length →
      follow nodes st bs = some f → follow nodes2 st bs = some f := by
  intro bs
  induction bs with
  | nil => intro st f _ _ h; exact h
  | cons b rest ih =>
    intro st f h0 hlt h
    have hle : nodes.length ≤ nodes2.length := hext.1
    rw [follow] at h ⊢
    rw [nodeAt_eq_some _ _ h0 hlt] at h
    rw [nodeAt_eq_some _ _ h0 (by omega : st.toNat < nodes2.length)]
    · simp only at h ⊢
      by_cases hch : (nodes.getD st.toNat freshNode).child b = -1
      · rw [if_pos hch] at h
        exact absurd h (by simp)
      · rw [if_neg hch] at h
        have hpres := ((hext.2.1 st.toNat hlt).2.2 b).1 hch
        rw [hpres, if_neg hch]
        have hbound := wfc_mem_bound hwf st.toNat hlt b hch
        exact ih _ _ hbound.1 hbound.2 h

theorem follow_bound {nodes : List TrieNode} (hwf : WFC nodes) :
    ∀ (bs : List Nat) (st f : Int), 0 ≤ st → st.toNat < nodes.length →
      follow nodes st bs = some f → 0 ≤ f ∧ f.toNat < nodes.length := by
  intro bs
  induction bs with
  | nil =>
    intro st f h0 hlt h
    rw [follow] at h
    cases h
    exact ⟨h0, hlt⟩
  | cons b rest ih =>
    intro st f h0 hlt h
    rw [follow, nodeAt_eq_some _ _ h0 hlt] at h
    simp only at h
    by_cases hch : (nodes.getD st.toNat freshNode).child b = -1
    · rw [if_pos hch] at h
      exact absurd h (by simp)
    · rw [if_neg hch] at h
      have hb := wfc_mem_bound hwf st.toNat hlt b hch
      exact ih _ _ hb.1 hb.2 h

/-! ## The insertion walk -/

theorem insertBits_cons (nodes : List TrieNode) (cur : Int) (b : Nat)
    (rest : List Nat) :
    insertBits nodes cur (b :: rest) =
      if (getN nodes cur).child b = -1 then
        insertBits (setChild nodes cur b (nodes.length : Int) ++ [freshNode])
          ((nodes.length : Nat) : Int) rest
      else insertBits nodes ((getN nodes cur).child b) rest := rfl

theorem childOK_mono {len len2 : Nat} (h : len ≤ len2) {c : Int}
    (hc : ChildOK len c) : ChildOK len2 c := by
  unfold ChildOK at hc ⊢
  rcases hc with hc | hc
  · exact Or.inl hc
  · exact Or.inr ⟨hc.1, by omega⟩

theorem wfc_alloc (nodes : List TrieNode) (cur : Int) (b : Nat)
    (hwf : WFC nodes) (h0 : 0 ≤ cur) (hlt : cur.toNat < nodes.length) :
    WFC (setChild nodes cur b (nodes.length : Int) ++ [freshNode]) := by
  intro nd hnd
  have hlen : (setChild nodes cur b (nodes.length : Int) ++ [freshNode]).length =
      nodes.length + 1 := by simp [setChild_length]
  rw [hlen]
  have hmem0 : nodes.getD cur.toNat freshNode ∈ nodes := by
    rw [List.getD_eq_getElem?_getD, List.getElem?_eq_getElem hlt]
    exact List.getElem_mem _
  rcases List.mem_append.mp hnd with hin | hin
  · unfold setChild setN at hin
    rw [if_pos h0] at hin
    rcases List.mem_or_eq_of_mem_set hin with hold | hmod
    · obtain ⟨hc0, hc1⟩ := hwf _ hold
      exact ⟨childOK_mono (by omega) hc0, childOK_mono (by omega) hc1⟩
    · obtain ⟨hc0, hc1⟩ := hwf _ hmem0
      rw [getN_eq_getD _ _ h0] at hmod
      subst hmod
      constructor
      · split
        · show ChildOK (nodes.length + 1) ((nodes.length : Nat) : Int)
          exact Or.inr ⟨by omega, by omega⟩
        · exact childOK_mono (by omega) hc0
      · split
        · exact childOK_mono (by omega) hc1
        · show ChildOK (nodes.length + 1) ((nodes.length : Nat) : Int)
          exact Or.inr ⟨by omega, by omega⟩
  · rw [List.mem_singleton.mp hin]
    exact ⟨Or.inl rfl, Or.inl rfl⟩

/-- childOf in terms of the structure written by setChild. -/
theorem childOf_alloc (nodes : List TrieNode) (cur : Int) (b : Nat) (v : Int)
    (h0 : 0 ≤ cur) (hlt : cur.toNat < nodes.length) (j c : Nat)
    (hj : j < nodes.length) :
    childOf (setChild nodes cur b v ++ [freshNode]) j c =
      if j = cur.toNat ∧ ((c = 0) = (b = 0)) then v else childOf nodes j c := by
  unfold childOf
  rw [getD_append_left _ _ _ (by rw [setChild_length]; omega)]
  by_cases hji : j = cur.toNat
  · subst hji
    rw [setChild_getD_self _ _ _ _ h0 hlt, child_update]
    by_cases hsel : (c = 0) = (b = 0)
    · rw [if_pos hsel, if_pos ⟨rfl, hsel⟩]
    · rw [if_neg hsel, if_neg (fun hc => hsel hc.2)]
  · rw [setChild_getD_other _ _ _ _ _ hji,
      if_neg (fun hc => hji hc.1)]

theorem childOf_alloc_fresh (nodes : List TrieNode) (cur : Int) (b : Nat) (v : Int)
    (c : Nat) :
    childOf (setChild nodes cur b v ++ [freshNode]) nodes.length c = -1 := by
  unfold childOf
  have h1 := getD_append_right_last (setChild nodes cur b v) freshNode
  rw [setChild_length] at h1
  rw [h1]
  unfold freshNode TrieNode.child
  split <;> rfl

/-- Allocation preserves the tree shape. -/
theorem pi_alloc (nodes : List TrieNode) (cur : Int) (b : Nat)
    (hwf : WFC nodes) (hpi : ParentInv nodes) (h0 : 0 ≤ cur)
    (hlt : cur.toNat < nodes.length) :
    ParentInv (setChild nodes cur b (nodes.length : Int) ++ [freshNode]) := by
  have hlen : (setChild nodes cur b (nodes.length : Int) ++ [freshNode]).length =
      nodes.length + 1 := by simp [setChild_length]
  have hchar := childOf_alloc nodes cur b (nodes.length : Int) h0 hlt
  have hbnd : ∀ j c, j < nodes.length → c ≤ 1 → childOf nodes j c ≠ -1 →
      0 ≤ childOf nodes j c ∧ (childOf nodes j c).toNat < nodes.length :=
    fun j c hj _ hc => wfc_mem_bound hwf j hj c hc
  constructor
  · intro j hj c hc
    rw [hlen] at hj
    by_cases hjold : j < nodes.length
    · rw [hchar j c hjold]
      split
      · intro hcon
        omega
      · exact hpi.1 j hjold c hc
    · have hje : j = nodes.length := by omega
      subst hje
      rw [childOf_alloc_fresh]
      omega
  · intro j1 hj1 j2 hj2 c1 hc1 c2 hc2 hne heq
    rw [hlen] at hj1 hj2
    by_cases hj1o : j1 < nodes.length
    · by_cases hj2o : j2 < nodes.length
      · rw [hchar j1 c1 hj1o] at hne heq
        rw [hchar j2 c2 hj2o] at heq
        by_cases hs1 : j1 = cur.toNat ∧ ((c1 = 0) = (b = 0))
        · rw [if_pos hs1] at hne heq
          by_cases hs2 : j2 = cur.toNat ∧ ((c2 = 0) = (b = 0))
          · refine ⟨by omega, ?_⟩
            have i1 : (c1 = 0) ↔ (b = 0) := by rw [hs1.2]
            have i2 : (c2 = 0) ↔ (b = 0) := by rw [hs2.2]
            by_cases hb0 : b = 0
            · have e1 : c1 = 0 := i1.mpr hb0
              have e2 : c2 = 0 := i2.mpr hb0
              omega
            · have e1 : ¬ c1 = 0 := fun hc => hb0 (i1.mp hc)
              have e2 : ¬ c2 = 0 := fun hc => hb0 (i2.mp hc)
              omega
          · rw [if_neg hs2] at heq
            exfalso
            have hc2ne : childOf nodes j2 c2 ≠ -1 := by omega
            have hub := (hbnd j2 c2 hj2o hc2 hc2ne).2
            have hlb := (hbnd j2 c2 hj2o hc2 hc2ne).1
            omega
        · rw [if_neg hs1] at hne heq
          by_cases hs2 : j2 = cur.toNat ∧ ((c2 = 0) = (b = 0))
          · rw [if_pos hs2] at heq
            exfalso
            have hub := (hbnd j1 c1 hj1o hc1 hne).2
            have hlb := (hbnd j1 c1 hj1o hc1 hne).1
            omega
          · rw [if_neg hs2] at heq
            exact hpi.2 j1 hj1o j2 hj2o c1 hc1 c2 hc2 hne heq
      · exfalso
        have hje : j2 = nodes.length := by omega
        subst hje
        rw [childOf_alloc_fresh] at heq
        rw [hchar j1 c1 hj1o] at hne heq
        by_cases hs1 : j1 = cur.toNat ∧ ((c1 = 0) = (b = 0))
        · rw [if_pos hs1] at heq
          omega
        · rw [if_neg hs1] at heq hne
          exact hne heq
    · exfalso
      have hje : j1 = nodes.length := by omega
      subst hje
      rw [childOf_alloc_fresh] at hne
      exact hne rfl

/-- The main structural lemma for the insertion walk: the result
extends the input, stays well-formed and tree-shaped, the terminal is
in bounds, and the inserted path leads to the terminal. -/
theorem insertBits_spec (bs : List Nat) :
    ∀ (nodes : List TrieNode) (cur : Int), WFC nodes → 0 ≤ cur →
      cur.toNat < nodes.length →
      Extends nodes (insertBits nodes cur bs).1 ∧
        WFC (insertBits nodes cur bs).1 ∧
        (ParentInv nodes → ParentInv (insertBits nodes cur bs).1) ∧
        0 ≤ (insertBits nodes cur bs).2 ∧
        (insertBits nodes cur bs).2.toNat < (insertBits nodes cur bs).1.length ∧
        follow (insertBits nodes cur bs).1 cur bs =
          some (insertBits nodes cur bs).2 := by
  induction bs with
  | nil =>
    intro nodes cur hwf h0 hlt
    exact ⟨extends_refl _, hwf, fun h => h, h0, hlt, rfl⟩
  | cons b rest ih =>
    intro nodes cur hwf h0 hlt
    by_cases hch : (getN nodes cur).child b = -1
    · rw [insertBits_cons, if_pos hch]
      have hext1 : Extends nodes (setChild nodes cur b (nodes.length : Int) ++
          [freshNode]) := extends_alloc nodes cur b h0 hlt hch
      have hwf1 := wfc_alloc nodes cur b hwf h0 hlt
      have hlen1 : (setChild nodes cur b (nodes.length : Int) ++
          [freshNode]).length = nodes.length + 1 := by simp [setChild_length]
      have h01 : (0 : Int) ≤ ((nodes.length : Nat) : Int) := by omega
      have hlt1 : (((nodes.length : Nat) : Int)).toNat <
          (setChild nodes cur b (nodes.length : Int) ++ [freshNode]).length := by
        rw [hlen1, Int.toNat_natCast]
        omega
      obtain ⟨ihext, ihwf, ihpi, ih0, ihlt2, ihfollow⟩ :=
        ih (setChild nodes cur b (nodes.length : Int) ++ [freshNode])
          ((nodes.length : Nat) : Int) hwf1 h01 hlt1
      refine ⟨extends_trans hext1 ihext, ihwf,
        fun hpi => ihpi (pi_alloc nodes cur b hwf hpi h0 hlt), ih0, ihlt2, ?_⟩
      rw [follow]
      have hcurlt2 : cur.toNat < (insertBits (setChild nodes cur b
          (nodes.length : Int) ++ [freshNode]) ((nodes.length : Nat) : Int)
            rest).1.length := by
        have hx := ihext.1
        omega
      rw [nodeAt_eq_some _ _ h0 hcurlt2]
      have hedge1 : ((setChild nodes cur b (nodes.length : Int) ++
          [freshNode]).getD cur.toNat freshNode).child b = (nodes.length : Int) := by
        have hc := childOf_alloc nodes cur b (nodes.length : Int) h0 hlt cur.toNat b hlt
        unfold childOf at hc
        rw [hc, if_pos ⟨rfl, rfl⟩]
      have hedge2 : ((insertBits (setChild nodes cur b (nodes.length : Int) ++
          [freshNode]) ((nodes.length : Nat) : Int) rest).1.getD cur.toNat
            freshNode).child b = (nodes.length : Int) := by
        have hne : ((setChild nodes cur b (nodes.length : Int) ++
            [freshNode]).getD cur.toNat freshNode).child b ≠ -1 := by
          rw [hedge1]
          omega
        have hp := ((ihext.2.1 cur.toNat (by omega)).2.2 b).1 hne
        rw [hp, hedge1]
      simp only [hedge2]
      rw [if_neg (by omega : ¬ ((nodes.length : Nat) : Int) = -1)]
      exact ihfollow
    · rw [insertBits_cons, if_neg hch]
      have hchD : (nodes.getD cur.toNat freshNode).child b ≠ -1 := by
        rw [← getN_eq_getD _ _ h0]
        exact hch
      have hb := wfc_mem_bound hwf cur.toNat hlt b hchD
      have hgn : (getN nodes cur).child b = (nodes.getD cur.toNat freshNode).child b := by
        rw [getN_eq_getD _ _ h0]
      obtain ⟨ihext, ihwf, ihpi, ih0, ihlt2, ihfollow⟩ :=
        ih nodes _ hwf (hgn ▸ hb.1) (hgn ▸ hb.2)
      refine ⟨ihext, ihwf, ihpi, ih0, ihlt2, ?_⟩
      rw [follow]
      have hcurlt2 : cur.toNat < (insertBits nodes ((getN nodes cur).child b)
          rest).1.length := by
        have hx := ihext.1
        omega
      rw [nodeAt_eq_some _ _ h0 hcurlt2]
      have hpres : ((insertBits nodes ((getN nodes cur).child b) rest).1.getD
          cur.toNat freshNode).child b = (nodes.getD cur.toNat freshNode).child b :=
        ((ihext.2.1 cur.toNat hlt).2.2 b).1 hchD
      simp only [hpres]
      rw [if_neg hchD, ← hgn]
      exact ihfollow

theorem insertBits_term_ge (L : Nat) (bs : List Nat) :
    ∀ (nodes : List TrieNode) (cur : Int), 0 ≤ cur → L ≤ cur.toNat →
      cur.toNat < nodes.length → getN nodes cur = freshNode →
      L ≤ (insertBits nodes cur bs).2.toNat := by
  induction bs with
  | nil =>
    intro nodes cur h0 hL hlt hfr
    exact hL
  | cons b rest ih =>
    intro nodes cur h0 hL hlt hfr
    have hch : (getN nodes cur).child b = -1 := by
      rw [hfr]
      unfold freshNode TrieNode.child
      split <;> rfl
    rw [insertBits_cons, if_pos hch]
    refine ih _ _ (by omega) ?_ ?_ (fresh_after_alloc nodes cur b)
    · rw [Int.toNat_natCast]
      omega
    · rw [Int.toNat_natCast]
      have hl : (setChild nodes cur b (nodes.length : Int) ++ [freshNode]).length =
          nodes.length + 1 := by simp [setChild_length]
      omega

/-- Either the walk allocated nothing, or its terminal is one of the
newly appended nodes. -/
theorem insertBits_alloc_or_same (bs : List Nat) :
    ∀ (nodes : List TrieNode) (cur : Int), WFC nodes → 0 ≤ cur →
      cur.toNat < nodes.length →
      (insertBits nodes cur bs).1 = nodes ∨
        nodes.length ≤ (insertBits nodes cur bs).2.toNat := by
  induction bs with
  | nil =>
    intro nodes cur _ _ _
    exact Or.inl rfl
  | cons b rest ih =>
    intro nodes cur hwf h0 hlt
    by_cases hch : (getN nodes cur).child b = -1
    · right
      rw [insertBits_cons, if_pos hch]
      refine insertBits_term_ge nodes.length rest _ _ (by omega) ?_ ?_
        (fresh_after_alloc nodes cur b)
      · rw [Int.toNat_natCast]
      · rw [Int.toNat_natCast]
        have hl : (setChild nodes cur b (nodes.length : Int) ++
            [freshNode]).length = nodes.length + 1 := by simp [setChild_length]
        omega
    · rw [insertBits_cons, if_neg hch]
      have hchD : (nodes.getD cur.toNat freshNode).child b ≠ -1 := by
        rw [← getN_eq_getD _ _ h0]
        exact hch
      have hb := wfc_mem_bound hwf cur.toNat hlt b hchD
      have hgn : (getN nodes cur).child b =
          (nodes.getD cur.toNat freshNode).child b := getN_eq_getD _ _ h0 ▸ rfl
      exact ih nodes _ hwf (hgn ▸ hb.1) (hgn ▸ hb.2)

theorem wfc_stampN (nodes : List TrieNode) (i : Int) (id m : Int)
    (hwf : WFC nodes) : WFC (stampN nodes i id m) := by
  intro nd hnd
  rw [stampN_length]
  unfold stampN setN at hnd
  split at hnd
  · rcases List.mem_or_eq_of_mem_set hnd with hold | hmod
    · exact hwf _ hold
    · subst hmod
      rename_i h0
      rw [getN_eq_getD _ _ h0]
      by_cases hlt : i.toNat < nodes.length
      · have hmem0 : nodes.getD i.toNat freshNode ∈ nodes := by
          rw [List.getD_eq_getElem?_getD, List.getElem?_eq_getElem hlt]
          exact List.getElem_mem _
        obtain ⟨hc0, hc1⟩ := hwf _ hmem0
        exact ⟨hc0, hc1⟩
      · rw [List.getD_eq_getElem?_getD,
          List.getElem?_eq_none (by omega : nodes.length ≤ i.toNat)]
        exact ⟨Or.inl rfl, Or.inl rfl⟩
  · exact hwf _ hnd

/-! ## Equation lemmas for addNet -/

theorem addNet_nodes (w : Nat) (idx : CIDRIndex) (p : Pfx) (l : Label) :
    (addNet w idx p l).nodes =
      stampN (insertBits idx.nodes 0 (pathBits p)).1
        (insertBits idx.nodes 0 (pathBits p)).2
        (if mapGet idx.idByName l = 0 then
          icast w ((idx.names.length + 1 : Nat) : Int)
         else mapGet idx.idByName l)
        (icast 8 (p.maskLen : Int)) := by
  unfold addNet
  by_cases h : mapGet idx.idByName l = 0 <;> simp [h]

theorem addNet_names (w : Nat) (idx : CIDRIndex) (p : Pfx) (l : Label) :
    (addNet w idx p l).names =
      if mapGet idx.idByName l = 0 then idx.names ++ [l] else idx.names := by
  unfold addNet
  by_cases h : mapGet idx.idByName l = 0 <;> simp [h]

theorem addNet_idByName (w : Nat) (idx : CIDRIndex) (p : Pfx) (l : Label) :
    (addNet w idx p l).idByName =
      if mapGet idx.idByName l = 0 then
        mapSet idx.idByName l (icast w ((idx.names.length + 1 : Nat) : Int))
      else idx.idByName := by
  unfold addNet
  by_cases h : mapGet idx.idByName l = 0 <;> simp [h]

theorem addNet_meta (w : Nat) (idx : CIDRIndex) (p : Pfx) (l : Label) :
    (addNet w idx p l).meta = idx.meta := by
  unfold addNet
  by_cases h : mapGet idx.idByName l = 0 <;> simp [h]

theorem addNet_total (w : Nat) (idx : CIDRIndex) (p : Pfx) (l : Label) :
    (addNet w idx p l).total = idx.total + 1 := by
  unfold addNet
  by_cases h : mapGet idx.idByName l = 0 <;> simp [h]

theorem addNet_wfc (w : Nat) (idx : CIDRIndex) (p : Pfx) (l : Label)
    (h1 : 0 < idx.nodes.length) (hwf : WFC idx.nodes) :
    0 < (addNet w idx p l).nodes.length ∧ WFC (addNet w idx p l).nodes := by
  rw [addNet_nodes]
  obtain ⟨hext, hwf2, _, _, _, _⟩ :=
    insertBits_spec (pathBits p) idx.nodes 0 hwf (le_refl 0) (by simpa using h1)
  constructor
  · rw [stampN_length]
    have hx := hext.1
    omega
  · exact wfc_stampN _ _ _ _ hwf2

theorem insertAll_wfc_aux (w : Nat) (ops : List (Pfx × Label)) :
    ∀ (idx : CIDRIndex), 0 < idx.nodes.length → WFC idx.nodes →
      0 < (ops.foldl (fun j q => addNet w j q.1 q.2) idx).nodes.length ∧
        WFC (ops.foldl (fun j q => addNet w j q.1 q.2) idx).nodes := by
  induction ops with
  | nil => intro idx h1 h2; exact ⟨h1, h2⟩
  | cons q rest ih =>
    intro idx h1 h2
    have h3 := addNet_wfc w idx q.1 q.2 h1 h2
    exact ih _ h3.1 h3.2

theorem insertAll_wfc (w : Nat) (ops : List (Pfx × Label)) :
    0 < (insertAll w ops).nodes.length ∧ WFC (insertAll w ops).nodes := by
  unfold insertAll
  refine insertAll_wfc_aux w ops newCIDRIndex (by decide) ?_
  intro nd hnd
  rw [List.mem_singleton.mp hnd]
  exact ⟨Or.inl rfl, Or.inl rfl⟩

/-! ## The lookup walk characterized by path stamps -/

theorem firstBits_zero (a : List Nat) : firstBits a 0 = [] := rfl

theorem firstBits_succ (a : List Nat) (n : Nat) :
    firstBits a (n + 1) = firstBits a n ++ [bit a n] := by
  unfold firstBits
  rw [List.range_succ, List.map_append]
  rfl

theorem follow_append (nodes : List TrieNode) (xs : List Nat) :
    ∀ (ys : List Nat) (st : Int),
      follow nodes st (xs ++ ys) =
        (follow nodes st xs).bind (fun m => follow nodes m ys) := by
  induction xs with
  | nil => intro ys st; rfl
  | cons b rest ih =>
    intro ys st
    show follow nodes st (b :: (rest ++ ys)) = _
    rw [follow]
    conv_rhs => rw [follow]
    cases hnd : nodeAt nodes st with
    | none => rfl
    | some nd =>
      simp only
      by_cases hch : nd.child b = -1
      · rw [if_pos hch, if_pos hch]
        rfl
      · rw [if_neg hch, if_neg hch]
        exact ih ys (nd.child b)

theorem stampOf_none_of_follow_none (nodes : List TrieNode) (bs : List Nat)
    (h : follow nodes 0 bs = none) : stampOf nodes bs = none := by
  unfold stampOf
  rw [h]

theorem follow_firstBits_none_succ (nodes : List TrieNode) (a : List Nat) (n : Nat)
    (h : follow nodes 0 (firstBits a n) = none) :
    follow nodes 0 (firstBits a (n + 1)) = none := by
  rw [firstBits_succ, follow_append, h]
  rfl

theorem foldStamps_stop (nodes : List TrieNode) (a : List Nat) :
    ∀ (k : Nat) (i : Nat) (b : Int × Int),
      follow nodes 0 (firstBits a i) = none →
      foldStamps nodes a b i k = b := by
  intro k
  induction k with
  | zero =>
    intro i b h
    show stepBest b (stampOf nodes (firstBits a i)) = b
    rw [stampOf_none_of_follow_none _ _ h]
    rfl
  | succ k ih =>
    intro i b h
    show foldStamps nodes a (stepBest b (stampOf nodes (firstBits a i))) (i + 1) k = _
    rw [stampOf_none_of_follow_none _ _ h]
    exact ih (i + 1) b (follow_firstBits_none_succ _ _ _ h)

theorem foldStamps_succ (nodes : List TrieNode) (a : List Nat) (b : Int × Int)
    (i k : Nat) :
    foldStamps nodes a b i (k + 1) =
      foldStamps nodes a (stepBest b (stampOf nodes (firstBits a i))) (i + 1) k := rfl

/-- The stamp of a path through the node it reaches. -/
theorem stampOf_at (nodes : List TrieNode) (bs : List Nat) (cur : Int)
    (nd : TrieNode) (hf : follow nodes 0 bs = some cur)
    (hnd : nodeAt nodes cur = some nd) :
    stampOf nodes bs =
      if nd.id = -1 then none else some (nd.id, nd.maskLen) := by
  unfold stampOf
  rw [hf]
  change (match nodeAt nodes cur with
    | none => none
    | some x => if x.id = -1 then none else some (x.id, x.maskLen)) = _
  rw [hnd]

/-- The best update of one loop iteration, phrased through the stamp
at the current depth. -/
theorem stepBest_at (nodes : List TrieNode) (a : List Nat) (i : Nat) (cur : Int)
    (nd : TrieNode) (bid blen : Int)
    (hf : follow nodes 0 (firstBits a i) = some cur)
    (hnd : nodeAt nodes cur = some nd) :
    stepBest (bid, blen) (stampOf nodes (firstBits a i)) =
      if nd.id ≠ -1 ∧ blen < nd.maskLen then (nd.id, nd.maskLen)
      else (bid, blen) := by
  rw [stampOf_at nodes (firstBits a i) cur nd hf hnd]
  by_cases hid : nd.id = -1
  · rw [if_pos hid]
    show (bid, blen) = _
    rw [if_neg (fun hc => hc.1 hid)]
  · rw [if_neg hid]
    show (if nd.id ≠ -1 ∧ (bid, blen).2 < nd.maskLen then (nd.id, nd.maskLen)
      else (bid, blen)) = _
    rfl

/-- One unfolding of the loop when the current node is known. -/
theorem lookupLoop_succ (nodes : List TrieNode) (a : List Nat) (cur : Int)
    (i rem : Nat) (bid blen : Int) (nd : TrieNode)
    (hnd : nodeAt nodes cur = some nd) :
    lookupLoop nodes a cur i (rem + 1) bid blen =
      (if nd.child (bit a i) = -1 then
        some (cur,
          (if nd.id ≠ -1 ∧ blen < nd.maskLen then (nd.id, nd.maskLen)
            else (bid, blen)).1,
          (if nd.id ≠ -1 ∧ blen < nd.maskLen then (nd.id, nd.maskLen)
            else (bid, blen)).2)
      else
        lookupLoop nodes a (nd.child (bit a i)) (i + 1) rem
          (if nd.id ≠ -1 ∧ blen < nd.maskLen then (nd.id, nd.maskLen)
            else (bid, blen)).1
          (if nd.id ≠ -1 ∧ blen < nd.maskLen then (nd.id, nd.maskLen)
            else (bid, blen)).2) := by
  rw [lookupLoop, hnd]

/-- The loop together with the final re-check computes the fold of the
best update over the stamps along the path. -/
theorem lookupLoop_spec {nodes : List TrieNode} (a : List Nat) (hwf : WFC nodes)
    (hroot : 0 < nodes.length) :
    ∀ (rem i : Nat) (cur bid blen : Int),
      follow nodes 0 (firstBits a i) = some cur →
      ∃ fin bid2 blen2 nd,
        lookupLoop nodes a cur i rem bid blen = some (fin, bid2, blen2) ∧
          nodeAt nodes fin = some nd ∧
          (if nd.id ≠ -1 ∧ blen2 < nd.maskLen then nd.id else bid2) =
            (foldStamps nodes a (bid, blen) i rem).1 := by
  intro rem
  induction rem with
  | zero =>
    intro i cur bid blen hf
    have hb := follow_bound hwf (firstBits a i) 0 cur (le_refl 0)
      (by simpa using hroot) hf
    have hnd := nodeAt_eq_some nodes cur hb.1 hb.2
    refine ⟨cur, bid, blen, _, rfl, hnd, ?_⟩
    show _ = (stepBest (bid, blen) (stampOf nodes (firstBits a i))).1
    rw [stepBest_at nodes a i cur _ bid blen hf hnd]
    split <;> rfl
  | succ rem ih =>
    intro i cur bid blen hf
    have hb := follow_bound hwf (firstBits a i) 0 cur (le_refl 0)
      (by simpa using hroot) hf
    have hnd := nodeAt_eq_some nodes cur hb.1 hb.2
    rw [foldStamps_succ, stepBest_at nodes a i cur _ bid blen hf hnd]
    by_cases hch : (nodes.getD cur.toNat freshNode).child (bit a i) = -1
    · rw [lookupLoop_succ nodes a cur i rem bid blen _ hnd, if_pos hch]
      have hnone : follow nodes 0 (firstBits a (i + 1)) = none := by
        rw [firstBits_succ, follow_append, hf]
        show follow nodes cur [bit a i] = none
        rw [follow, hnd]
        simp only
        rw [if_pos hch]
      rw [foldStamps_stop nodes a rem (i + 1) _ hnone]
      refine ⟨cur, _, _, _, rfl, hnd, ?_⟩
      by_cases hA : (nodes.getD cur.toNat freshNode).id ≠ -1 ∧
          blen < (nodes.getD cur.toNat freshNode).maskLen
      · rw [if_pos hA]
        show (if (nodes.getD cur.toNat freshNode).id ≠ -1 ∧
            (nodes.getD cur.toNat freshNode).maskLen <
              (nodes.getD cur.toNat freshNode).maskLen then
            (nodes.getD cur.toNat freshNode).id
          else (nodes.getD cur.toNat freshNode).id) =
          (nodes.getD cur.toNat freshNode).id
        split <;> rfl
      · rw [if_neg hA]
        show (if (nodes.getD cur.toNat freshNode).id ≠ -1 ∧
            blen < (nodes.getD cur.toNat freshNode).maskLen then
            (nodes.getD cur.toNat freshNode).id
          else bid) = bid
        rw [if_neg hA]
    · rw [lookupLoop_succ nodes a cur i rem bid blen _ hnd, if_neg hch]
      have hfnext : follow nodes 0 (firstBits a (i + 1)) =
          some ((nodes.getD cur.toNat freshNode).child (bit a i)) := by
        rw [firstBits_succ, follow_append, hf]
        show follow nodes cur [bit a i] = _
        rw [follow, hnd]
        simp only
        rw [if_neg hch]
        rfl
      obtain ⟨fin, bid2, blen2, nd2, hloop, hnd2, hval⟩ :=
        ih (i + 1) ((nodes.getD cur.toNat freshNode).child (bit a i))
          ((if (nodes.getD cur.toNat freshNode).id ≠ -1 ∧
              blen < (nodes.getD cur.toNat freshNode).maskLen then
            ((nodes.getD cur.toNat freshNode).id,
              (nodes.getD cur.toNat freshNode).maskLen)
          else (bid, blen)).1)
          ((if (nodes.getD cur.toNat freshNode).id ≠ -1 ∧
              blen < (nodes.getD cur.toNat freshNode).maskLen then
            ((nodes.getD cur.toNat freshNode).id,
              (nodes.getD cur.toNat freshNode).maskLen)
          else (bid, blen)).2) hfnext
      rw [Prod.mk.eta] at hval
      exact ⟨fin, bid2, blen2, nd2, hloop, hnd2, hval⟩

/-- LookupIP's walk is total on a well-formed trie and computes the
fold of the stamps along the query path. -/
theorem lookupCore_spec {nodes : List TrieNode} (a : List Nat) (hwf : WFC nodes)
    (hroot : 0 < nodes.length) :
    lookupCore nodes a =
      some ((foldStamps nodes a (-1, -1) 0
        (if a.length = 4 then 32 else 128)).1) := by
  obtain ⟨fin, bid2, blen2, nd, hloop, hnd, hval⟩ :=
    lookupLoop_spec a hwf hroot (if a.length = 4 then 32 else 128) 0 0 (-1) (-1) rfl
  unfold lookupCore
  show (match lookupLoop nodes a 0 0 (if a.length = 4 then 32 else 128) (-1) (-1) with
    | none => none
    | some (fin, bestID, bestLen) =>
      match nodeAt nodes fin with
      | none => none
      | some nd =>
        some (if nd.id ≠ -1 ∧ bestLen < nd.maskLen then nd.id else bestID)) = _
  rw [hloop]
  change (match nodeAt nodes fin with
    | none => none
    | some nd =>
      some (if nd.id ≠ -1 ∧ blen2 < nd.maskLen then nd.id else bid2)) = _
  rw [hnd]
  change some (if nd.id ≠ -1 ∧ blen2 < nd.maskLen then nd.id else bid2) = _
  rw [hval]

/-! ## C10: in-bounds node access on every built index -/

/-- C10: on every index built by a sequence of AddNet calls from the
fresh index, every child is -1 or in bounds (WFC), and the LookupIP
walk on any 4- or 16-byte address performs only in-bounds node-array
reads: the out-of-bounds branch (none) is unreachable. -/
theorem C10_insertions_safe (w : Nat) (ops : List (Pfx × Label)) :
    WFC (insertAll w ops).nodes ∧
      ∀ a : List Nat, a.length = 4 ∨ a.length = 16 →
        ∃ r, lookupCore (insertAll w ops).nodes a = some r := by
  obtain ⟨h1, h2⟩ := insertAll_wfc w ops
  exact ⟨h2, fun a _ => ⟨_, lookupCore_spec a h2 h1⟩⟩

/-- Witness for C10 at a concrete insertion sequence and address. -/
theorem C10_witness :
    (([9, 9, 9, 9] : List Nat).length = 4 ∨ ([9, 9, 9, 9] : List Nat).length = 16) ∧
      (WFC (insertAll 16 [(⟨[10, 0, 0, 0], 8⟩, [1])]).nodes ∧
        ∃ r, lookupCore (insertAll 16 [(⟨[10, 0, 0, 0], 8⟩, [1])]).nodes
          [9, 9, 9, 9] = some r) :=
  ⟨Or.inl rfl,
    ⟨(C10_insertions_safe 16 [(⟨[10, 0, 0, 0], 8⟩, [1])]).1,
      (C10_insertions_safe 16 [(⟨[10, 0, 0, 0], 8⟩, [1])]).2 [9, 9, 9, 9] (Or.inl rfl)⟩⟩

/-! ## Paths in the extended trie -/

/-- A walk that starts in the new region stays there. -/
theorem follow_stay_new {nodes nodes2 : List TrieNode} (hext : Extends nodes nodes2) :
    ∀ (bs : List Nat) (st f : Int), 0 ≤ st → nodes.length ≤ st.toNat →
      st.toNat < nodes2.length → follow nodes2 st bs = some f →
      nodes.length ≤ f.toNat := by
  intro bs
  induction bs with
  | nil =>
    intro st f h0 hge hlt h
    rw [follow] at h
    cases h
    exact hge
  | cons b rest ih =>
    intro st f h0 hge hlt h
    rw [follow, nodeAt_eq_some _ _ h0 hlt] at h
    simp only at h
    by_cases hch : (nodes2.getD st.toNat freshNode).child b = -1
    · rw [if_pos hch] at h
      exact absurd h (by simp)
    · rw [if_neg hch] at h
      rcases (hext.2.2 st.toNat hge hlt).2 b with hc | hc
      · exact absurd hc hch
      · exact ih _ _ (by omega) (by omega) (by omega) h

/-- A walk from the old region that ends in the old region never used
a new edge, so it already existed. -/
theorem follow_back_to_old {nodes nodes2 : List TrieNode}
    (hext : Extends nodes nodes2) (hwf : WFC nodes) :
    ∀ (bs : List Nat) (st f : Int), 0 ≤ st → st.toNat < nodes.length →
      follow nodes2 st bs = some f → f.toNat < nodes.length →
      follow nodes st bs = some f := by
  intro bs
  induction bs with
  | nil =>
    intro st f h0 hlt h hf
    rw [follow] at h ⊢
    exact h
  | cons b rest ih =>
    intro st f h0 hlt h hf
    have hlt2 : st.toNat < nodes2.length := by
      have hx := hext.1
      omega
    rw [follow, nodeAt_eq_some _ _ h0 hlt2] at h
    simp only at h
    by_cases hch2 : (nodes2.getD st.toNat freshNode).child b = -1
    · rw [if_pos hch2] at h
      exact absurd h (by simp)
    · rw [if_neg hch2] at h
      by_cases hold : (nodes.getD st.toNat freshNode).child b = -1
      · exfalso
        rcases ((hext.2.1 st.toNat hlt).2.2 b).2 hold with hc | hc
        · exact hch2 hc
        · have hge := follow_stay_new hext rest _ f (by omega) (by omega)
            (by omega) h
          omega
      · have hpres : (nodes2.getD st.toNat freshNode).child b =
            (nodes.getD st.toNat freshNode).child b :=
          ((hext.2.1 st.toNat hlt).2.2 b).1 hold
        rw [hpres] at h
        have hb := wfc_mem_bound hwf st.toNat hlt b hold
        rw [follow, nodeAt_eq_some _ _ h0 hlt]
        simp only
        rw [if_neg hold]
        exact ih _ _ hb.1 hb.2 h hf

theorem follow_snoc (nodes : List TrieNode) (bs : List Nat) (b : Nat) (st : Int) :
    follow nodes st (bs ++ [b]) =
      (follow nodes st bs).bind (fun m =>
        match nodeAt nodes m with
        | none => none
        | some nd => if nd.child b = -1 then none else some (nd.child b)) := by
  rw [follow_append]
  cases hx : follow nodes st bs with
  | none => rfl
  | some m =>
    show follow nodes m [b] =
      (match nodeAt nodes m with
        | none => none
        | some nd => if nd.child b = -1 then none else some (nd.child b))
    rw [follow]
    cases hnd : nodeAt nodes m with
    | none => rfl
    | some nd =>
      show (if nd.child b = -1 then none else follow nodes (nd.child b) []) =
        (if nd.child b = -1 then none else some (nd.child b))
      split <;> rfl

theorem bitsOK_append {xs : List Nat} {b : Nat} (h : BitsOK (xs ++ [b])) :
    BitsOK xs ∧ b ≤ 1 := by
  constructor
  · intro x hx
    exact h x (List.mem_append.mpr (Or.inl hx))
  · have hb := h b (List.mem_append.mpr (Or.inr (List.mem_singleton.mpr rfl)))
    omega

/-- On a tree-shaped trie, each node is reached by at most one bit
path from the root. -/
theorem follow_inj {nodes : List TrieNode} (hpi : ParentInv nodes) (hwf : WFC nodes)
    (hroot : 0 < nodes.length) :
    ∀ (bs1 : List Nat), BitsOK bs1 → ∀ (bs2 : List Nat), BitsOK bs2 →
      ∀ f, follow nodes 0 bs1 = some f → follow nodes 0 bs2 = some f →
        bs1 = bs2 := by
  intro bs1
  induction bs1 using List.reverseRecOn with
  | nil =>
    intro _ bs2 hok2 f h1 h2
    rw [follow] at h1
    cases h1
    rcases List.eq_nil_or_concat bs2 with rfl | ⟨ys, c, rfl⟩
    · rfl
    · exfalso
      rw [List.concat_eq_append] at hok2 h2
      rw [follow_snoc] at h2
      cases hy : follow nodes 0 ys with
      | none => rw [hy] at h2; exact absurd h2 (by simp)
      | some m =>
        rw [hy] at h2
        simp only [Option.some_bind] at h2
        have hmb := follow_bound hwf ys 0 m (le_refl 0) (by simpa using hroot) hy
        rw [nodeAt_eq_some _ _ hmb.1 hmb.2] at h2
        change (if (nodes.getD m.toNat freshNode).child c = -1 then none
          else some ((nodes.getD m.toNat freshNode).child c)) = some 0 at h2
        by_cases hch : (nodes.getD m.toNat freshNode).child c = -1
        · rw [if_pos hch] at h2
          exact absurd h2 (by simp)
        · rw [if_neg hch] at h2
          have hc1 : (nodes.getD m.toNat freshNode).child c = 0 := by
            injection h2
          have hcle := (bitsOK_append hok2).2
          exact hpi.1 m.toNat hmb.2 c hcle hc1
  | append_singleton xs b ihx =>
    intro hok1 bs2 hok2 f h1 h2
    rcases List.eq_nil_or_concat bs2 with rfl | ⟨ys, c, rfl⟩
    · exfalso
      rw [follow] at h2
      cases h2
      rw [follow_snoc] at h1
      cases hy : follow nodes 0 xs with
      | none => rw [hy] at h1; exact absurd h1 (by simp)
      | some m =>
        rw [hy] at h1
        simp only [Option.some_bind] at h1
        have hmb := follow_bound hwf xs 0 m (le_refl 0) (by simpa using hroot) hy
        rw [nodeAt_eq_some _ _ hmb.1 hmb.2] at h1
        change (if (nodes.getD m.toNat freshNode).child b = -1 then none
          else some ((nodes.getD m.toNat freshNode).child b)) = some 0 at h1
        by_cases hch : (nodes.getD m.toNat freshNode).child b = -1
        · rw [if_pos hch] at h1
          exact absurd h1 (by simp)
        · rw [if_neg hch] at h1
          have hc1 : (nodes.getD m.toNat freshNode).child b = 0 := by
            injection h1
          exact hpi.1 m.toNat hmb.2 b (bitsOK_append hok1).2 hc1
    · rw [List.concat_eq_append] at hok2 h2 ⊢
      rw [follow_snoc] at h1 h2
      cases hy1 : follow nodes 0 xs with
      | none => rw [hy1] at h1; exact absurd h1 (by simp)
      | some m1 =>
        cases hy2 : follow nodes 0 ys with
        | none => rw [hy2] at h2; exact absurd h2 (by simp)
        | some m2 =>
          rw [hy1] at h1
          rw [hy2] at h2
          simp only [Option.some_bind] at h1 h2
          have hm1 := follow_bound hwf xs 0 m1 (le_refl 0) (by simpa using hroot) hy1
          have hm2 := follow_bound hwf ys 0 m2 (le_refl 0) (by simpa using hroot) hy2
          rw [nodeAt_eq_some _ _ hm1.1 hm1.2] at h1
          rw [nodeAt_eq_some _ _ hm2.1 hm2.2] at h2
          change (if (nodes.getD m1.toNat freshNode).child b = -1 then none
            else some ((nodes.getD m1.toNat freshNode).child b)) = some f at h1
          change (if (nodes.getD m2.toNat freshNode).child c = -1 then none
            else some ((nodes.getD m2.toNat freshNode).child c)) = some f at h2
          by_cases hch1 : (nodes.getD m1.toNat freshNode).child b = -1
          · rw [if_pos hch1] at h1
            exact absurd h1 (by simp)
          by_cases hch2 : (nodes.getD m2.toNat freshNode).child c = -1
          · rw [if_pos hch2] at h2
            exact absurd h2 (by simp)
          rw [if_neg hch1] at h1
          rw [if_neg hch2] at h2
          have he1 : (nodes.getD m1.toNat freshNode).child b = f := by injection h1
          have he2 : (nodes.getD m2.toNat freshNode).child c = f := by injection h2
          have hco : childOf nodes m1.toNat b = childOf nodes m2.toNat c := by
            unfold childOf
            rw [he1, he2]
          have hne : childOf nodes m1.toNat b ≠ -1 := by
            unfold childOf
            rw [he1]
            intro hcon
            rw [hcon] at he1
            exact hch1 he1
          obtain ⟨hjj, hbb⟩ := hpi.2 m1.toNat hm1.2 m2.toNat hm2.2 b
            (bitsOK_append hok1).2 c (bitsOK_append hok2).2 hne hco
          have hmm : m1 = m2 := by omega
          subst hmm
          have hxy : xs = ys := ihx (bitsOK_append hok1).1 ys
            (bitsOK_append hok2).1 m1 hy1 hy2
          rw [hxy, hbb]

/-! ## Stamps after one insertion -/

theorem follow_stampN (nodes : List TrieNode) (i id m : Int) :
    ∀ (bs : List Nat) (st : Int),
      follow (stampN nodes i id m) st bs = follow nodes st bs := by
  intro bs
  induction bs with
  | nil => intro st; rfl
  | cons b rest ih =>
    intro st
    by_cases h0 : 0 ≤ st
    · by_cases hlt : st.toNat < nodes.length
      · rw [follow, follow, nodeAt_eq_some _ _ h0 hlt,
          nodeAt_eq_some _ _ h0 (by rw [stampN_length]; exact hlt)]
        simp only
        rw [stampN_child]
        by_cases hch : (nodes.getD st.toNat freshNode).child b = -1
        · rw [if_pos hch, if_pos hch]
        · rw [if_neg hch, if_neg hch]
          exact ih _
      · have hn1 : nodeAt (stampN nodes i id m) st = none := by
          unfold nodeAt
          rw [if_neg (by omega : ¬ st < 0), List.getElem?_eq_none
            (by rw [stampN_length]; omega)]
        have hn2 : nodeAt nodes st = none := by
          unfold nodeAt
          rw [if_neg (by omega : ¬ st < 0), List.getElem?_eq_none (by omega)]
        rw [follow, follow, hn1, hn2]
    · have hn1 : nodeAt (stampN nodes i id m) st = none := by
        unfold nodeAt
        rw [if_pos (by omega : st < 0)]
      have hn2 : nodeAt nodes st = none := by
        unfold nodeAt
        rw [if_pos (by omega : st < 0)]
      rw [follow, follow, hn1, hn2]

theorem nodeAt_stampN_self (nodes : List TrieNode) (i id m : Int)
    (h0 : 0 ≤ i) (hlt : i.toNat < nodes.length) :
    nodeAt (stampN nodes i id m) i =
      some { nodes.getD i.toNat freshNode with id := id, maskLen := m } := by
  rw [nodeAt_eq_some _ _ h0 (by rw [stampN_length]; exact hlt),
    stampN_getD_self _ _ _ _ h0 hlt]

theorem nodeAt_stampN_other (nodes : List TrieNode) (i id m : Int) (f : Int)
    (h0 : 0 ≤ f) (hlt : f.toNat < nodes.length) (hne : f.toNat ≠ i.toNat) :
    nodeAt (stampN nodes i id m) f = nodeAt nodes f := by
  rw [nodeAt_eq_some _ _ h0 (by rw [stampN_length]; exact hlt),
    nodeAt_eq_some _ _ h0 hlt, stampN_getD_other _ _ _ _ _ hne]

/-- The effect of one AddNet walk plus stamp on the stamp map: the
inserted path gets the new stamp, every other path keeps its old
stamp. -/
theorem stampOf_after_insert (nodes : List TrieNode) (bsP : List Nat) (id m : Int)
    (hwf : WFC nodes) (hpi : ParentInv nodes) (hroot : 0 < nodes.length)
    (hokP : BitsOK bsP) (hid : id ≠ -1) :
    ∀ bs, BitsOK bs →
      stampOf (stampN (insertBits nodes 0 bsP).1 (insertBits nodes 0 bsP).2 id m)
          bs =
        if bs = bsP then some (id, m) else stampOf nodes bs := by
  obtain ⟨hext, hwf1, hpi1, hfin0, hfinlt, hfollow⟩ :=
    insertBits_spec bsP nodes 0 hwf (le_refl 0) (by simpa using hroot)
  have hroot1 : 0 < (insertBits nodes 0 bsP).1.length := by
    have hx := hext.1
    omega
  intro bs hok
  by_cases hbs : bs = bsP
  · rw [if_pos hbs]
    subst hbs
    have hf3 : follow (stampN (insertBits nodes 0 bs).1
        (insertBits nodes 0 bs).2 id m) 0 bs = some (insertBits nodes 0 bs).2 := by
      rw [follow_stampN]
      exact hfollow
    rw [stampOf_at _ bs _ _ hf3 (nodeAt_stampN_self _ _ _ _ hfin0 hfinlt)]
    show (if id = -1 then none else some (id, m)) = _
    rw [if_neg hid]
  · rw [if_neg hbs]
    cases hf1 : follow (insertBits nodes 0 bsP).1 0 bs with
    | none =>
      have hf3 : follow (stampN (insertBits nodes 0 bsP).1
          (insertBits nodes 0 bsP).2 id m) 0 bs = none := by
        rw [follow_stampN]
        exact hf1
      rw [stampOf_none_of_follow_none _ _ hf3]
      have hfn : follow nodes 0 bs = none := by
        cases hfn : follow nodes 0 bs with
        | none => rfl
        | some f0 =>
          have hc := follow_of_extends hext hwf bs 0 f0 (le_refl 0)
            (by simpa using hroot) hfn
          rw [hf1] at hc
          exact absurd hc (by simp)
      rw [stampOf_none_of_follow_none _ _ hfn]
    | some f =>
      have hfb := follow_bound hwf1 bs 0 f (le_refl 0) (by simpa using hroot1) hf1
      have hf3 : follow (stampN (insertBits nodes 0 bsP).1
          (insertBits nodes 0 bsP).2 id m) 0 bs = some f := by
        rw [follow_stampN]
        exact hf1
      by_cases hffin : f.toNat = (insertBits nodes 0 bsP).2.toNat
      · exfalso
        have hfeq : f = (insertBits nodes 0 bsP).2 := by omega
        subst hfeq
        exact hbs (follow_inj (hpi1 hpi) hwf1 hroot1 bs hok bsP hokP _ hf1 hfollow)
      · have hnd3 : nodeAt (stampN (insertBits nodes 0 bsP).1
            (insertBits nodes 0 bsP).2 id m) f =
              some ((insertBits nodes 0 bsP).1.getD f.toNat freshNode) := by
          rw [nodeAt_stampN_other _ _ _ _ _ hfb.1 hfb.2 hffin,
            nodeAt_eq_some _ _ hfb.1 hfb.2]
        rw [stampOf_at _ bs _ _ hf3 hnd3]
        rcases insertBits_alloc_or_same bsP nodes 0 hwf (le_refl 0)
            (by simpa using hroot) with hsame | hge
        · rw [hsame] at hf1 ⊢
          rw [stampOf_at nodes bs f _ hf1 (nodeAt_eq_some _ _ hfb.1
            (by rw [← hsame]; exact hfb.2))]
        · by_cases hfold : f.toNat < nodes.length
          · have hfn : follow nodes 0 bs = some f :=
              follow_back_to_old hext hwf bs 0 f (le_refl 0)
                (by simpa using hroot) hf1 hfold
            rw [stampOf_at nodes bs f _ hfn (nodeAt_eq_some _ _ hfb.1 hfold)]
            have hidq := (hext.2.1 f.toNat hfold).1
            have hmq := (hext.2.1 f.toNat hfold).2.1
            rw [hidq, hmq]
          · have hfnew : ((insertBits nodes 0 bsP).1.getD f.toNat freshNode).id =
                -1 := (hext.2.2 f.toNat (by omega) hfb.2).1
            rw [if_pos hfnew]
            have hfn : follow nodes 0 bs = none := by
              cases hfn : follow nodes 0 bs with
              | none => rfl
              | some f0 =>
                have hc := follow_of_extends hext hwf bs 0 f0 (le_refl 0)
                  (by simpa using hroot) hfn
                rw [hf1] at hc
                have hf0b := follow_bound hwf bs 0 f0 (le_refl 0)
                  (by simpa using hroot) hfn
                injection hc with hc
                omega
            rw [stampOf_none_of_follow_none _ _ hfn]

/-! ## The intern tables across one AddNet -/

theorem mapGet_mapSet_self (m : List (Label × Int)) (k : Label) (v : Int) :
    mapGet (mapSet m k v) k = v := by
  induction m with
  | nil => simp [mapSet, mapGet]
  | cons q rest ih =>
    obtain ⟨k2, v2⟩ := q
    by_cases h : k2 = k
    · subst h
      simp [mapSet, mapGet]
    · simp [mapSet, mapGet, h, ih]

theorem mapGet_mapSet_other (m : List (Label × Int)) (k : Label) (v : Int)
    (nm : Label) (h : nm ≠ k) :
    mapGet (mapSet m k v) nm = mapGet m nm := by
  induction m with
  | nil => simp [mapSet, mapGet, Ne.symm h]
  | cons q rest ih =>
    obtain ⟨k2, v2⟩ := q
    by_cases h2 : k2 = k
    · subst h2
      simp [mapSet, mapGet, Ne.symm h]
    · simp [mapSet, mapGet, h2, ih]

theorem posOf_pos (names : List Label) (l : Label) : 1 ≤ posOf names l := by
  unfold posOf
  omega

theorem label_indexOf_cons (x : Label) (xs : List Label) (nm : Label) :
    (x :: xs).indexOf nm = if x = nm then 0 else xs.indexOf nm + 1 := by
  simp only [List.indexOf]
  rw [List.findIdx_cons]
  by_cases h : x = nm
  · subst h
    simp
  · rw [beq_eq_false_iff_ne.mpr h, if_neg h]
    rfl

theorem label_indexOf_append_mem (names : List Label) (l nm : Label)
    (h : nm ∈ names) : (names ++ [l]).indexOf nm = names.indexOf nm := by
  induction names with
  | nil => exact absurd h (List.not_mem_nil nm)
  | cons x xs ih =>
    rw [List.cons_append, label_indexOf_cons, label_indexOf_cons]
    by_cases hx : x = nm
    · rw [if_pos hx, if_pos hx]
    · rw [if_neg hx, if_neg hx]
      have hmem : nm ∈ xs := by
        rcases List.mem_cons.mp h with h2 | h2
        · exact absurd h2.symm hx
        · exact h2
      rw [ih hmem]

theorem label_indexOf_lt_length (names : List Label) (nm : Label)
    (h : nm ∈ names) : names.indexOf nm < names.length := by
  induction names with
  | nil => exact absurd h (List.not_mem_nil nm)
  | cons x xs ih =>
    rw [label_indexOf_cons]
    by_cases hx : x = nm
    · rw [if_pos hx]
      simp
    · rw [if_neg hx]
      have hmem : nm ∈ xs := by
        rcases List.mem_cons.mp h with h2 | h2
        · exact absurd h2.symm hx
        · exact h2
      have h2 := ih hmem
      simp only [List.length_cons]
      omega

theorem label_getElem_indexOf (names : List Label) (nm : Label)
    (h : nm ∈ names) : names[names.indexOf nm]? = some nm := by
  induction names with
  | nil => exact absurd h (List.not_mem_nil nm)
  | cons x xs ih =>
    rw [label_indexOf_cons]
    by_cases hx : x = nm
    · rw [if_pos hx]
      simp [hx]
    · rw [if_neg hx]
      have hmem : nm ∈ xs := by
        rcases List.mem_cons.mp h with h2 | h2
        · exact absurd h2.symm hx
        · exact h2
      simp only [List.getElem?_cons_succ]
      exact ih hmem

theorem posOf_append_mem (names : List Label) (l nm : Label) (h : nm ∈ names) :
    posOf (names ++ [l]) nm = posOf names nm := by
  unfold posOf
  rw [label_indexOf_append_mem names l nm h]

theorem indexOf_append_not_mem (names : List Label) (l : Label) (h : l ∉ names) :
    (names ++ [l]).indexOf l = names.length := by
  induction names with
  | nil =>
    rw [List.nil_append, label_indexOf_cons, if_pos rfl]
    rfl
  | cons x xs ih =>
    have hne : x ≠ l := fun hc => h (hc ▸ List.mem_cons_self x xs)
    rw [List.cons_append, label_indexOf_cons, if_neg hne,
      ih (fun hc => h (List.mem_cons_of_mem x hc))]
    rfl

theorem posOf_append_self (names : List Label) (l : Label) (h : l ∉ names) :
    posOf (names ++ [l]) l = (names.length : Int) + 1 := by
  unfold posOf
  rw [indexOf_append_not_mem names l h]

/-! ## labelAt across an appended entry -/

theorem labelAt_append_of_some (P : List (Pfx × Label)) (q : Pfx × Label)
    (bs : List Nat) (l0 : Label) (h : labelAt P bs = some l0) :
    labelAt (P ++ [q]) bs = some l0 := by
  unfold labelAt at h ⊢
  rw [List.find?_append]
  cases hf : P.find? (fun r => decide (pathBits r.1 = bs)) with
  | none => rw [hf] at h; exact absurd h (by simp)
  | some r =>
    rw [hf] at h
    exact h

theorem labelAt_append_of_none (P : List (Pfx × Label)) (q : Pfx × Label)
    (bs : List Nat) (h : labelAt P bs = none) :
    labelAt (P ++ [q]) bs = if pathBits q.1 = bs then some q.2 else none := by
  unfold labelAt at h ⊢
  have hf : P.find? (fun r => decide (pathBits r.1 = bs)) = none := by
    cases hf2 : P.find? (fun r => decide (pathBits r.1 = bs)) with
    | none => rfl
    | some r => rw [hf2] at h; exact absurd h (by simp)
  rw [List.find?_append, hf]
  by_cases hq : pathBits q.1 = bs
  · rw [if_pos hq, List.find?_cons_of_pos _ (by simp [hq])]
    rfl
  · rw [if_neg hq, List.find?_cons_of_neg _ (by simp [hq])]
    rfl

theorem labelAt_mem (P : List (Pfx × Label)) (bs : List Nat) (l0 : Label)
    (h : labelAt P bs = some l0) :
    ∃ q ∈ P, q.2 = l0 ∧ pathBits q.1 = bs := by
  unfold labelAt at h
  cases hf : P.find? (fun r => decide (pathBits r.1 = bs)) with
  | none => rw [hf] at h; exact absurd h (by simp)
  | some r =>
    rw [hf] at h
    refine ⟨r, List.mem_of_find?_eq_some hf, ?_, ?_⟩
    · simpa using h
    · have h2 := List.find?_some hf
      simpa using h2

theorem labelAt_eq_none (P : List (Pfx × Label)) (bs : List Nat)
    (h : ∀ q ∈ P, pathBits q.1 ≠ bs) :
    labelAt P bs = none := by
  unfold labelAt
  rw [List.find?_eq_none.mpr (fun q hq => by simp [h q hq])]
  rfl

theorem pathBits_length (p : Pfx) : (pathBits p).length = p.maskLen := by
  simp [pathBits]

theorem bit_le_one (oct : List Nat) (i : Nat) : bit oct i = 0 ∨ bit oct i = 1 := by
  unfold bit
  rw [Nat.and_one_is_mod]
  omega

theorem bitsOK_pathBits (p : Pfx) : BitsOK (pathBits p) := by
  intro x hx
  unfold pathBits at hx
  obtain ⟨i, _, rfl⟩ := List.mem_map.mp hx
  exact bit_le_one p.oct i

theorem pi_stampN (nodes : List TrieNode) (i id m : Int)
    (hpi : ParentInv nodes) : ParentInv (stampN nodes i id m) := by
  have hco : ∀ j b, childOf (stampN nodes i id m) j b = childOf nodes j b := by
    intro j b
    unfold childOf
    exact stampN_child nodes i id m j b
  have hlen := stampN_length nodes i id m
  constructor
  · intro j hj b hb
    rw [hco]
    exact hpi.1 j (by omega) b hb
  · intro j1 hj1 j2 hj2 b1 hb1 b2 hb2 hne heq
    simp only [hco] at hne heq
    exact hpi.2 j1 (by omega) j2 (by omega) b1 hb1 b2 hb2 hne heq

/-! ## The build invariant: base case and preservation -/

theorem getD_singleton_fresh (j : Nat) : [freshNode].getD j freshNode = freshNode := by
  cases j with
  | zero => rfl
  | succ n => rfl

theorem fresh_child (b : Nat) : freshNode.child b = -1 := by
  unfold TrieNode.child freshNode
  split <;> rfl

theorem stampOf_fresh (bs : List Nat) : stampOf [freshNode] bs = none := by
  cases bs with
  | nil => rfl
  | cons b rest =>
    have hf : follow [freshNode] 0 (b :: rest) = none := by
      show (if freshNode.child b = -1 then none
          else follow [freshNode] (freshNode.child b) rest) = none
      rw [fresh_child b]
      rfl
    unfold stampOf
    rw [hf]

theorem inv_new : Inv newCIDRIndex [] := by
  refine ⟨by decide, ?_, ?_, List.nodup_nil, ?_, ?_, ?_, ?_⟩
  · intro nd hnd
    rw [List.mem_singleton.mp hnd]
    exact ⟨Or.inl rfl, Or.inl rfl⟩
  · constructor
    · intro j hj b hb
      show ([freshNode].getD j freshNode).child b ≠ 0
      rw [getD_singleton_fresh, fresh_child]
      decide
    · intro j1 hj1 j2 hj2 b1 hb1 b2 hb2 hne heq
      exact absurd (by
        show ([freshNode].getD j1 freshNode).child b1 = -1
        rw [getD_singleton_fresh, fresh_child]) hne
  · intro l0 hl0
    exact absurd hl0 (List.not_mem_nil l0)
  · intro q hq
    exact absurd hq (List.not_mem_nil q)
  · intro nm
    simp [newCIDRIndex, mapGet]
  · intro bs _
    show stampOf [freshNode] bs = (labelAt [] bs).map _
    rw [stampOf_fresh bs]
    rfl

theorem inv_addNet (w : Nat) (idx : CIDRIndex) (P : List (Pfx × Label))
    (p : Pfx) (l : Label) (hinv : Inv idx P)
    (hnew : ∀ q ∈ P, pathBits q.1 ≠ pathBits p)
    (hm : p.maskLen ≤ 127) (hw : 1 ≤ w)
    (hcount : mapGet idx.idByName l = 0 →
      (idx.names.length : Int) + 1 < 2 ^ (w - 1)) :
    Inv (addNet w idx p l) (P ++ [(p, l)]) := by
  obtain ⟨hroot, hwf, hpi, hnodup, hnamesP, hPnames, hmap, hstamp⟩ := hinv
  obtain ⟨hext, hwf1, hpi1, hfin0, hfinlt, hfollow⟩ :=
    insertBits_spec (pathBits p) idx.nodes 0 hwf (le_refl 0) (by simpa using hroot)
  have hm8 : icast 8 (p.maskLen : Int) = (p.maskLen : Int) := by
    have h128 : ((2 : Int) ^ (8 - 1)) = 128 := by norm_num
    exact icast_eq_self 8 (by omega) _ (by rw [h128]; omega) (by rw [h128]; omega)
  by_cases hl : mapGet idx.idByName l = 0
  · have hnotin : l ∉ idx.names := by
      intro hc
      have h2 := hmap l
      rw [if_pos hc] at h2
      rw [h2] at hl
      unfold posOf at hl
      omega
    have hidv : icast w (((idx.names.length + 1 : Nat)) : Int) =
        (idx.names.length : Int) + 1 := by
      have hb := hcount hl
      have hc2 : (((idx.names.length + 1 : Nat)) : Int) =
          (idx.names.length : Int) + 1 := by push_cast; ring
      rw [hc2]
      refine icast_eq_self w hw _ ?_ hb
      have hp : (0 : Int) < 2 ^ (w - 1) := by positivity
      omega
    have hidne : icast w (((idx.names.length + 1 : Nat)) : Int) ≠ -1 := by
      rw [hidv]; omega
    have hsai := stampOf_after_insert idx.nodes (pathBits p)
      (icast w (((idx.names.length + 1 : Nat)) : Int))
      (icast 8 (p.maskLen : Int)) hwf hpi hroot (bitsOK_pathBits p) hidne
    simp only [Inv, addNet_nodes, addNet_names, addNet_idByName, if_pos hl]
    refine ⟨?_, ?_, ?_, ?_, ?_, ?_, ?_, ?_⟩
    · rw [stampN_length]
      have hx := hext.1
      omega
    · exact wfc_stampN _ _ _ _ hwf1
    · exact pi_stampN _ _ _ _ (hpi1 hpi)
    · rw [List.nodup_append]
      exact ⟨hnodup, List.nodup_singleton l,
        fun a ha hb => hnotin (by rwa [List.mem_singleton.mp hb] at ha)⟩
    · intro l0 hl0
      rcases List.mem_append.mp hl0 with h | h
      · obtain ⟨q, hq, hq2⟩ := hnamesP l0 h
        exact ⟨q, List.mem_append_left _ hq, hq2⟩
      · exact ⟨(p, l), List.mem_append_right _ (List.mem_singleton_self _),
          (List.mem_singleton.mp h).symm⟩
    · intro q hq
      rcases List.mem_append.mp hq with h | h
      · exact List.mem_append_left _ (hPnames q h)
      · rw [List.mem_singleton.mp h]
        exact List.mem_append_right _ (List.mem_singleton_self _)
    · intro nm
      by_cases hnm : nm = l
      · subst hnm
        rw [mapGet_mapSet_self,
          if_pos (List.mem_append_right _ (List.mem_singleton_self nm)),
          posOf_append_self _ _ hnotin]
        exact hidv
      · rw [mapGet_mapSet_other _ _ _ _ hnm, hmap nm]
        by_cases hn2 : nm ∈ idx.names
        · rw [if_pos hn2, if_pos (List.mem_append_left _ hn2),
            posOf_append_mem _ _ _ hn2]
        · have hn3 : nm ∉ idx.names ++ [l] := by
            intro hc
            rcases List.mem_append.mp hc with h | h
            · exact hn2 h
            · exact hnm (List.mem_singleton.mp h)
          rw [if_neg hn2, if_neg hn3]
    · intro bs hok
      rw [hsai bs hok]
      by_cases hbs : bs = pathBits p
      · rw [if_pos hbs]
        have hA : labelAt P bs = none :=
          labelAt_eq_none P bs (fun q hq => by rw [hbs]; exact hnew q hq)
        rw [labelAt_append_of_none P (p, l) bs hA, if_pos hbs.symm]
        have hc2 : ((idx.names.length : Int) + 1) =
            (((idx.names.length + 1 : Nat)) : Int) := by push_cast; ring
        have hidv2 : icast w ((idx.names.length : Int) + 1) =
            (idx.names.length : Int) + 1 := by
          rw [hc2, hidv, hc2]
        simp [posOf_append_self _ _ hnotin, hidv2, hm8, hbs, pathBits_length]
      · rw [if_neg hbs, hstamp bs hok]
        cases hA : labelAt P bs with
        | none =>
          rw [labelAt_append_of_none P (p, l) bs hA,
            if_neg (fun hc => hbs hc.symm)]
          rfl
        | some l0 =>
          rw [labelAt_append_of_some P (p, l) bs l0 hA]
          obtain ⟨q, hqP, hq2, _⟩ := labelAt_mem P bs l0 hA
          have hl0mem : l0 ∈ idx.names := hq2 ▸ hPnames q hqP
          simp [posOf_append_mem _ _ _ hl0mem]
  · have hin : l ∈ idx.names := by
      by_contra hc
      have h2 := hmap l
      rw [if_neg hc] at h2
      exact hl h2
    have hlid : mapGet idx.idByName l = posOf idx.names l := by
      have h2 := hmap l
      rwa [if_pos hin] at h2
    have hidne : mapGet idx.idByName l ≠ -1 := by
      rw [hlid]; unfold posOf; omega
    have hsai := stampOf_after_insert idx.nodes (pathBits p)
      (mapGet idx.idByName l) (icast 8 (p.maskLen : Int))
      hwf hpi hroot (bitsOK_pathBits p) hidne
    simp only [Inv, addNet_nodes, addNet_names, addNet_idByName, if_neg hl]
    refine ⟨?_, ?_, ?_, hnodup, ?_, ?_, hmap, ?_⟩
    · rw [stampN_length]
      have hx := hext.1
      omega
    · exact wfc_stampN _ _ _ _ hwf1
    · exact pi_stampN _ _ _ _ (hpi1 hpi)
    · intro l0 hl0
      obtain ⟨q, hq, hq2⟩ := hnamesP l0 hl0
      exact ⟨q, List.mem_append_left _ hq, hq2⟩
    · intro q hq
      rcases List.mem_append.mp hq with h | h
      · exact hPnames q h
      · rw [List.mem_singleton.mp h]
        exact hin
    · intro bs hok
      rw [hsai bs hok]
      by_cases hbs : bs = pathBits p
      · rw [if_pos hbs]
        have hA : labelAt P bs = none :=
          labelAt_eq_none P bs (fun q hq => by rw [hbs]; exact hnew q hq)
        rw [labelAt_append_of_none P (p, l) bs hA, if_pos hbs.symm]
        simp [hlid, hm8, hbs, pathBits_length]
      · rw [if_neg hbs, hstamp bs hok]
        cases hA : labelAt P bs with
        | none =>
          rw [labelAt_append_of_none P (p, l) bs hA,
            if_neg (fun hc => hbs hc.symm)]
        | some l0 =>
          rw [labelAt_append_of_some P (p, l) bs l0 hA]

theorem names_le_dedup (ns L : List Label) (hnd : ns.Nodup)
    (hsub : ∀ x ∈ ns, x ∈ L) : ns.length ≤ L.dedup.length := by
  have h1 : ns.toFinset.card = ns.length := List.toFinset_card_of_nodup hnd
  have h2 : ns.toFinset ⊆ L.toFinset := by
    intro x hx
    exact List.mem_toFinset.mpr (hsub x (List.mem_toFinset.mp hx))
  have h3 := Finset.card_le_card h2
  rw [h1] at h3
  rw [List.card_toFinset] at h3
  exact h3

theorem inv_insertAll_aux (w : Nat) (hw : 1 ≤ w) :
    ∀ (rest Pdone : List (Pfx × Label)) (idx : CIDRIndex),
      Inv idx Pdone →
      (∀ q ∈ Pdone, ∀ r ∈ rest, pathBits q.1 ≠ pathBits r.1) →
      List.Pairwise (fun x y => pathBits x.1 ≠ pathBits y.1) rest →
      (∀ q ∈ rest, q.1.maskLen ≤ 127) →
      ((((Pdone ++ rest).map (fun q => q.2)).dedup.length : Int) < 2 ^ (w - 1)) →
      Inv (rest.foldl (fun j q => addNet w j q.1 q.2) idx) (Pdone ++ rest) := by
  intro rest
  induction rest with
  | nil =>
    intro Pdone idx hinv _ _ _ _
    simpa using hinv
  | cons r rest ih =>
    intro Pdone idx hinv hcross hpair hmask hcnt
    obtain ⟨hxr, hpair2⟩ := List.pairwise_cons.mp hpair
    have hnodup := hinv.2.2.2.1
    have hnamesP := hinv.2.2.2.2.1
    have hmapI := hinv.2.2.2.2.2.2.1
    have hcount : mapGet idx.idByName r.2 = 0 →
        (idx.names.length : Int) + 1 < 2 ^ (w - 1) := by
      intro hl
      have hnotin : r.2 ∉ idx.names := by
        intro hc
        have h2 := hmapI r.2
        rw [if_pos hc] at h2
        rw [h2] at hl
        unfold posOf at hl
        omega
      have hsub : ∀ x ∈ idx.names ++ [r.2],
          x ∈ (Pdone ++ r :: rest).map (fun q => q.2) := by
        intro x hx
        rcases List.mem_append.mp hx with h2 | h2
        · obtain ⟨q, hq, hq2⟩ := hnamesP x h2
          exact List.mem_map.mpr ⟨q, List.mem_append_left _ hq, hq2⟩
        · rw [List.mem_singleton.mp h2]
          exact List.mem_map.mpr ⟨r,
            List.mem_append_right _ (List.mem_cons_self r rest), rfl⟩
      have hnd2 : (idx.names ++ [r.2]).Nodup := by
        rw [List.nodup_append]
        exact ⟨hnodup, List.nodup_singleton _,
          fun a ha hb => hnotin (by rwa [List.mem_singleton.mp hb] at ha)⟩
      have hle := names_le_dedup (idx.names ++ [r.2])
        ((Pdone ++ r :: rest).map (fun q => q.2)) hnd2 hsub
      rw [List.length_append, List.length_singleton] at hle
      have hle2 : ((idx.names.length + 1 : Nat) : Int) ≤
          (((Pdone ++ r :: rest).map (fun q => q.2)).dedup.length : Int) := by
        exact_mod_cast hle
      push_cast at hle2
      exact lt_of_le_of_lt hle2 hcnt
    have hinv2 : Inv (addNet w idx r.1 r.2) (Pdone ++ [r]) := by
      refine inv_addNet w idx Pdone r.1 r.2 hinv ?_
        (hmask r (List.mem_cons_self r rest)) hw hcount
      intro q hq
      exact hcross q hq r (List.mem_cons_self r rest)
    have hcross2 : ∀ q ∈ Pdone ++ [r], ∀ s ∈ rest,
        pathBits q.1 ≠ pathBits s.1 := by
      intro q hq s hs
      rcases List.mem_append.mp hq with h2 | h2
      · exact hcross q h2 s (List.mem_cons_of_mem r hs)
      · rw [List.mem_singleton.mp h2]
        exact hxr s hs
    have hmask2 : ∀ q ∈ rest, q.1.maskLen ≤ 127 :=
      fun q hq => hmask q (List.mem_cons_of_mem r hq)
    have hcnt2 : ((((Pdone ++ [r]) ++ rest).map (fun q => q.2)).dedup.length : Int)
        < 2 ^ (w - 1) := by
      rw [List.append_assoc, List.singleton_append]
      exact hcnt
    have h := ih (Pdone ++ [r]) (addNet w idx r.1 r.2) hinv2 hcross2 hpair2
      hmask2 hcnt2
    rw [List.foldl_cons]
    rw [List.append_assoc, List.singleton_append] at h
    exact h

theorem inv_insertAll (w : Nat) (hw : 1 ≤ w) (P : List (Pfx × Label))
    (hpair : List.Pairwise (fun x y => pathBits x.1 ≠ pathBits y.1) P)
    (hmask : ∀ q ∈ P, q.1.maskLen ≤ 127)
    (hcnt : ((P.map (fun q => q.2)).dedup.length : Int) < 2 ^ (w - 1)) :
    Inv (insertAll w P) P := by
  have h := inv_insertAll_aux w hw P [] newCIDRIndex inv_new
    (fun q hq => absurd hq (List.not_mem_nil q)) hpair hmask
    (by rw [List.nil_append]; exact hcnt)
  rw [List.nil_append] at h
  exact h

/-! ## The specified best match, characterized -/

theorem firstBits_length (a : List Nat) (n : Nat) : (firstBits a n).length = n := by
  simp [firstBits]

theorem bitsOK_firstBits (a : List Nat) (n : Nat) : BitsOK (firstBits a n) := by
  intro x hx
  unfold firstBits at hx
  obtain ⟨i, _, rfl⟩ := List.mem_map.mp hx
  exact bit_le_one a i

theorem pmatch_iff (p : Pfx) (a : List Nat) :
    pmatch p a ↔ p.maskLen ≤ 8 * a.length ∧
      pathBits p = firstBits a p.maskLen := by
  unfold pmatch pathBits firstBits
  constructor
  · rintro ⟨h1, h2⟩
    refine ⟨h1, ?_⟩
    rw [List.map_inj_left]
    intro i hi
    exact h2 i (List.mem_range.mp hi)
  · rintro ⟨h1, h2⟩
    refine ⟨h1, ?_⟩
    intro i hi
    rw [List.map_inj_left] at h2
    exact h2 i (List.mem_range.mpr hi)

theorem labelAt_none_forall (P : List (Pfx × Label)) (bs : List Nat)
    (h : labelAt P bs = none) : ∀ q ∈ P, pathBits q.1 ≠ bs := by
  intro q hq hc
  unfold labelAt at h
  cases hf : P.find? (fun r => decide (pathBits r.1 = bs)) with
  | some r => rw [hf] at h; exact absurd h (by simp)
  | none =>
    have h2 := List.find?_eq_none.mp hf q hq
    simp [hc] at h2

theorem pairwise_pathBits_eq (P : List (Pfx × Label))
    (hpair : List.Pairwise (fun x y => pathBits x.1 ≠ pathBits y.1) P) :
    ∀ r ∈ P, ∀ q ∈ P, pathBits r.1 = pathBits q.1 → r = q := by
  induction hpair with
  | nil =>
    intro r hr
    exact absurd hr (List.not_mem_nil r)
  | cons hx hxs ih =>
    intro r hr q hq h
    rcases List.mem_cons.mp hr with h1 | h1 <;>
      rcases List.mem_cons.mp hq with h2 | h2
    · rw [h1, h2]
    · subst h1
      exact absurd h (hx q h2)
    · subst h2
      exact absurd h.symm (hx r h1)
    · exact ih r h1 q h2 h

theorem specBest_cons (q : Pfx × Label) (P : List (Pfx × Label)) (a : List Nat) :
    specBest (q :: P) a =
      if pmatch q.1 a then
        match specBest P a with
        | none => some q
        | some r => if r.1.maskLen < q.1.maskLen then some q else some r
      else specBest P a := rfl

theorem ite_some_ne_none {c : Prop} [Decidable c] (x y : Pfx × Label) :
    (if c then some x else some y) ≠ none := by
  split <;> simp

theorem specBest_none_iff (P : List (Pfx × Label)) (a : List Nat) :
    specBest P a = none ↔ ∀ q ∈ P, ¬ pmatch q.1 a := by
  induction P with
  | nil => simp [specBest]
  | cons q rest ih =>
    rw [specBest_cons]
    by_cases h : pmatch q.1 a
    · rw [if_pos h]
      constructor
      · intro hc
        exfalso
        cases hsb : specBest rest a with
        | none =>
          rw [hsb] at hc
          exact absurd hc (by simp)
        | some r =>
          rw [hsb] at hc
          exact ite_some_ne_none q r hc
      · intro hall
        exact absurd h (hall q (List.mem_cons_self q rest))
    · rw [if_neg h, ih]
      constructor
      · intro hall s hs
        rcases List.mem_cons.mp hs with h2 | h2
        · rw [h2]
          exact h
        · exact hall s h2
      · intro hall s hs
        exact hall s (List.mem_cons_of_mem q hs)

theorem specBest_some (P : List (Pfx × Label)) (a : List Nat) :
    ∀ r, specBest P a = some r →
      r ∈ P ∧ pmatch r.1 a ∧
        ∀ q ∈ P, pmatch q.1 a → q.1.maskLen ≤ r.1.maskLen := by
  induction P with
  | nil =>
    intro r h
    exact absurd h (by simp [specBest])
  | cons q rest ih =>
    intro r h
    rw [specBest_cons] at h
    by_cases hq : pmatch q.1 a
    · rw [if_pos hq] at h
      cases hsb : specBest rest a with
      | none =>
        rw [hsb] at h
        injection h with h
        subst h
        refine ⟨List.mem_cons_self _ _, hq, ?_⟩
        intro s hs hms
        rcases List.mem_cons.mp hs with h2 | h2
        · subst h2
          exact le_refl _
        · exact absurd hms ((specBest_none_iff rest a).mp hsb s h2)
      | some r2 =>
        rw [hsb] at h
        obtain ⟨hmem2, hm2, hmax2⟩ := ih r2 hsb
        have h3 : (if r2.1.maskLen < q.1.maskLen then some q else some r2) =
            some r := h
        by_cases hlt : r2.1.maskLen < q.1.maskLen
        · rw [if_pos hlt] at h3
          injection h3 with h3
          subst h3
          refine ⟨List.mem_cons_self _ _, hq, ?_⟩
          intro s hs hms
          rcases List.mem_cons.mp hs with h2 | h2
          · subst h2
            exact le_refl _
          · exact le_trans (hmax2 s h2 hms) (le_of_lt hlt)
        · rw [if_neg hlt] at h3
          injection h3 with h3
          subst h3
          refine ⟨List.mem_cons_of_mem _ hmem2, hm2, ?_⟩
          intro s hs hms
          rcases List.mem_cons.mp hs with h2 | h2
          · subst h2
            omega
          · exact hmax2 s h2 hms
    · rw [if_neg hq] at h
      obtain ⟨hmem2, hm2, hmax2⟩ := ih r h
      refine ⟨List.mem_cons_of_mem _ hmem2, hm2, ?_⟩
      intro s hs hms
      rcases List.mem_cons.mp hs with h2 | h2
      · subst h2
        exact absurd hms hq
      · exact hmax2 s h2 hms

/-! ## The lookup fold picks the deepest stamp -/

theorem foldStamps_snoc (nodes : List TrieNode) (a : List Nat) :
    ∀ (k : Nat) (b : Int × Int) (i : Nat),
      foldStamps nodes a b i (k + 1) =
        stepBest (foldStamps nodes a b i k)
          (stampOf nodes (firstBits a (i + k + 1))) := by
  intro k
  induction k with
  | zero =>
    intro b i
    rfl
  | succ k ih =>
    intro b i
    show foldStamps nodes a (stepBest b (stampOf nodes (firstBits a i))) (i + 1)
        (k + 1) =
      stepBest (foldStamps nodes a b i (k + 1))
        (stampOf nodes (firstBits a (i + (k + 1) + 1)))
    rw [ih]
    have he : i + 1 + k + 1 = i + (k + 1) + 1 := by omega
    rw [he]
    rfl

theorem foldStamps_max (nodes : List TrieNode) (a : List Nat)
    (hdep : ∀ n s, stampOf nodes (firstBits a n) = some s →
      s.2 = (n : Int) ∧ s.1 ≠ -1) :
    ∀ n,
      ((∀ d, d ≤ n → stampOf nodes (firstBits a d) = none) ∧
        foldStamps nodes a (-1, -1) 0 n = (-1, -1)) ∨
      (∃ d, d ≤ n ∧ ∃ s, stampOf nodes (firstBits a d) = some s ∧
        foldStamps nodes a (-1, -1) 0 n = s ∧
        ∀ e, d < e → e ≤ n → stampOf nodes (firstBits a e) = none) := by
  intro n
  induction n with
  | zero =>
    cases hs : stampOf nodes (firstBits a 0) with
    | none =>
      left
      refine ⟨?_, ?_⟩
      · intro d hd
        have hd0 : d = 0 := by omega
        rw [hd0]
        exact hs
      · show stepBest (-1, -1) (stampOf nodes (firstBits a 0)) = (-1, -1)
        rw [hs]
        rfl
    | some s =>
      right
      obtain ⟨hs2, hs1⟩ := hdep 0 s hs
      refine ⟨0, le_refl 0, s, hs, ?_, ?_⟩
      · show stepBest (-1, -1) (stampOf nodes (firstBits a 0)) = s
        rw [hs]
        have hlt : ((-1 : Int), (-1 : Int)).2 < s.2 := by
          show (-1 : Int) < s.2
          rw [hs2]
          omega
        exact if_pos ⟨hs1, hlt⟩
      · intro e he1 he2
        exact absurd he2 (by omega)
  | succ n ih =>
    have hsnoc := foldStamps_snoc nodes a n (-1, -1) 0
    have hidx : 0 + n + 1 = n + 1 := by omega
    rw [hidx] at hsnoc
    cases hs : stampOf nodes (firstBits a (n + 1)) with
    | none =>
      rcases ih with ⟨hall, hfold⟩ | ⟨d, hd, s, hsd, hfold, hnone⟩
      · left
        refine ⟨?_, ?_⟩
        · intro d hd
          by_cases h2 : d ≤ n
          · exact hall d h2
          · have hdn : d = n + 1 := by omega
            rw [hdn]
            exact hs
        · rw [hsnoc, hfold, hs]
          rfl
      · right
        refine ⟨d, by omega, s, hsd, ?_, ?_⟩
        · rw [hsnoc, hfold, hs]
          rfl
        · intro e he1 he2
          by_cases h2 : e ≤ n
          · exact hnone e he1 h2
          · have hen : e = n + 1 := by omega
            rw [hen]
            exact hs
    | some s2 =>
      obtain ⟨hs22, hs21⟩ := hdep (n + 1) s2 hs
      right
      refine ⟨n + 1, le_refl _, s2, hs, ?_, ?_⟩
      · rw [hsnoc, hs]
        rcases ih with ⟨hall, hfold⟩ | ⟨d, hd, s, hsd, hfold, hnone⟩
        · rw [hfold]
          have hlt : ((-1 : Int), (-1 : Int)).2 < s2.2 := by
            show (-1 : Int) < s2.2
            rw [hs22]
            omega
          exact if_pos ⟨hs21, hlt⟩
        · rw [hfold]
          obtain ⟨hsd2, _⟩ := hdep d s hsd
          have hlt : s.2 < s2.2 := by
            rw [hsd2, hs22]
            omega
          exact if_pos ⟨hs21, hlt⟩
      · intro e he1 he2
        exact absurd he2 (by omega)

theorem lookupIP_resolve (idx : CIDRIndex) (a : List Nat) (bid : Int)
    (h : lookupCore idx.nodes a = some bid) :
    lookupIP idx a =
      if bid = -1 then some []
      else if bid < 1 then none else idx.names[bid.toNat - 1]? := by
  unfold lookupIP
  rw [h]

/-! ## C1: longest-prefix-match correctness of the in-memory index -/

/-- C1 (amended): for every list of distinct prefixes with mask length
at most 127 inserted via AddNet into a fresh index, with fewer distinct
labels than the id width can hold, and every 4- or 16-byte address,
LookupIP returns the label of the inserted prefix with the greatest
mask length whose bit path is a prefix of the address bits, and the
empty string when no inserted prefix contains the address. -/
theorem C1_amended_longest_prefix_match (w : Nat) (P : List (Pfx × Label))
    (a : List Nat) (hw : 1 ≤ w)
    (hpair : List.Pairwise (fun x y => pathBits x.1 ≠ pathBits y.1) P)
    (hmask : ∀ q ∈ P, q.1.maskLen ≤ 127)
    (hcnt : ((P.map (fun q => q.2)).dedup.length : Int) < 2 ^ (w - 1))
    (ha : a.length = 4 ∨ a.length = 16) :
    lookupIP (insertAll w P) a = some (specLookup P a) := by
  obtain ⟨hroot, hwf, hpi, hnodup, hnamesP, hPnames, hmap, hstamp⟩ :=
    inv_insertAll w hw P hpair hmask hcnt
  have hN : (if a.length = 4 then 32 else 128) = 8 * a.length := by
    rcases ha with h | h <;> rw [h] <;> norm_num
  have hstampN : ∀ n, stampOf (insertAll w P).nodes (firstBits a n) =
      (labelAt P (firstBits a n)).map
        (fun l => (posOf (insertAll w P).names l, (n : Int))) := by
    intro n
    have h2 := hstamp (firstBits a n) (bitsOK_firstBits a n)
    simpa only [firstBits_length] using h2
  have hdep : ∀ n s, stampOf (insertAll w P).nodes (firstBits a n) = some s →
      s.2 = (n : Int) ∧ s.1 ≠ -1 := by
    intro n s hsome
    rw [hstampN n] at hsome
    cases hA : labelAt P (firstBits a n) with
    | none => rw [hA] at hsome; exact absurd hsome (by simp)
    | some l0 =>
      rw [hA] at hsome
      have hs : s = (posOf (insertAll w P).names l0, (n : Int)) := by
        simpa using hsome.symm
      rw [hs]
      refine ⟨rfl, ?_⟩
      show posOf (insertAll w P).names l0 ≠ -1
      unfold posOf
      omega
  rcases foldStamps_max (insertAll w P).nodes a hdep
      (if a.length = 4 then 32 else 128) with
    ⟨hall, hfold⟩ | ⟨d, hd, s, hsd, hfold, hnone⟩
  · have hcore := lookupCore_spec a hwf hroot
    rw [hfold] at hcore
    have hcore2 : lookupCore (insertAll w P).nodes a = some (-1) := hcore
    have hres := lookupIP_resolve (insertAll w P) a (-1) hcore2
    rw [if_pos rfl] at hres
    have hsbn : specBest P a = none := by
      rw [specBest_none_iff]
      intro q hq hmq
      obtain ⟨hle, hpb⟩ := (pmatch_iff q.1 a).mp hmq
      have hdq : q.1.maskLen ≤ (if a.length = 4 then 32 else 128) := by
        rw [hN]
        exact hle
      have hsnone := hall q.1.maskLen hdq
      rw [hstampN q.1.maskLen] at hsnone
      have hAn : labelAt P (firstBits a q.1.maskLen) = none := by
        cases hA : labelAt P (firstBits a q.1.maskLen) with
        | none => rfl
        | some l0 => rw [hA] at hsnone; exact absurd hsnone (by simp)
      exact absurd hpb (labelAt_none_forall P _ hAn q hq)
    rw [hres]
    unfold specLookup
    rw [hsbn]
    rfl
  · have hcore := lookupCore_spec a hwf hroot
    rw [hfold] at hcore
    have hsv := hstampN d
    rw [hsd] at hsv
    cases hA : labelAt P (firstBits a d) with
    | none =>
      rw [hA] at hsv
      exact absurd hsv (by simp)
    | some l0 =>
      rw [hA] at hsv
      have hs : s = (posOf (insertAll w P).names l0, (d : Int)) := by
        simpa using hsv
      obtain ⟨q0, hq0P, hq02, hq0pb⟩ := labelAt_mem P (firstBits a d) l0 hA
      have hl0mem : l0 ∈ (insertAll w P).names := hq02 ▸ hPnames q0 hq0P
      have hio : (((insertAll w P).names.indexOf l0 : Nat) : Int) + 1 = s.1 := by
        rw [hs]
        rfl
      have hne1 : ¬ (s.1 = -1) := by omega
      have hne2 : ¬ (s.1 < 1) := by omega
      have hres := lookupIP_resolve (insertAll w P) a s.1 hcore
      rw [if_neg hne1, if_neg hne2] at hres
      have htn : s.1.toNat - 1 = (insertAll w P).names.indexOf l0 := by omega
      rw [htn, label_getElem_indexOf _ _ hl0mem] at hres
      have hq0len : q0.1.maskLen = d := by
        have h2 := pathBits_length q0.1
        rw [hq0pb, firstBits_length] at h2
        exact h2.symm
      have hq0m : pmatch q0.1 a := by
        rw [pmatch_iff]
        constructor
        · rw [hq0len, ← hN]
          exact hd
        · rw [hq0len]
          exact hq0pb
      cases hsb : specBest P a with
      | none => exact absurd hq0m ((specBest_none_iff P a).mp hsb q0 hq0P)
      | some r =>
        obtain ⟨hrP, hrm, hrmax⟩ := specBest_some P a r hsb
        have hrge : d ≤ r.1.maskLen := by
          rw [← hq0len]
          exact hrmax q0 hq0P hq0m
        have hrle : r.1.maskLen ≤ d := by
          by_contra hgt
          push_neg at hgt
          obtain ⟨hle2, hpb2⟩ := (pmatch_iff r.1 a).mp hrm
          have he2 : r.1.maskLen ≤ (if a.length = 4 then 32 else 128) := by
            rw [hN]
            exact hle2
          have hsn := hnone r.1.maskLen hgt he2
          rw [hstampN r.1.maskLen] at hsn
          have hAn : labelAt P (firstBits a r.1.maskLen) = none := by
            cases hA2 : labelAt P (firstBits a r.1.maskLen) with
            | none => rfl
            | some l1 => rw [hA2] at hsn; exact absurd hsn (by simp)
          exact absurd hpb2 (labelAt_none_forall P _ hAn r hrP)
        have hrd : r.1.maskLen = d := le_antisymm hrle hrge
        have hrpb : pathBits r.1 = pathBits q0.1 := by
          obtain ⟨_, hpb2⟩ := (pmatch_iff r.1 a).mp hrm
          rw [hpb2, hrd, hq0pb]
        have hreq : r = q0 := pairwise_pathBits_eq P hpair r hrP q0 hq0P hrpb
        rw [hres]
        unfold specLookup
        rw [hsb]
        simp [hreq, hq02]

/-- Witness for C1 at a concrete two-prefix index and address. -/
theorem C1_amended_witness :
    (1 ≤ 16) ∧
    List.Pairwise (fun x y => pathBits x.1 ≠ pathBits y.1)
      [((⟨[10, 0, 0, 0], 8⟩ : Pfx), ([1] : Label)),
        ((⟨[10, 1, 0, 0], 16⟩ : Pfx), ([2] : Label))] ∧
    (∀ q ∈ [((⟨[10, 0, 0, 0], 8⟩ : Pfx), ([1] : Label)),
        ((⟨[10, 1, 0, 0], 16⟩ : Pfx), ([2] : Label))], q.1.maskLen ≤ 127) ∧
    ((([((⟨[10, 0, 0, 0], 8⟩ : Pfx), ([1] : Label)),
        ((⟨[10, 1, 0, 0], 16⟩ : Pfx), ([2] : Label))].map
          (fun q => q.2)).dedup.length : Int) < 2 ^ (16 - 1)) ∧
    (([10, 1, 2, 3] : List Nat).length = 4 ∨
      ([10, 1, 2, 3] : List Nat).length = 16) ∧
    lookupIP
        (insertAll 16 [((⟨[10, 0, 0, 0], 8⟩ : Pfx), ([1] : Label)),
          ((⟨[10, 1, 0, 0], 16⟩ : Pfx), ([2] : Label))])
        [10, 1, 2, 3] =
      some (specLookup [((⟨[10, 0, 0, 0], 8⟩ : Pfx), ([1] : Label)),
        ((⟨[10, 1, 0, 0], 16⟩ : Pfx), ([2] : Label))] [10, 1, 2, 3]) :=
  ⟨by decide, by decide, by decide, by decide, Or.inl rfl,
    C1_amended_longest_prefix_match 16
      [((⟨[10, 0, 0, 0], 8⟩ : Pfx), ([1] : Label)),
        ((⟨[10, 1, 0, 0], 16⟩ : Pfx), ([2] : Label))]
      [10, 1, 2, 3] (by decide) (by decide) (by decide) (by decide)
      (Or.inl rfl)⟩

/-! ## C3: the binary round trip of Save and Load -/

theorem toUnsigned_lt (w : Nat) (x : Int) : toUnsigned w x < 2 ^ w := by
  unfold toUnsigned
  have h1 : (0 : Int) < ((2 ^ w : Nat) : Int) := by positivity
  have h2 := Int.emod_nonneg x (by omega : ((2 ^ w : Nat) : Int) ≠ 0)
  have h3 := Int.emod_lt_of_pos x h1
  omega

theorem take_append_len (l1 l2 : List Nat) (n : Nat) (h : l1.length = n) :
    (l1 ++ l2).take n = l1 := by
  rw [← h, List.take_left]

theorem drop_append_len (l1 l2 : List Nat) (n : Nat) (h : l1.length = n) :
    (l1 ++ l2).drop n = l2 := by
  rw [← h, List.drop_left]

theorem getD_append_right_at (l1 l2 : List Nat) (i k : Nat) (h : l1.length = k)
    (hle : k ≤ i) : (l1 ++ l2).getD i 0 = l2.getD (i - k) 0 := by
  subst h
  rw [List.getD_eq_getElem?_getD, List.getElem?_append_right hle,
    List.getD_eq_getElem?_getD]

theorem putU16_length (n : Nat) : (putU16 n).length = 2 := rfl

theorem marshalNode_length (w : Nat) (hw : w = 16 ∨ w = 32) (n : TrieNode) :
    (marshalNode w n).length = nodeSize w := by
  rcases hw with hw | hw <;> subst hw <;> rfl

theorem unmarshal_marshal (w : Nat) (hw : w = 16 ∨ w = 32) (n : TrieNode)
    (hc0 : -(2 ^ 31) ≤ n.child0 ∧ n.child0 < 2 ^ 31)
    (hc1 : -(2 ^ 31) ≤ n.child1 ∧ n.child1 < 2 ^ 31)
    (hid : -(2 ^ (w - 1)) ≤ n.id ∧ n.id < 2 ^ (w - 1))
    (hml : -(2 ^ 7) ≤ n.maskLen ∧ n.maskLen < 2 ^ 7) :
    unmarshalNode w (marshalNode w n) = some n := by
  rcases hw with hw | hw <;> subst hw
  · have hbody : marshalNode 16 n =
        putU32 (toUnsigned 32 n.child0) ++ (putU32 (toUnsigned 32 n.child1) ++
          (putU16 (toUnsigned 16 n.id) ++ [toUnsigned 8 n.maskLen])) := by
      unfold marshalNode
      rw [if_pos rfl]
      simp [List.append_assoc]
    have hlen : (marshalNode 16 n).length = 11 := by
      rw [hbody]
      simp [putU32_length, putU16_length]
    have ht4 : (marshalNode 16 n).take 4 = putU32 (toUnsigned 32 n.child0) := by
      rw [hbody]
      exact take_append_len _ _ _ (putU32_length _)
    have hd4 : (marshalNode 16 n).drop 4 =
        putU32 (toUnsigned 32 n.child1) ++
          (putU16 (toUnsigned 16 n.id) ++ [toUnsigned 8 n.maskLen]) := by
      rw [hbody]
      exact drop_append_len _ _ _ (putU32_length _)
    have ht8 : ((marshalNode 16 n).drop 4).take 4 =
        putU32 (toUnsigned 32 n.child1) := by
      rw [hd4]
      exact take_append_len _ _ _ (putU32_length _)
    have hd8 : (marshalNode 16 n).drop 8 =
        putU16 (toUnsigned 16 n.id) ++ [toUnsigned 8 n.maskLen] := by
      have hdd : (marshalNode 16 n).drop 8 =
          ((marshalNode 16 n).drop 4).drop 4 := (List.drop_drop 4 4 _).symm
      rw [hdd, hd4]
      exact drop_append_len _ _ _ (putU32_length _)
    have ht10 : ((marshalNode 16 n).drop 8).take 2 =
        putU16 (toUnsigned 16 n.id) := by
      rw [hd8]
      exact take_append_len _ _ _ (putU16_length _)
    have hg10 : (marshalNode 16 n).getD 10 0 = toUnsigned 8 n.maskLen := by
      rw [hbody,
        getD_append_right_at _ _ 10 4 (putU32_length _) (by omega),
        getD_append_right_at _ _ (10 - 4) 4 (putU32_length _) (by omega),
        getD_append_right_at _ _ (10 - 4 - 4) 2 (putU16_length _) (by omega)]
      rfl
    unfold unmarshalNode
    rw [if_pos rfl, if_pos hlen, ht4, ht8, ht10, hg10,
      getU32_putU32 _ (toUnsigned_lt 32 _), getU32_putU32 _ (toUnsigned_lt 32 _),
      getU16_putU16 _ (toUnsigned_lt 16 _),
      toSigned_toUnsigned 32 (by omega) _ hc0.1 hc0.2,
      toSigned_toUnsigned 32 (by omega) _ hc1.1 hc1.2,
      toSigned_toUnsigned 16 (by omega) _ hid.1 hid.2,
      toSigned_toUnsigned 8 (by omega) _ hml.1 hml.2]
  · have hbody : marshalNode 32 n =
        putU32 (toUnsigned 32 n.child0) ++ (putU32 (toUnsigned 32 n.child1) ++
          (putU32 (toUnsigned 32 n.id) ++ [toUnsigned 8 n.maskLen])) := by
      unfold marshalNode
      rw [if_neg (by decide)]
      simp [List.append_assoc]
    have hlen : (marshalNode 32 n).length = 13 := by
      rw [hbody]
      simp [putU32_length]
    have ht4 : (marshalNode 32 n).take 4 = putU32 (toUnsigned 32 n.child0) := by
      rw [hbody]
      exact take_append_len _ _ _ (putU32_length _)
    have hd4 : (marshalNode 32 n).drop 4 =
        putU32 (toUnsigned 32 n.child1) ++
          (putU32 (toUnsigned 32 n.id) ++ [toUnsigned 8 n.maskLen]) := by
      rw [hbody]
      exact drop_append_len _ _ _ (putU32_length _)
    have ht8 : ((marshalNode 32 n).drop 4).take 4 =
        putU32 (toUnsigned 32 n.child1) := by
      rw [hd4]
      exact take_append_len _ _ _ (putU32_length _)
    have hd8 : (marshalNode 32 n).drop 8 =
        putU32 (toUnsigned 32 n.id) ++ [toUnsigned 8 n.maskLen] := by
      have hdd : (marshalNode 32 n).drop 8 =
          ((marshalNode 32 n).drop 4).drop 4 := (List.drop_drop 4 4 _).symm
      rw [hdd, hd4]
      exact drop_append_len _ _ _ (putU32_length _)
    have ht12 : ((marshalNode 32 n).drop 8).take 4 =
        putU32 (toUnsigned 32 n.id) := by
      rw [hd8]
      exact take_append_len _ _ _ (putU32_length _)
    have hg12 : (marshalNode 32 n).getD 12 0 = toUnsigned 8 n.maskLen := by
      rw [hbody,
        getD_append_right_at _ _ 12 4 (putU32_length _) (by omega),
        getD_append_right_at _ _ (12 - 4) 4 (putU32_length _) (by omega),
        getD_append_right_at _ _ (12 - 4 - 4) 4 (putU32_length _) (by omega)]
      rfl
    unfold unmarshalNode
    rw [if_neg (by decide), if_pos hlen, ht4, ht8, ht12, hg12,
      getU32_putU32 _ (toUnsigned_lt 32 _), getU32_putU32 _ (toUnsigned_lt 32 _),
      getU32_putU32 _ (toUnsigned_lt 32 _),
      toSigned_toUnsigned 32 (by omega) _ hc0.1 hc0.2,
      toSigned_toUnsigned 32 (by omega) _ hc1.1 hc1.2,
      toSigned_toUnsigned 32 (by omega) _ hid.1 hid.2,
      toSigned_toUnsigned 8 (by omega) _ hml.1 hml.2]

theorem loadNodes_flatMap (w : Nat) (hw : w = 16 ∨ w = 32) :
    ∀ (nodes : List TrieNode) (tail : List Nat),
      (∀ nd ∈ nodes, unmarshalNode w (marshalNode w nd) = some nd) →
      loadNodes w nodes.length (nodes.flatMap (marshalNode w) ++ tail) =
        some (nodes, tail) := by
  intro nodes
  induction nodes with
  | nil =>
    intro tail _
    rfl
  | cons nd rest ih =>
    intro tail hOK
    have hb : (nd :: rest).flatMap (marshalNode w) ++ tail =
        marshalNode w nd ++ (rest.flatMap (marshalNode w) ++ tail) := by
      rw [List.flatMap_cons, List.append_assoc]
    have hread : readN (marshalNode w nd ++ (rest.flatMap (marshalNode w) ++ tail))
        (nodeSize w) =
        some (marshalNode w nd, rest.flatMap (marshalNode w) ++ tail) := by
      unfold readN
      have hle : nodeSize w ≤
          (marshalNode w nd ++ (rest.flatMap (marshalNode w) ++ tail)).length := by
        rw [List.length_append, marshalNode_length w hw nd]
        omega
      rw [if_pos hle, take_append_len _ _ _ (marshalNode_length w hw nd),
        drop_append_len _ _ _ (marshalNode_length w hw nd)]
    show loadNodes w (rest.length + 1)
        ((nd :: rest).flatMap (marshalNode w) ++ tail) = _
    rw [hb]
    unfold loadNodes
    rw [hread]
    simp only [Option.bind_eq_bind, Option.some_bind]
    rw [hOK nd (List.mem_cons_self nd rest)]
    simp only [Option.some_bind]
    rw [ih tail (fun x hx => hOK x (List.mem_cons_of_mem _ hx))]
    simp only [Option.some_bind]

theorem loadNames_flatMap :
    ∀ (names : List Label) (tail : List Nat),
      (∀ nm ∈ names, nm.length < 2 ^ 32) →
      loadNames names.length
          (names.flatMap (fun n => putU32 n.length ++ n) ++ tail) =
        some (names, tail) := by
  intro names
  induction names with
  | nil =>
    intro tail _
    rfl
  | cons nm rest ih =>
    intro tail hOK
    have hb : (nm :: rest).flatMap (fun n => putU32 n.length ++ n) ++ tail =
        putU32 nm.length ++
          (nm ++ (rest.flatMap (fun n => putU32 n.length ++ n) ++ tail)) := by
      rw [List.flatMap_cons, List.append_assoc, List.append_assoc]
    have hr1 : readN (putU32 nm.length ++
          (nm ++ (rest.flatMap (fun n => putU32 n.length ++ n) ++ tail))) 4 =
        some (putU32 nm.length,
          nm ++ (rest.flatMap (fun n => putU32 n.length ++ n) ++ tail)) := by
      unfold readN
      have hle : 4 ≤ (putU32 nm.length ++
          (nm ++ (rest.flatMap (fun n => putU32 n.length ++ n) ++ tail))).length := by
        rw [List.length_append, putU32_length]
        omega
      rw [if_pos hle, take_append_len _ _ _ (putU32_length _),
        drop_append_len _ _ _ (putU32_length _)]
    have hr2 : readN (nm ++ (rest.flatMap (fun n => putU32 n.length ++ n) ++ tail))
          (getU32 (putU32 nm.length)) =
        some (nm, rest.flatMap (fun n => putU32 n.length ++ n) ++ tail) := by
      rw [getU32_putU32 _ (hOK nm (List.mem_cons_self nm rest))]
      unfold readN
      have hle : nm.length ≤ (nm ++ (rest.flatMap (fun n => putU32 n.length ++ n)
          ++ tail)).length := by
        rw [List.length_append]
        omega
      rw [if_pos hle, take_append_len _ _ _ rfl, drop_append_len _ _ _ rfl]
    show loadNames (rest.length + 1)
        ((nm :: rest).flatMap (fun n => putU32 n.length ++ n) ++ tail) = _
    rw [hb]
    unfold loadNames
    rw [hr1]
    simp only [Option.bind_eq_bind, Option.some_bind]
    rw [hr2]
    simp only [Option.some_bind]
    rw [ih tail (fun x hx => hOK x (List.mem_cons_of_mem _ hx))]
    simp only [Option.some_bind]

theorem mapSet_length_new (m : List (Label × Int)) (k : Label) (v : Int)
    (h : ∀ q ∈ m, q.1 ≠ k) : (mapSet m k v).length = m.length + 1 := by
  induction m with
  | nil => rfl
  | cons q rest ih =>
    obtain ⟨k2, v2⟩ := q
    have hne : k2 ≠ k := h (k2, v2) (List.mem_cons_self _ _)
    simp only [mapSet, if_neg hne, List.length_cons]
    rw [ih (fun q hq => h q (List.mem_cons_of_mem _ hq))]

theorem mapSet_mem (m : List (Label × Int)) (k : Label) (v : Int)
    (q : Label × Int) (hq : q ∈ mapSet m k v) : q.1 = k ∨ q ∈ m := by
  induction m with
  | nil =>
    rw [List.mem_singleton.mp hq]
    exact Or.inl rfl
  | cons p rest ih =>
    obtain ⟨k2, v2⟩ := p
    by_cases h : k2 = k
    · simp only [mapSet, if_pos h] at hq
      rcases List.mem_cons.mp hq with h2 | h2
      · rw [h2]
        exact Or.inl rfl
      · exact Or.inr (List.mem_cons_of_mem _ h2)
    · simp only [mapSet, if_neg h] at hq
      rcases List.mem_cons.mp hq with h2 | h2
      · rw [h2]
        exact Or.inr (List.mem_cons_self _ _)
      · rcases ih h2 with h3 | h3
        · exact Or.inl h3
        · exact Or.inr (List.mem_cons_of_mem _ h3)

theorem foldl_mapSet_length (w : Nat) :
    ∀ (ps : List (Nat × Label)) (m : List (Label × Int)),
      (ps.map (fun q => q.2)).Nodup →
      (∀ p ∈ ps, ∀ q ∈ m, q.1 ≠ p.2) →
      (ps.foldl (fun m q => mapSet m q.2 (icast w (q.1 : Int))) m).length =
        m.length + ps.length := by
  intro ps
  induction ps with
  | nil =>
    intro m _ _
    rfl
  | cons p rest ih =>
    intro m hnd hdisj
    rw [List.foldl_cons]
    have hnd2 : (rest.map (fun q => q.2)).Nodup := by
      simp only [List.map_cons, List.nodup_cons] at hnd
      exact hnd.2
    have hp2notin : p.2 ∉ rest.map (fun q => q.2) := by
      simp only [List.map_cons, List.nodup_cons] at hnd
      exact hnd.1
    have hdisj2 : ∀ r ∈ rest, ∀ q ∈ mapSet m p.2 (icast w (p.1 : Int)),
        q.1 ≠ r.2 := by
      intro r hr q hq
      rcases mapSet_mem m p.2 _ q hq with h2 | h2
      · rw [h2]
        intro hc
        exact hp2notin (List.mem_map.mpr ⟨r, hr, hc.symm⟩)
      · exact hdisj r (List.mem_cons_of_mem _ hr) q h2
    rw [ih (mapSet m p.2 (icast w (p.1 : Int))) hnd2 hdisj2,
      mapSet_length_new m p.2 _
        (fun q hq => hdisj p (List.mem_cons_self _ _) q hq)]
    simp only [List.length_cons]
    omega

theorem buildIdByName_length (w : Nat) (names : List Label)
    (hnd : names.Nodup) : (buildIdByName w names).length = names.length := by
  unfold buildIdByName
  have hmap : names.enum.map (fun q => q.2) = names := List.enum_map_snd names
  rw [foldl_mapSet_length w names.enum [] (by rw [hmap]; exact hnd)
    (fun p hp q hq => absurd hq (List.not_mem_nil q))]
  simp [List.enum_length]

theorem load_save (w : Nat) (idx : CIDRIndex) (hw : w = 16 ∨ w = 32)
    (henc : EncOK w idx) :
    load w (save w idx) =
      some { meta := Metadata.empty
             nodes := idx.nodes
             names := idx.names
             total := idx.total
             idByName := buildIdByName w idx.names } := by
  obtain ⟨htot, hnl, hml, hnodes, hnames⟩ := henc
  have hsave : save w idx =
      (putU32 idx.total ++ (putU32 idx.nodes.length ++ putU32 idx.names.length)) ++
        (idx.nodes.flatMap (marshalNode w) ++
          idx.names.flatMap (fun n => putU32 n.length ++ n)) := by
    unfold save
    simp [List.append_assoc]
  have hhdrlen : (putU32 idx.total ++
      (putU32 idx.nodes.length ++ putU32 idx.names.length)).length = 12 := by
    simp [putU32_length]
  have hr0 : readN (save w idx) 12 =
      some (putU32 idx.total ++ (putU32 idx.nodes.length ++ putU32 idx.names.length),
        idx.nodes.flatMap (marshalNode w) ++
          idx.names.flatMap (fun n => putU32 n.length ++ n)) := by
    rw [hsave]
    unfold readN
    have hle : 12 ≤ ((putU32 idx.total ++
        (putU32 idx.nodes.length ++ putU32 idx.names.length)) ++
        (idx.nodes.flatMap (marshalNode w) ++
          idx.names.flatMap (fun n => putU32 n.length ++ n))).length := by
      rw [List.length_append, hhdrlen]
      omega
    rw [if_pos hle, take_append_len _ _ _ hhdrlen, drop_append_len _ _ _ hhdrlen]
  have hhd1 : (putU32 idx.total ++
      (putU32 idx.nodes.length ++ putU32 idx.names.length)).take 4 =
      putU32 idx.total := take_append_len _ _ _ (putU32_length _)
  have hhd2 : ((putU32 idx.total ++
      (putU32 idx.nodes.length ++ putU32 idx.names.length)).drop 4).take 4 =
      putU32 idx.nodes.length := by
    rw [drop_append_len _ _ _ (putU32_length _)]
    exact take_append_len _ _ _ (putU32_length _)
  have hhd3 : (putU32 idx.total ++
      (putU32 idx.nodes.length ++ putU32 idx.names.length)).drop 8 =
      putU32 idx.names.length := by
    have hdd : (putU32 idx.total ++
        (putU32 idx.nodes.length ++ putU32 idx.names.length)).drop 8 =
        ((putU32 idx.total ++
          (putU32 idx.nodes.length ++ putU32 idx.names.length)).drop 4).drop 4 :=
      (List.drop_drop 4 4 _).symm
    rw [hdd, drop_append_len _ _ _ (putU32_length _),
      drop_append_len _ _ _ (putU32_length _)]
  have hln := loadNodes_flatMap w hw idx.nodes
    (idx.names.flatMap (fun n => putU32 n.length ++ n))
    (fun nd hnd => unmarshal_marshal w hw nd (hnodes nd hnd).1 (hnodes nd hnd).2.1
      (hnodes nd hnd).2.2.1 (hnodes nd hnd).2.2.2)
  have hlm := loadNames_flatMap idx.names []
    (fun nm hnm => (hnames nm hnm).2)
  rw [List.append_nil] at hlm
  unfold load
  rw [hr0]
  simp only [Option.bind_eq_bind, Option.some_bind]
  rw [hhd1, hhd2, hhd3, getU32_putU32 _ htot, getU32_putU32 _ hnl,
    getU32_putU32 _ hml, hln]
  simp only [Option.some_bind]
  rw [hlm]
  simp only [Option.some_bind]

/-- C3 counterexample: Save writes no metadata and Load leaves the
fresh index's empty metadata in place, so a round trip loses a
non-empty metadata record. -/
theorem C3_counterexample :
    (load 16 (save 16 (⟨⟨1, [2], [3]⟩, [freshNode], [], 0, []⟩ :
        CIDRIndex))).map (fun j => j.meta) =
      some Metadata.empty ∧ (⟨1, [2], [3]⟩ : Metadata) ≠ Metadata.empty := by
  constructor
  · decide
  · decide

/-- C3 (amended): for every index within the binary ranges of width w
(w = 16 or 32) whose names are interned without duplicates, decoding
the saved bytes succeeds and yields an index with the same node array,
the same names, the same Len and LenNames, and the same LookupIP result
on every address; the metadata, however, is reset to empty. -/
theorem C3_amended_save_load_roundtrip (w : Nat) (idx : CIDRIndex)
    (hw : w = 16 ∨ w = 32) (henc : EncOK w idx)
    (hnodup : idx.names.Nodup)
    (hlen : idx.idByName.length = idx.names.length) :
    ∃ idx2, load w (save w idx) = some idx2 ∧
      idx2.nodes = idx.nodes ∧ idx2.names = idx.names ∧
      lenIdx idx2 = lenIdx idx ∧ lenNames idx2 = lenNames idx ∧
      idx2.meta = Metadata.empty ∧
      ∀ a, lookupIP idx2 a = lookupIP idx a := by
  refine ⟨_, load_save w idx hw henc, rfl, rfl, rfl, ?_, rfl, ?_⟩
  · show (buildIdByName w idx.names).length = idx.idByName.length
    rw [buildIdByName_length w idx.names hnodup, hlen]
  · intro a
    rfl

/-- Witness for C3 at a concrete one-prefix index. -/
theorem C3_witness :
    ((16 : Nat) = 16 ∨ (16 : Nat) = 32) ∧
    EncOK 16 (insertAll 16 [(⟨[10, 0, 0, 0], 8⟩, [1])]) ∧
    (insertAll 16 [(⟨[10, 0, 0, 0], 8⟩, [1])]).names.Nodup ∧
    (insertAll 16 [(⟨[10, 0, 0, 0], 8⟩, [1])]).idByName.length =
      (insertAll 16 [(⟨[10, 0, 0, 0], 8⟩, [1])]).names.length ∧
    ∃ idx2, load 16 (save 16 (insertAll 16 [(⟨[10, 0, 0, 0], 8⟩, [1])])) =
        some idx2 ∧
      idx2.nodes = (insertAll 16 [(⟨[10, 0, 0, 0], 8⟩, [1])]).nodes ∧
      idx2.names = (insertAll 16 [(⟨[10, 0, 0, 0], 8⟩, [1])]).names ∧
      lenIdx idx2 = lenIdx (insertAll 16 [(⟨[10, 0, 0, 0], 8⟩, [1])]) ∧
      lenNames idx2 = lenNames (insertAll 16 [(⟨[10, 0, 0, 0], 8⟩, [1])]) ∧
      idx2.meta = Metadata.empty ∧
      ∀ a, lookupIP idx2 a =
        lookupIP (insertAll 16 [(⟨[10, 0, 0, 0], 8⟩, [1])]) a :=
  ⟨Or.inl rfl, by unfold EncOK; decide, by decide, by decide,
    C3_amended_save_load_roundtrip 16 (insertAll 16 [(⟨[10, 0, 0, 0], 8⟩, [1])])
      (Or.inl rfl) (by unfold EncOK; decide) (by decide) (by decide)⟩

/-! ## C8: the block cache against the underlying source -/

theorem readAtD_eof (d : List Nat) (off lenb : Nat) (h : d.length ≤ off) :
    readAtD d off lenb = (0, some RErr.eof, []) := by
  unfold readAtD
  rw [if_pos h]

theorem readAtD_ok (d : List Nat) (off lenb : Nat) (h : ¬ d.length ≤ off) :
    readAtD d off lenb =
      (min lenb (d.length - off),
        if min lenb (d.length - off) < lenb then some RErr.eof else none,
        (d.drop off).take (min lenb (d.length - off))) := by
  unfold readAtD
  rw [if_neg h]

theorem cacheOffset_le (r : BufReaderAt) (off : Nat) : r.cacheOffset off ≤ off :=
  Nat.div_mul_le_self off r.bufSize

theorem cacheOffset_mod (r : BufReaderAt) (off : Nat) :
    r.cacheOffset off % r.bufSize = 0 := by
  unfold BufReaderAt.cacheOffset
  exact Nat.mul_mod_left _ _

theorem lt_expectedCacheEnd (r : BufReaderAt) (off : Nat) (hB : 0 < r.bufSize) :
    off < r.expectedCacheEnd off := by
  unfold BufReaderAt.expectedCacheEnd BufReaderAt.cacheOffset
  have h := Nat.div_add_mod off r.bufSize
  rw [Nat.mul_comm] at h
  have h2 := Nat.mod_lt off hB
  omega

theorem aligned_eq (B a b : Nat) (_hB : 0 < B) (ha : a % B = 0) (hb : b % B = 0)
    (h1 : a < b + B) (h2 : b < a + B) : a = b := by
  obtain ⟨k1, hk1⟩ := Nat.dvd_of_mod_eq_zero ha
  obtain ⟨k2, hk2⟩ := Nat.dvd_of_mod_eq_zero hb
  subst hk1
  subst hk2
  have hlt1 : B * k1 < B * (k2 + 1) := by
    have hx : B * (k2 + 1) = B * k2 + B := by ring
    omega
  have hlt2 : B * k2 < B * (k1 + 1) := by
    have hx : B * (k1 + 1) = B * k1 + B := by ring
    omega
  have e1 : k1 < k2 + 1 := Nat.lt_of_mul_lt_mul_left hlt1
  have e2 : k2 < k1 + 1 := Nat.lt_of_mul_lt_mul_left hlt2
  have e3 : k1 = k2 := by omega
  rw [e3]

theorem readAt_eq (r : BufReaderAt) (d : List Nat) (off lenb : Nat) :
    r.readAt d off lenb =
      if (off < r.cacheOffset off ∧ r.cacheOffset off < off + lenb) ∨
          (off < r.expectedCacheEnd off ∧ r.expectedCacheEnd off < off + lenb) then
        (readAtD d off lenb, r)
      else if ¬ r.isInitialized ∨ r.expectedCacheEnd off ≤ r.offset ∨
          r.cacheEnd ≤ r.cacheOffset off then
        if (r.readAtAndRenewCache d off).1.1 = 0 then
          ((0, (r.readAtAndRenewCache d off).1.2, []),
            (r.readAtAndRenewCache d off).2)
        else
          (((r.readAtAndRenewCache d off).2).copySafe lenb off,
            (r.readAtAndRenewCache d off).2)
      else if r.offset ≤ off ∧ off + lenb ≤ r.cacheEnd then
        (r.copySafe lenb off, r)
      else ((0, none, []), r) := rfl

theorem copySafe_eq (r : BufReaderAt) (lenb off : Nat) :
    r.copySafe lenb off =
      if r.dataEnd ≤ (off : Int) then (0, some RErr.eof, [])
      else if (off : Int) < r.dataEnd ∧ r.dataEnd < ((off + lenb : Nat) : Int) then
        (r.sizeTilEOF.toNat - (off - r.cacheOffset off), r.lastErr,
          (r.buf.take r.sizeTilEOF.toNat).drop (off - r.cacheOffset off))
      else if ((off + lenb : Nat) : Int) ≤ r.dataEnd then
        (lenb, none,
          (r.buf.take ((off - r.cacheOffset off) + lenb)).drop
            (off - r.cacheOffset off))
      else (0, none, []) := rfl

theorem renew_eq2 (r : BufReaderAt) (d : List Nat) (off : Nat) (cnt : Nat)
    (err : Option RErr) (bytes : List Nat)
    (hni : ¬ (r.isInitialized ∧ r.cacheOffset off = r.offset))
    (hD : readAtD d (r.cacheOffset off) r.bufSize = (cnt, err, bytes)) :
    r.readAtAndRenewCache d off =
      ((cnt, err),
        ⟨r.cacheOffset off, bytes ++ r.buf.drop cnt, (cnt : Int), err⟩) := by
  unfold BufReaderAt.readAtAndRenewCache
  rw [if_neg hni, hD]

theorem copySafe_spec (r : BufReaderAt) (d : List Nat) (off lenb : Nat)
    (hg : GoodBuf d r) (hinit : 0 ≤ r.sizeTilEOF)
    (hco : r.cacheOffset off = r.offset)
    (hoff : r.offset ≤ off)
    (hlt : off < r.offset + r.bufSize)
    (hle : off + lenb ≤ r.offset + r.bufSize) :
    r.copySafe lenb off = readAtD d off lenb := by
  obtain ⟨hB, hprops⟩ := hg
  obtain ⟨halign, hsz, hbuf, herr⟩ := hprops hinit
  have hn : r.sizeTilEOF.toNat = min r.bufSize (d.length - r.offset) := by
    rw [hsz]
    exact Int.toNat_natCast _
  have hde : r.dataEnd =
      ((r.offset + min r.bufSize (d.length - r.offset) : Nat) : Int) := by
    unfold BufReaderAt.dataEnd
    rw [hsz]
    push_cast
    ring
  rw [hn] at hbuf
  rw [copySafe_eq, hco, hn]
  by_cases h1 : r.dataEnd ≤ (off : Int)
  · rw [if_pos h1]
    have h1n : r.offset + min r.bufSize (d.length - r.offset) ≤ off := by
      rw [hde] at h1
      exact_mod_cast h1
    rw [readAtD_eof d off lenb (by omega)]
  · rw [if_neg h1]
    have h1n : off < r.offset + min r.bufSize (d.length - r.offset) := by
      rw [hde] at h1
      push_neg at h1
      exact_mod_cast h1
    by_cases h2 : (off : Int) < r.dataEnd ∧ r.dataEnd < ((off + lenb : Nat) : Int)
    · rw [if_pos h2]
      have h2n : r.offset + min r.bufSize (d.length - r.offset) < off + lenb := by
        have h3 := h2.2
        rw [hde] at h3
        exact_mod_cast h3
      rw [readAtD_ok d off lenb (by omega)]
      have hmin2 : min lenb (d.length - off) = d.length - off := by omega
      rw [hmin2]
      have e1 : min r.bufSize (d.length - r.offset) - (off - r.offset) =
          d.length - off := by omega
      have e2 : r.lastErr =
          (if d.length - off < lenb then some RErr.eof else none) := by
        rw [herr, hn, if_pos (by omega), if_pos (by omega)]
      have e3 : (r.buf.take (min r.bufSize (d.length - r.offset))).drop
          (off - r.offset) = (d.drop off).take (d.length - off) := by
        rw [hbuf, List.drop_take, List.drop_drop]
        have e4 : r.offset + (off - r.offset) = off := by omega
        have e5 : min r.bufSize (d.length - r.offset) - (off - r.offset) =
            d.length - off := by omega
        rw [e4, e5]
      rw [e1, e2, e3]
    · rw [if_neg h2]
      have hoffI : (off : Int) < r.dataEnd := by
        rw [hde]
        exact_mod_cast h1n
      have h3 : ((off + lenb : Nat) : Int) ≤ r.dataEnd := by
        push_neg at h2
        exact h2 hoffI
      rw [if_pos h3]
      have h3n : off + lenb ≤ r.offset + min r.bufSize (d.length - r.offset) := by
        rw [hde] at h3
        exact_mod_cast h3
      rw [readAtD_ok d off lenb (by omega)]
      have hmin2 : min lenb (d.length - off) = lenb := by omega
      rw [hmin2, if_neg (by omega)]
      have hsle : (off - r.offset) + lenb ≤
          min r.bufSize (d.length - r.offset) := by omega
      have hb3 : r.buf.take ((off - r.offset) + lenb) =
          (d.drop r.offset).take ((off - r.offset) + lenb) := by
        have t1 : r.buf.take ((off - r.offset) + lenb) =
            (r.buf.take (min r.bufSize (d.length - r.offset))).take
              ((off - r.offset) + lenb) := by
          rw [List.take_take, Nat.min_eq_left hsle]
        rw [t1, hbuf, List.take_take, Nat.min_eq_left hsle]
      rw [hb3, List.drop_take, List.drop_drop]
      have e4 : r.offset + (off - r.offset) = off := by omega
      have e5 : (off - r.offset) + lenb - (off - r.offset) = lenb := by omega
      rw [e4, e5]

theorem renew_state_good (r : BufReaderAt) (d : List Nat) (off : Nat)
    (hB : 0 < r.bufSize) (h3 : ¬ d.length ≤ r.cacheOffset off) :
    GoodBuf d (⟨r.cacheOffset off,
        (d.drop (r.cacheOffset off)).take
            (min r.bufSize (d.length - r.cacheOffset off)) ++
          r.buf.drop (min r.bufSize (d.length - r.cacheOffset off)),
        ((min r.bufSize (d.length - r.cacheOffset off) : Nat) : Int),
        if min r.bufSize (d.length - r.cacheOffset off) < r.bufSize then
          some RErr.eof else none⟩ : BufReaderAt) ∧
      ((d.drop (r.cacheOffset off)).take
            (min r.bufSize (d.length - r.cacheOffset off)) ++
          r.buf.drop (min r.bufSize (d.length - r.cacheOffset off))).length =
        r.bufSize := by
  have hbytes : ((d.drop (r.cacheOffset off)).take
      (min r.bufSize (d.length - r.cacheOffset off))).length =
      min r.bufSize (d.length - r.cacheOffset off) := by
    rw [List.length_take, List.length_drop]
    omega
  have hblen : ((d.drop (r.cacheOffset off)).take
        (min r.bufSize (d.length - r.cacheOffset off)) ++
      r.buf.drop (min r.bufSize (d.length - r.cacheOffset off))).length =
      r.bufSize := by
    rw [List.length_append, List.length_drop, hbytes]
    have hBle : min r.bufSize (d.length - r.cacheOffset off) ≤ r.bufSize :=
      Nat.min_le_left _ _
    unfold BufReaderAt.bufSize
    unfold BufReaderAt.bufSize at hBle
    omega
  refine ⟨⟨?_, ?_⟩, hblen⟩
  · show 0 < ((d.drop (r.cacheOffset off)).take
        (min r.bufSize (d.length - r.cacheOffset off)) ++
      r.buf.drop (min r.bufSize (d.length - r.cacheOffset off))).length
    rw [hblen]
    exact hB
  · intro _
    refine ⟨?_, ?_, ?_, ?_⟩
    · show r.cacheOffset off % ((d.drop (r.cacheOffset off)).take
          (min r.bufSize (d.length - r.cacheOffset off)) ++
        r.buf.drop (min r.bufSize (d.length - r.cacheOffset off))).length = 0
      rw [hblen]
      exact cacheOffset_mod r off
    · show ((min r.bufSize (d.length - r.cacheOffset off) : Nat) : Int) =
        ((min ((d.drop (r.cacheOffset off)).take
              (min r.bufSize (d.length - r.cacheOffset off)) ++
            r.buf.drop (min r.bufSize (d.length - r.cacheOffset off))).length
          (d.length - r.cacheOffset off) : Nat) : Int)
      rw [hblen]
    · show ((d.drop (r.cacheOffset off)).take
            (min r.bufSize (d.length - r.cacheOffset off)) ++
          r.buf.drop (min r.bufSize (d.length - r.cacheOffset off))).take
          (((min r.bufSize (d.length - r.cacheOffset off) : Nat) : Int)).toNat =
        (d.drop (r.cacheOffset off)).take
          (((min r.bufSize (d.length - r.cacheOffset off) : Nat) : Int)).toNat
      rw [Int.toNat_natCast]
      rw [take_append_len _ _ _ hbytes]
    · show (if min r.bufSize (d.length - r.cacheOffset off) < r.bufSize then
          some RErr.eof else none) =
        (if (((min r.bufSize (d.length - r.cacheOffset off) : Nat) : Int)).toNat <
            ((d.drop (r.cacheOffset off)).take
                (min r.bufSize (d.length - r.cacheOffset off)) ++
              r.buf.drop (min r.bufSize (d.length - r.cacheOffset off))).length
          then some RErr.eof else none)
      rw [Int.toNat_natCast, hblen]

theorem readAt_spec (r : BufReaderAt) (d : List Nat) (off lenb : Nat)
    (hg : GoodBuf d r) :
    (r.readAt d off lenb).1 = readAtD d off lenb ∧
      GoodBuf d (r.readAt d off lenb).2 := by
  obtain ⟨hB, hinitp⟩ := hg
  rw [readAt_eq]
  by_cases h1 : (off < r.cacheOffset off ∧ r.cacheOffset off < off + lenb) ∨
      (off < r.expectedCacheEnd off ∧ r.expectedCacheEnd off < off + lenb)
  · rw [if_pos h1]
    exact ⟨rfl, hB, hinitp⟩
  · rw [if_neg h1]
    have hece : off < r.expectedCacheEnd off := lt_expectedCacheEnd r off hB
    have hbe : off + lenb ≤ r.expectedCacheEnd off := by
      by_contra hc
      exact h1 (Or.inr ⟨hece, by omega⟩)
    have hcoleq : r.cacheOffset off ≤ off := cacheOffset_le r off
    have hcomod : r.cacheOffset off % r.bufSize = 0 := cacheOffset_mod r off
    have hceq : r.expectedCacheEnd off = r.cacheOffset off + r.bufSize := rfl
    have hcend : r.cacheEnd = r.offset + r.bufSize := rfl
    by_cases h2 : ¬ r.isInitialized ∨ r.expectedCacheEnd off ≤ r.offset ∨
        r.cacheEnd ≤ r.cacheOffset off
    · rw [if_pos h2]
      have hni : ¬ (r.isInitialized ∧ r.cacheOffset off = r.offset) := by
        rintro ⟨hi, hco2⟩
        rcases h2 with h2 | h2 | h2
        · exact h2 hi
        · rw [hceq, hco2] at h2
          omega
        · rw [hcend, hco2] at h2
          omega
      by_cases h3 : d.length ≤ r.cacheOffset off
      · rw [renew_eq2 r d off 0 (some RErr.eof) [] hni (readAtD_eof d _ _ h3)]
        rw [if_pos rfl]
        constructor
        · rw [readAtD_eof d off lenb (by omega)]
        · refine ⟨?_, ?_⟩
          · show 0 < (([] : List Nat) ++ r.buf.drop 0).length
            simpa using hB
          · intro _
            refine ⟨?_, ?_, ?_, ?_⟩
            · show r.cacheOffset off % (([] : List Nat) ++ r.buf.drop 0).length = 0
              simpa using hcomod
            · show ((0 : Nat) : Int) =
                ((min (([] : List Nat) ++ r.buf.drop 0).length
                  (d.length - r.cacheOffset off) : Nat) : Int)
              have hz : d.length - r.cacheOffset off = 0 := by omega
              rw [hz]
              simp
            · rfl
            · show some RErr.eof =
                (if (((0 : Nat) : Int)).toNat <
                    (([] : List Nat) ++ r.buf.drop 0).length then
                  some RErr.eof else none)
              rw [if_pos (by simpa using hB)]
      · rw [renew_eq2 r d off (min r.bufSize (d.length - r.cacheOffset off))
          (if min r.bufSize (d.length - r.cacheOffset off) < r.bufSize then
            some RErr.eof else none)
          ((d.drop (r.cacheOffset off)).take
            (min r.bufSize (d.length - r.cacheOffset off)))
          hni (readAtD_ok d _ _ h3)]
        have hM0 : 0 < min r.bufSize (d.length - r.cacheOffset off) :=
          lt_min_iff.mpr ⟨hB, by omega⟩
        rw [if_neg (Nat.pos_iff_ne_zero.mp hM0)]
        obtain ⟨hg2, hblen⟩ := renew_state_good r d off hB h3
        constructor
        · refine copySafe_spec _ d off lenb hg2 ?_ ?_ ?_ ?_ ?_
          · show (0 : Int) ≤ ((min r.bufSize
              (d.length - r.cacheOffset off) : Nat) : Int)
            omega
          · show off / ((d.drop (r.cacheOffset off)).take
                  (min r.bufSize (d.length - r.cacheOffset off)) ++
                r.buf.drop (min r.bufSize (d.length - r.cacheOffset off))).length *
                ((d.drop (r.cacheOffset off)).take
                  (min r.bufSize (d.length - r.cacheOffset off)) ++
                r.buf.drop (min r.bufSize
                  (d.length - r.cacheOffset off))).length =
              r.cacheOffset off
            rw [hblen]
            rfl
          · exact hcoleq
          · show off < r.cacheOffset off + ((d.drop (r.cacheOffset off)).take
                (min r.bufSize (d.length - r.cacheOffset off)) ++
              r.buf.drop (min r.bufSize (d.length - r.cacheOffset off))).length
            rw [hblen]
            rw [hceq] at hece
            omega
          · show off + lenb ≤ r.cacheOffset off +
              ((d.drop (r.cacheOffset off)).take
                  (min r.bufSize (d.length - r.cacheOffset off)) ++
                r.buf.drop (min r.bufSize (d.length - r.cacheOffset off))).length
            rw [hblen]
            rw [hceq] at hbe
            omega
        · exact hg2
    · rw [if_neg h2]
      push_neg at h2
      obtain ⟨hi, hlt1, hlt2⟩ := h2
      have halign : r.offset % r.bufSize = 0 := ((hinitp hi).1)
      have hcoeq : r.cacheOffset off = r.offset := by
        refine aligned_eq r.bufSize (r.cacheOffset off) r.offset hB hcomod halign
          ?_ ?_
        · rw [hcend] at hlt2
          omega
        · rw [hceq] at hlt1
          omega
      have hcond : r.offset ≤ off ∧ off + lenb ≤ r.cacheEnd := by
        constructor
        · rw [← hcoeq]
          exact hcoleq
        · rw [hcend]
          rw [hceq] at hbe
          omega
      rw [if_pos hcond]
      refine ⟨?_, hB, hinitp⟩
      refine copySafe_spec r d off lenb ⟨hB, hinitp⟩ hi hcoeq ?_ ?_ ?_
      · rw [← hcoeq]
        exact hcoleq
      · rw [hceq] at hece
        omega
      · rw [hceq] at hbe
        omega

/-- C8: the block cache is observationally equivalent to the
underlying byte-sequence source: from a fresh cache of any positive
block size, every ReadAt through bufReaderAt returns exactly the
count, error and bytes of a direct positional read on the source and
keeps the cache in a reachable good state; a request that straddles an
aligned block boundary is delegated to the source with the cache left
untouched. -/
theorem C8_bufReader_equivalent (d : List Nat) (size : Nat) (hsz : 0 < size) :
    GoodBuf d (newBufReaderAt size) ∧
      ∀ (r : BufReaderAt) (off lenb : Nat), GoodBuf d r →
        ((r.readAt d off lenb).1 = readAtD d off lenb ∧
          GoodBuf d (r.readAt d off lenb).2 ∧
          (((off < r.cacheOffset off ∧ r.cacheOffset off < off + lenb) ∨
            (off < r.expectedCacheEnd off ∧
              r.expectedCacheEnd off < off + lenb)) →
            r.readAt d off lenb = (readAtD d off lenb, r))) := by
  constructor
  · refine ⟨?_, ?_⟩
    · show 0 < (List.replicate size 0).length
      simpa using hsz
    · intro hc
      have hc2 : (0 : Int) ≤ -1 := hc
      exact absurd hc2 (by decide)
  · intro r off lenb hg
    obtain ⟨h1, h2⟩ := readAt_spec r d off lenb hg
    refine ⟨h1, h2, ?_⟩
    intro hdel
    rw [readAt_eq, if_pos hdel]

/-- Witness for C8 at a concrete source and block size. -/
theorem C8_witness :
    0 < 4 ∧
      (GoodBuf [1, 2, 3, 4, 5, 6] (newBufReaderAt 4) ∧
        ∀ (r : BufReaderAt) (off lenb : Nat), GoodBuf [1, 2, 3, 4, 5, 6] r →
          ((r.readAt [1, 2, 3, 4, 5, 6] off lenb).1 =
              readAtD [1, 2, 3, 4, 5, 6] off lenb ∧
            GoodBuf [1, 2, 3, 4, 5, 6] (r.readAt [1, 2, 3, 4, 5, 6] off lenb).2 ∧
            (((off < r.cacheOffset off ∧ r.cacheOffset off < off + lenb) ∨
              (off < r.expectedCacheEnd off ∧
                r.expectedCacheEnd off < off + lenb)) →
              r.readAt [1, 2, 3, 4, 5, 6] off lenb =
                (readAtD [1, 2, 3, 4, 5, 6] off lenb, r)))) :=
  ⟨by decide, C8_bufReader_equivalent [1, 2, 3, 4, 5, 6] 4 (by decide)⟩

/-! ## C4: the file-backed index against the in-memory decoder -/

theorem drop_append_add (l1 l2 : List Nat) (n k : Nat) (h : l1.length = n) :
    (l1 ++ l2).drop (n + k) = l2.drop k := by
  subst h
  have h2 : ((l1 ++ l2).drop l1.length).drop k = (l1 ++ l2).drop (l1.length + k) :=
    List.drop_drop k l1.length (l1 ++ l2)
  rw [← h2, List.drop_left]

theorem getD_mem_of_lt (l : List TrieNode) (n : Nat) (d : TrieNode)
    (h : n < l.length) : l.getD n d ∈ l := by
  rw [List.getD_eq_getElem?_getD, List.getElem?_eq_getElem h]
  exact List.getElem_mem h

theorem flatMap_marshal_length (w : Nat) (hw : w = 16 ∨ w = 32)
    (nodes : List TrieNode) :
    (nodes.flatMap (marshalNode w)).length = nodes.length * nodeSize w := by
  induction nodes with
  | nil => simp
  | cons nd rest ih =>
    rw [List.flatMap_cons, List.length_append, marshalNode_length w hw, ih,
      List.length_cons, Nat.succ_mul]
    omega

theorem hdUnmarshal_encode (w : Nat) (hw : w = 16 ∨ w = 32)
    (t nl ml mbl : Nat) (ht : t < 2 ^ 32) (hnl : nl < 2 ^ 32)
    (hml : ml < 2 ^ 32) (hmbl : mbl < 2 ^ 32) :
    hdUnmarshal (putU32 ((if w = 16 then 0 else 2 ^ 31) + 1) ++
        (putU32 t ++ (putU32 nl ++ (putU32 ml ++ putU32 mbl)))) =
      some ⟨decide (w = 32), t, nl, ml, mbl⟩ := by
  have hvf : (if w = 16 then 0 else 2 ^ 31) + 1 < 2 ^ 32 := by
    rcases hw with h | h <;> subst h <;> norm_num
  have hlen : (putU32 ((if w = 16 then 0 else 2 ^ 31) + 1) ++
      (putU32 t ++ (putU32 nl ++ (putU32 ml ++ putU32 mbl)))).length = 20 := by
    simp [putU32_length]
  unfold hdUnmarshal
  rw [if_pos hlen, take_append_len _ _ _ (putU32_length _),
    getU32_putU32 _ hvf]
  have hmod : ((if w = 16 then 0 else 2 ^ 31) + 1) % 2 ^ 31 = 1 := by
    rcases hw with h | h <;> subst h <;> norm_num
  rw [if_pos hmod]
  have hd4 : (putU32 ((if w = 16 then 0 else 2 ^ 31) + 1) ++
      (putU32 t ++ (putU32 nl ++ (putU32 ml ++ putU32 mbl)))).drop 4 =
      putU32 t ++ (putU32 nl ++ (putU32 ml ++ putU32 mbl)) :=
    drop_append_len _ _ _ (putU32_length _)
  have hd8 : (putU32 ((if w = 16 then 0 else 2 ^ 31) + 1) ++
      (putU32 t ++ (putU32 nl ++ (putU32 ml ++ putU32 mbl)))).drop 8 =
      putU32 nl ++ (putU32 ml ++ putU32 mbl) := by
    have h2 : (putU32 ((if w = 16 then 0 else 2 ^ 31) + 1) ++
        (putU32 t ++ (putU32 nl ++ (putU32 ml ++ putU32 mbl)))).drop 8 =
        ((putU32 ((if w = 16 then 0 else 2 ^ 31) + 1) ++
          (putU32 t ++ (putU32 nl ++ (putU32 ml ++ putU32 mbl)))).drop 4).drop 4 :=
      (List.drop_drop 4 4 _).symm
    rw [h2, hd4]
    exact drop_append_len _ _ _ (putU32_length _)
  have hd12 : (putU32 ((if w = 16 then 0 else 2 ^ 31) + 1) ++
      (putU32 t ++ (putU32 nl ++ (putU32 ml ++ putU32 mbl)))).drop 12 =
      putU32 ml ++ putU32 mbl := by
    have h2 : (putU32 ((if w = 16 then 0 else 2 ^ 31) + 1) ++
        (putU32 t ++ (putU32 nl ++ (putU32 ml ++ putU32 mbl)))).drop 12 =
        ((putU32 ((if w = 16 then 0 else 2 ^ 31) + 1) ++
          (putU32 t ++ (putU32 nl ++ (putU32 ml ++ putU32 mbl)))).drop 8).drop 4 :=
      (List.drop_drop 4 8 _).symm
    rw [h2, hd8]
    exact drop_append_len _ _ _ (putU32_length _)
  have hd16 : (putU32 ((if w = 16 then 0 else 2 ^ 31) + 1) ++
      (putU32 t ++ (putU32 nl ++ (putU32 ml ++ putU32 mbl)))).drop 16 =
      putU32 mbl := by
    have h2 : (putU32 ((if w = 16 then 0 else 2 ^ 31) + 1) ++
        (putU32 t ++ (putU32 nl ++ (putU32 ml ++ putU32 mbl)))).drop 16 =
        ((putU32 ((if w = 16 then 0 else 2 ^ 31) + 1) ++
          (putU32 t ++ (putU32 nl ++ (putU32 ml ++ putU32 mbl)))).drop 12).drop 4 :=
      (List.drop_drop 4 12 _).symm
    rw [h2, hd12]
    exact drop_append_len _ _ _ (putU32_length _)
  have htk : (putU32 mbl).take 4 = putU32 mbl := by
    have h0 := List.take_length (putU32 mbl)
    rw [putU32_length] at h0
    exact h0
  rw [hd4, hd8, hd12, hd16,
    take_append_len _ _ _ (putU32_length _), getU32_putU32 _ ht,
    take_append_len _ _ _ (putU32_length _), getU32_putU32 _ hnl,
    take_append_len _ _ _ (putU32_length _), getU32_putU32 _ hml,
    htk, getU32_putU32 _ hmbl]
  have hwide : decide (2 ^ 31 ≤ (if w = 16 then 0 else 2 ^ 31) + 1) =
      decide (w = 32) := by
    rcases hw with h | h <;> subst h <;> rfl
  rw [hwide]

theorem readNamesF_spec :
    ∀ (names : List Label) (pre : List Nat),
      (∀ nm ∈ names, 0 < nm.length ∧ nm.length < 2 ^ 32) →
      readNamesF (pre ++ names.flatMap (fun n => putU32 n.length ++ n))
          names.length pre.length =
        some names := by
  intro names
  induction names with
  | nil =>
    intro pre _
    rfl
  | cons nm rest ih =>
    intro pre hOK
    have hb : pre ++ (nm :: rest).flatMap (fun n => putU32 n.length ++ n) =
        (pre ++ (putU32 nm.length ++ nm)) ++
          rest.flatMap (fun n => putU32 n.length ++ n) := by
      rw [List.flatMap_cons]
      simp [List.append_assoc]
    show readNamesF (pre ++ (nm :: rest).flatMap (fun n => putU32 n.length ++ n))
        (rest.length + 1) pre.length = some (nm :: rest)
    unfold readNamesF
    have hq1 : readAtD (pre ++ (nm :: rest).flatMap (fun n => putU32 n.length ++ n))
        pre.length 4 =
        (4, none, putU32 nm.length) := by
      rw [hb]
      have hlen2 : ((pre ++ (putU32 nm.length ++ nm)) ++
          rest.flatMap (fun n => putU32 n.length ++ n)).length =
          pre.length + (4 + nm.length) +
            (rest.flatMap (fun n => putU32 n.length ++ n)).length := by
        simp [putU32_length]
        omega
      rw [readAtD_ok _ _ _ (by rw [hlen2]; omega)]
      have hmin : min 4 (((pre ++ (putU32 nm.length ++ nm)) ++
          rest.flatMap (fun n => putU32 n.length ++ n)).length - pre.length) =
          4 := by
        rw [hlen2]
        omega
      rw [hmin, if_neg (by omega)]
      have hdp : ((pre ++ (putU32 nm.length ++ nm)) ++
          rest.flatMap (fun n => putU32 n.length ++ n)).drop pre.length =
          putU32 nm.length ++
            (nm ++ rest.flatMap (fun n => putU32 n.length ++ n)) := by
        have h4 : (pre ++ (putU32 nm.length ++ nm)) ++
            rest.flatMap (fun n => putU32 n.length ++ n) =
            pre ++ (putU32 nm.length ++
              (nm ++ rest.flatMap (fun n => putU32 n.length ++ n))) := by
          simp [List.append_assoc]
        rw [h4]
        exact drop_append_len _ _ _ rfl
      rw [hdp, take_append_len _ _ _ (putU32_length _)]
    have hnm0 := hOK nm (List.mem_cons_self nm rest)
    have hnl0 : getU32 (putU32 nm.length) = nm.length :=
      getU32_putU32 _ hnm0.2
    have hq2 : readAtD (pre ++ (nm :: rest).flatMap (fun n => putU32 n.length ++ n))
        (pre.length + 4) nm.length =
        (nm.length, none, nm) := by
      rw [hb]
      have hlen2 : ((pre ++ (putU32 nm.length ++ nm)) ++
          rest.flatMap (fun n => putU32 n.length ++ n)).length =
          pre.length + (4 + nm.length) +
            (rest.flatMap (fun n => putU32 n.length ++ n)).length := by
        simp [putU32_length]
        omega
      have hd2 : ((pre ++ (putU32 nm.length ++ nm)) ++
          rest.flatMap (fun n => putU32 n.length ++ n)).drop (pre.length + 4) =
          nm ++ rest.flatMap (fun n => putU32 n.length ++ n) := by
        have h3 : (pre ++ putU32 nm.length).length = pre.length + 4 := by
          simp [putU32_length]
        have h4 : (pre ++ (putU32 nm.length ++ nm)) ++
            rest.flatMap (fun n => putU32 n.length ++ n) =
            (pre ++ putU32 nm.length) ++
              (nm ++ rest.flatMap (fun n => putU32 n.length ++ n)) := by
          simp [List.append_assoc]
        rw [h4]
        exact drop_append_len _ _ _ h3
      rw [readAtD_ok _ _ _ (by rw [hlen2]; omega)]
      have hmin : min nm.length (((pre ++ (putU32 nm.length ++ nm)) ++
          rest.flatMap (fun n => putU32 n.length ++ n)).length -
            (pre.length + 4)) = nm.length := by
        rw [hlen2]
        omega
      rw [hmin, if_neg (by omega), hd2, take_append_len _ _ _ rfl]
    simp only [hq1, hnl0, hq2, Nat.sub_self, List.replicate_zero,
      List.append_nil]
    have hoff : pre.length + 4 + nm.length =
        (pre ++ (putU32 nm.length ++ nm)).length := by
      simp [putU32_length]
      omega
    rw [hoff, hb,
      ih (pre ++ (putU32 nm.length ++ nm))
        (fun x hx => hOK x (List.mem_cons_of_mem _ hx))]
    rfl

theorem flatMap_drop_at (w : Nat) (hw : w = 16 ∨ w = 32) :
    ∀ (j : Nat) (nodes : List TrieNode) (tail : List Nat), j < nodes.length →
      (nodes.flatMap (marshalNode w) ++ tail).drop (j * nodeSize w) =
        marshalNode w (nodes.getD j freshNode) ++
          ((nodes.drop (j + 1)).flatMap (marshalNode w) ++ tail) := by
  intro j
  induction j with
  | zero =>
    intro nodes tail hj
    cases nodes with
    | nil => exact absurd hj (by simp)
    | cons nd rest =>
      rw [List.flatMap_cons, List.append_assoc, Nat.zero_mul, List.drop_zero]
      rfl
  | succ j ih =>
    intro nodes tail hj
    cases nodes with
    | nil => exact absurd hj (by simp)
    | cons nd rest =>
      have hstep : ((nd :: rest).flatMap (marshalNode w) ++ tail).drop
          ((j + 1) * nodeSize w) =
          (rest.flatMap (marshalNode w) ++ tail).drop (j * nodeSize w) := by
        rw [List.flatMap_cons, List.append_assoc]
        have hmul : (j + 1) * nodeSize w = nodeSize w + j * nodeSize w := by
          rw [Nat.succ_mul]
          omega
        rw [hmul]
        exact drop_append_add _ _ _ _ (marshalNode_length w hw nd)
      rw [hstep, ih rest tail (by simpa using hj), List.getD_cons_succ]
      rfl

theorem readNodeF_spec (w : Nat) (hw : w = 16 ∨ w = 32) (pre2 tail : List Nat)
    (nodes : List TrieNode) (j : Nat) (hj : j < nodes.length)
    (hb : ∀ nd ∈ nodes,
      (-(2 ^ 31) ≤ nd.child0 ∧ nd.child0 < 2 ^ 31) ∧
      (-(2 ^ 31) ≤ nd.child1 ∧ nd.child1 < 2 ^ 31) ∧
      (-(2 ^ (w - 1)) ≤ nd.id ∧ nd.id < 2 ^ (w - 1)) ∧
      (-(2 ^ 7) ≤ nd.maskLen ∧ nd.maskLen < 2 ^ 7)) :
    readNodeF (pre2 ++ (nodes.flatMap (marshalNode w) ++ tail)) w pre2.length j =
      some (nodes.getD j freshNode) := by
  have hflen := flatMap_marshal_length w hw nodes
  have hdp : (pre2 ++ (nodes.flatMap (marshalNode w) ++ tail)).drop
      (pre2.length + j * nodeSize w) =
      marshalNode w (nodes.getD j freshNode) ++
        ((nodes.drop (j + 1)).flatMap (marshalNode w) ++ tail) := by
    rw [drop_append_add _ _ _ _ rfl]
    exact flatMap_drop_at w hw j nodes tail hj
  have hlen2 : (pre2 ++ (nodes.flatMap (marshalNode w) ++ tail)).length =
      pre2.length + (nodes.length * nodeSize w + tail.length) := by
    simp [hflen]
  have hsz : 0 < nodeSize w := by
    rcases hw with h | h <;> subst h <;> decide
  have hjs : j * nodeSize w + nodeSize w ≤ nodes.length * nodeSize w := by
    have h2 : j + 1 ≤ nodes.length := hj
    calc j * nodeSize w + nodeSize w = (j + 1) * nodeSize w := by
          rw [Nat.succ_mul]
      _ ≤ nodes.length * nodeSize w := Nat.mul_le_mul_right _ h2
  unfold readNodeF
  rw [readAtD_ok _ _ _ (by rw [hlen2]; omega)]
  have hmin : min (nodeSize w)
      ((pre2 ++ (nodes.flatMap (marshalNode w) ++ tail)).length -
        (pre2.length + j * nodeSize w)) = nodeSize w := by
    rw [hlen2]
    omega
  rw [hmin, if_neg (by omega), hdp,
    take_append_len _ _ _ (marshalNode_length w hw _)]
  show (if nodeSize w = nodeSize w then
      unmarshalNode w (marshalNode w (nodes.getD j freshNode)) else none) =
    some (nodes.getD j freshNode)
  rw [if_pos rfl]
  have hmem := getD_mem_of_lt nodes j freshNode hj
  exact unmarshal_marshal w hw _ (hb _ hmem).1 (hb _ hmem).2.1
    (hb _ hmem).2.2.1 (hb _ hmem).2.2.2

theorem fileLookupLoop_succ (d : List Nat) (w no : Nat) (a : List Nat)
    (cur : Int) (i rem : Nat) (bid blen : Int) (nd : TrieNode)
    (hnd : (if cur < 0 then none else readNodeF d w no cur.toNat) = some nd) :
    fileLookupLoop d w no a cur i (rem + 1) bid blen =
      (if nd.child (bit a i) = -1 then
        some (cur,
          (if nd.id ≠ -1 ∧ blen < nd.maskLen then (nd.id, nd.maskLen)
            else (bid, blen)).1,
          (if nd.id ≠ -1 ∧ blen < nd.maskLen then (nd.id, nd.maskLen)
            else (bid, blen)).2)
      else
        fileLookupLoop d w no a (nd.child (bit a i)) (i + 1) rem
          (if nd.id ≠ -1 ∧ blen < nd.maskLen then (nd.id, nd.maskLen)
            else (bid, blen)).1
          (if nd.id ≠ -1 ∧ blen < nd.maskLen then (nd.id, nd.maskLen)
            else (bid, blen)).2) := by
  rw [fileLookupLoop, hnd]

theorem fileLookupLoop_eq (w : Nat) (hw : w = 16 ∨ w = 32)
    (pre2 tail : List Nat) (nodes : List TrieNode) (oct : List Nat)
    (hwf : WFC nodes)
    (hb : ∀ nd ∈ nodes,
      (-(2 ^ 31) ≤ nd.child0 ∧ nd.child0 < 2 ^ 31) ∧
      (-(2 ^ 31) ≤ nd.child1 ∧ nd.child1 < 2 ^ 31) ∧
      (-(2 ^ (w - 1)) ≤ nd.id ∧ nd.id < 2 ^ (w - 1)) ∧
      (-(2 ^ 7) ≤ nd.maskLen ∧ nd.maskLen < 2 ^ 7)) :
    ∀ (rem : Nat) (cur : Int) (i : Nat) (bid blen : Int),
      0 ≤ cur → cur.toNat < nodes.length →
      fileLookupLoop (pre2 ++ (nodes.flatMap (marshalNode w) ++ tail)) w
          pre2.length oct cur i rem bid blen =
        lookupLoop nodes oct cur i rem bid blen := by
  intro rem
  induction rem with
  | zero =>
    intro cur i bid blen _ _
    rfl
  | succ rem ih =>
    intro cur i bid blen h0 hlt
    have hnd := nodeAt_eq_some nodes cur h0 hlt
    have hrn : (if cur < 0 then none
        else readNodeF (pre2 ++ (nodes.flatMap (marshalNode w) ++ tail)) w
          pre2.length cur.toNat) = some (nodes.getD cur.toNat freshNode) := by
      rw [if_neg (by omega),
        readNodeF_spec w hw pre2 tail nodes cur.toNat hlt hb]
    rw [fileLookupLoop_succ _ _ _ _ _ _ _ _ _ _ hrn,
      lookupLoop_succ _ _ _ _ _ _ _ _ hnd]
    by_cases hch : (nodes.getD cur.toNat freshNode).child (bit oct i) = -1
    · rw [if_pos hch, if_pos hch]
    · rw [if_neg hch, if_neg hch]
      obtain ⟨hc0, hc1⟩ := wfc_mem_bound hwf cur.toNat hlt (bit oct i) hch
      exact ih _ _ _ _ hc0 hc1

theorem fileLookupIP_eq (w : Nat) (hw : w = 16 ∨ w = 32)
    (pre2 tail : List Nat) (nodes : List TrieNode) (oct : List Nat)
    (f : CIDRIndexFile) (idx2 : CIDRIndex)
    (hfo : f.nodesOffset = pre2.length)
    (hn2 : idx2.nodes = nodes) (hm2 : idx2.names = f.names)
    (hwf : WFC nodes) (hroot : 0 < nodes.length)
    (hb : ∀ nd ∈ nodes,
      (-(2 ^ 31) ≤ nd.child0 ∧ nd.child0 < 2 ^ 31) ∧
      (-(2 ^ 31) ≤ nd.child1 ∧ nd.child1 < 2 ^ 31) ∧
      (-(2 ^ (w - 1)) ≤ nd.id ∧ nd.id < 2 ^ (w - 1)) ∧
      (-(2 ^ 7) ≤ nd.maskLen ∧ nd.maskLen < 2 ^ 7)) :
    fileLookupIP (pre2 ++ (nodes.flatMap (marshalNode w) ++ tail)) w f oct =
      lookupIP idx2 oct := by
  obtain ⟨fin, bid2, blen2, nd, hloop, hnd, hval⟩ :=
    lookupLoop_spec oct hwf hroot (if oct.length = 4 then 32 else 128) 0 0
      (-1) (-1) rfl
  have hfin : 0 ≤ fin ∧ fin.toNat < nodes.length := by
    have hndc := hnd
    unfold nodeAt at hndc
    by_cases hf0 : fin < 0
    · rw [if_pos hf0] at hndc
      exact absurd hndc (by simp)
    · rw [if_neg hf0] at hndc
      refine ⟨by omega, ?_⟩
      by_contra hc
      push_neg at hc
      rw [List.getElem?_eq_none (by omega)] at hndc
      exact absurd hndc (by simp)
  have hgd : nodes.getD fin.toNat freshNode = nd := by
    have hndc := hnd
    rw [nodeAt_eq_some nodes fin hfin.1 hfin.2] at hndc
    injection hndc
  have hrn2 : (if fin < 0 then none
      else readNodeF (pre2 ++ (nodes.flatMap (marshalNode w) ++ tail)) w
        pre2.length fin.toNat) = some nd := by
    have h4 := hfin.1
    rw [if_neg (by omega),
      readNodeF_spec w hw pre2 tail nodes fin.toNat hfin.2 hb, hgd]
  have hfleq := fileLookupLoop_eq w hw pre2 tail nodes oct hwf hb
    (if oct.length = 4 then 32 else 128) 0 0 (-1) (-1) (le_refl 0)
    (by simpa using hroot)
  have hcore2 : lookupCore nodes oct = some
      (if nd.id ≠ -1 ∧ blen2 < nd.maskLen then nd.id else bid2) := by
    unfold lookupCore
    show (match lookupLoop nodes oct 0 0 (if oct.length = 4 then 32 else 128)
        (-1) (-1) with
      | none => none
      | some (fin, bestID, bestLen) =>
        match nodeAt nodes fin with
        | none => none
        | some nd =>
          some (if nd.id ≠ -1 ∧ bestLen < nd.maskLen then nd.id
            else bestID)) = _
    rw [hloop]
    change (match nodeAt nodes fin with
      | none => none
      | some nd =>
        some (if nd.id ≠ -1 ∧ blen2 < nd.maskLen then nd.id else bid2)) = _
    rw [hnd]
  have hcore3 : lookupCore idx2.nodes oct = some
      (if nd.id ≠ -1 ∧ blen2 < nd.maskLen then nd.id else bid2) := by
    rw [hn2]
    exact hcore2
  have hres := lookupIP_resolve idx2 oct _ hcore3
  show (match fileLookupLoop (pre2 ++ (nodes.flatMap (marshalNode w) ++ tail)) w
      f.nodesOffset oct 0 0 (if oct.length = 4 then 32 else 128) (-1) (-1) with
    | none => none
    | some (fin2, bestID, bestLen) =>
      match (if fin2 < 0 then none
          else readNodeF (pre2 ++ (nodes.flatMap (marshalNode w) ++ tail)) w
            f.nodesOffset fin2.toNat) with
      | none => none
      | some nd2 =>
        if (if nd2.id ≠ -1 ∧ bestLen < nd2.maskLen then nd2.id else bestID) = -1
        then some []
        else if (if nd2.id ≠ -1 ∧ bestLen < nd2.maskLen then nd2.id
            else bestID) < 1
        then none
        else f.names[(if nd2.id ≠ -1 ∧ bestLen < nd2.maskLen then nd2.id
          else bestID).toNat - 1]?) = lookupIP idx2 oct
  rw [hfo, hfleq, hloop]
  change (match (if fin < 0 then none
      else readNodeF (pre2 ++ (nodes.flatMap (marshalNode w) ++ tail)) w
        pre2.length fin.toNat) with
    | none => none
    | some nd2 =>
      if (if nd2.id ≠ -1 ∧ blen2 < nd2.maskLen then nd2.id else bid2) = -1
      then some []
      else if (if nd2.id ≠ -1 ∧ blen2 < nd2.maskLen then nd2.id else bid2) < 1
      then none
      else f.names[(if nd2.id ≠ -1 ∧ blen2 < nd2.maskLen then nd2.id
        else bid2).toNat - 1]?) = lookupIP idx2 oct
  rw [hrn2]
  rw [hres, hm2]

theorem loadV2_encode (w : Nat) (idx : CIDRIndex) (metaBytes : List Nat)
    (hw : w = 16 ∨ w = 32) (henc : EncOK w idx)
    (hmb : metaBytes.length < 2 ^ 32) :
    loadV2 (encodeV2 w idx metaBytes) =
      some { meta := Metadata.empty
             nodes := idx.nodes
             names := idx.names
             total := idx.total
             idByName := buildIdByName w idx.names } := by
  obtain ⟨htot, hnl, hml, hnodes, hnames⟩ := henc
  have hsave : encodeV2 w idx metaBytes =
      (putU32 ((if w = 16 then 0 else 2 ^ 31) + 1) ++
        (putU32 idx.total ++ (putU32 idx.nodes.length ++
          (putU32 idx.names.length ++ putU32 metaBytes.length)))) ++
        (metaBytes ++
          (idx.nodes.flatMap (marshalNode w) ++
            idx.names.flatMap (fun n => putU32 n.length ++ n))) := by
    unfold encodeV2
    simp [List.append_assoc]
  have hhdr20 : (putU32 ((if w = 16 then 0 else 2 ^ 31) + 1) ++
      (putU32 idx.total ++ (putU32 idx.nodes.length ++
        (putU32 idx.names.length ++ putU32 metaBytes.length)))).length = 20 := by
    simp [putU32_length]
  have hr0 : readN (encodeV2 w idx metaBytes) 20 =
      some (putU32 ((if w = 16 then 0 else 2 ^ 31) + 1) ++
        (putU32 idx.total ++ (putU32 idx.nodes.length ++
          (putU32 idx.names.length ++ putU32 metaBytes.length))),
        metaBytes ++
          (idx.nodes.flatMap (marshalNode w) ++
            idx.names.flatMap (fun n => putU32 n.length ++ n))) := by
    rw [hsave]
    unfold readN
    have hle : 20 ≤ ((putU32 ((if w = 16 then 0 else 2 ^ 31) + 1) ++
        (putU32 idx.total ++ (putU32 idx.nodes.length ++
          (putU32 idx.names.length ++ putU32 metaBytes.length)))) ++
        (metaBytes ++
          (idx.nodes.flatMap (marshalNode w) ++
            idx.names.flatMap (fun n => putU32 n.length ++ n)))).length := by
      rw [List.length_append, hhdr20]
      omega
    rw [if_pos hle, take_append_len _ _ _ hhdr20, drop_append_len _ _ _ hhdr20]
  have hr1 : readN (metaBytes ++
      (idx.nodes.flatMap (marshalNode w) ++
        idx.names.flatMap (fun n => putU32 n.length ++ n))) metaBytes.length =
      some (metaBytes,
        idx.nodes.flatMap (marshalNode w) ++
          idx.names.flatMap (fun n => putU32 n.length ++ n)) := by
    unfold readN
    have hle : metaBytes.length ≤ (metaBytes ++
        (idx.nodes.flatMap (marshalNode w) ++
          idx.names.flatMap (fun n => putU32 n.length ++ n))).length := by
      rw [List.length_append]
      omega
    rw [if_pos hle, take_append_len _ _ _ rfl, drop_append_len _ _ _ rfl]
  have hwv : ((if (decide (w = 32) : Bool) = true then 32 else 16) : Nat) = w := by
    rcases hw with h | h <;> subst h <;> rfl
  have hln := loadNodes_flatMap w hw idx.nodes
    (idx.names.flatMap (fun n => putU32 n.length ++ n))
    (fun nd hnd => unmarshal_marshal w hw nd (hnodes nd hnd).1
      (hnodes nd hnd).2.1 (hnodes nd hnd).2.2.1 (hnodes nd hnd).2.2.2)
  have hlm := loadNames_flatMap idx.names []
    (fun nm hnm => (hnames nm hnm).2)
  rw [List.append_nil] at hlm
  unfold loadV2
  rw [hr0]
  simp only [Option.bind_eq_bind, Option.some_bind]
  rw [hdUnmarshal_encode w hw idx.total idx.nodes.length idx.names.length
    metaBytes.length htot hnl hml hmb]
  simp only [Option.some_bind]
  rw [hr1]
  simp only [Option.some_bind]
  rw [hwv, hln]
  simp only [Option.some_bind]
  rw [hlm]
  simp only [Option.some_bind]

set_option maxHeartbeats 1600000 in
/-- C4: for every byte sequence produced by the versioned encoder from
a built index (within the binary ranges, with a well-formed trie and
non-empty labels), the lookup of the file-backed index Open constructs
agrees on every address with the lookup of the in-memory index the
decoder produces from the same bytes. -/
theorem C4_open_load_lookup_agree (w : Nat) (idx : CIDRIndex)
    (metaBytes : List Nat) (a : List Nat)
    (hw : w = 16 ∨ w = 32) (henc : EncOK w idx)
    (hroot : 0 < idx.nodes.length) (hwf : WFC idx.nodes)
    (hmb : metaBytes.length < 2 ^ 32)
    (hnm0 : ∀ nm ∈ idx.names, 0 < nm.length) :
    ∃ idx2, loadV2 (encodeV2 w idx metaBytes) = some idx2 ∧
      openLookup (encodeV2 w idx metaBytes) a = lookupIP idx2 a := by
  refine ⟨_, loadV2_encode w idx metaBytes hw henc hmb, ?_⟩
  obtain ⟨htot, hnl, hml, hnodes, hnames⟩ := henc
  have hhdr20 : (putU32 ((if w = 16 then 0 else 2 ^ 31) + 1) ++
      (putU32 idx.total ++ (putU32 idx.nodes.length ++
        (putU32 idx.names.length ++ putU32 metaBytes.length)))).length = 20 := by
    simp [putU32_length]
  have hsave : encodeV2 w idx metaBytes =
      (putU32 ((if w = 16 then 0 else 2 ^ 31) + 1) ++
        (putU32 idx.total ++ (putU32 idx.nodes.length ++
          (putU32 idx.names.length ++ putU32 metaBytes.length)))) ++
        (metaBytes ++
          (idx.nodes.flatMap (marshalNode w) ++
            idx.names.flatMap (fun n => putU32 n.length ++ n))) := by
    unfold encodeV2
    simp [List.append_assoc]
  have hflen := flatMap_marshal_length w hw idx.nodes
  have hq0 : readAtD (encodeV2 w idx metaBytes) 0 20 =
      (20, none, putU32 ((if w = 16 then 0 else 2 ^ 31) + 1) ++
        (putU32 idx.total ++ (putU32 idx.nodes.length ++
          (putU32 idx.names.length ++ putU32 metaBytes.length)))) := by
    rw [hsave]
    have hlen2 : ((putU32 ((if w = 16 then 0 else 2 ^ 31) + 1) ++
        (putU32 idx.total ++ (putU32 idx.nodes.length ++
          (putU32 idx.names.length ++ putU32 metaBytes.length)))) ++
        (metaBytes ++
          (idx.nodes.flatMap (marshalNode w) ++
            idx.names.flatMap (fun n => putU32 n.length ++ n)))).length =
        20 + (metaBytes ++
          (idx.nodes.flatMap (marshalNode w) ++
            idx.names.flatMap (fun n => putU32 n.length ++ n))).length := by
      rw [List.length_append, hhdr20]
    rw [readAtD_ok _ _ _ (by rw [hlen2]; omega)]
    have hmin : min 20 (((putU32 ((if w = 16 then 0 else 2 ^ 31) + 1) ++
        (putU32 idx.total ++ (putU32 idx.nodes.length ++
          (putU32 idx.names.length ++ putU32 metaBytes.length)))) ++
        (metaBytes ++
          (idx.nodes.flatMap (marshalNode w) ++
            idx.names.flatMap (fun n => putU32 n.length ++ n)))).length - 0) =
        20 := by
      rw [hlen2]
      omega
    rw [hmin, if_neg (by omega), List.drop_zero, take_append_len _ _ _ hhdr20]
  have hmeta : 0 < metaBytes.length →
      (readAtD (encodeV2 w idx metaBytes) 20 metaBytes.length).2.1 = none := by
    intro hpos
    rw [hsave]
    have hd20 : ((putU32 ((if w = 16 then 0 else 2 ^ 31) + 1) ++
        (putU32 idx.total ++ (putU32 idx.nodes.length ++
          (putU32 idx.names.length ++ putU32 metaBytes.length)))) ++
        (metaBytes ++
          (idx.nodes.flatMap (marshalNode w) ++
            idx.names.flatMap (fun n => putU32 n.length ++ n)))).length =
        20 + (metaBytes.length +
          (idx.nodes.flatMap (marshalNode w) ++
            idx.names.flatMap (fun n => putU32 n.length ++ n)).length) := by
      rw [List.length_append, hhdr20, List.length_append]
    rw [readAtD_ok _ _ _ (by rw [hd20]; omega)]
    have hmin : min metaBytes.length (((putU32 ((if w = 16 then 0 else 2 ^ 31) + 1) ++
        (putU32 idx.total ++ (putU32 idx.nodes.length ++
          (putU32 idx.names.length ++ putU32 metaBytes.length)))) ++
        (metaBytes ++
          (idx.nodes.flatMap (marshalNode w) ++
            idx.names.flatMap (fun n => putU32 n.length ++ n)))).length - 20) =
        metaBytes.length := by
      rw [hd20]
      omega
    rw [hmin]
    show (if metaBytes.length < metaBytes.length then some RErr.eof else none) =
      none
    rw [if_neg (by omega)]
  have hwv : ((if (decide (w = 32) : Bool) = true then 32 else 16) : Nat) = w := by
    rcases hw with h | h <;> subst h <;> rfl
  have hpre2len : ((putU32 ((if w = 16 then 0 else 2 ^ 31) + 1) ++
      (putU32 idx.total ++ (putU32 idx.nodes.length ++
        (putU32 idx.names.length ++ putU32 metaBytes.length)))) ++
      metaBytes).length = 20 + metaBytes.length := by
    rw [List.length_append, hhdr20]
  have hpre3len : (((putU32 ((if w = 16 then 0 else 2 ^ 31) + 1) ++
      (putU32 idx.total ++ (putU32 idx.nodes.length ++
        (putU32 idx.names.length ++ putU32 metaBytes.length)))) ++
      metaBytes) ++ idx.nodes.flatMap (marshalNode w)).length =
      20 + metaBytes.length + idx.nodes.length * nodeSize w := by
    rw [List.length_append, hpre2len, hflen]
  have hd3 : encodeV2 w idx metaBytes =
      (((putU32 ((if w = 16 then 0 else 2 ^ 31) + 1) ++
        (putU32 idx.total ++ (putU32 idx.nodes.length ++
          (putU32 idx.names.length ++ putU32 metaBytes.length)))) ++
        metaBytes) ++ idx.nodes.flatMap (marshalNode w)) ++
        idx.names.flatMap (fun n => putU32 n.length ++ n) := by
    unfold encodeV2
    simp [List.append_assoc]
  have hnamesF : readNamesF (encodeV2 w idx metaBytes) idx.names.length
      (20 + metaBytes.length + idx.nodes.length * nodeSize w) = some idx.names := by
    rw [hd3, ← hpre3len]
    exact readNamesF_spec idx.names _
      (fun nm hnm => ⟨hnm0 nm hnm, (hnames nm hnm).2⟩)
  have hd2 : encodeV2 w idx metaBytes =
      ((putU32 ((if w = 16 then 0 else 2 ^ 31) + 1) ++
        (putU32 idx.total ++ (putU32 idx.nodes.length ++
          (putU32 idx.names.length ++ putU32 metaBytes.length)))) ++
        metaBytes) ++
        (idx.nodes.flatMap (marshalNode w) ++
          idx.names.flatMap (fun n => putU32 n.length ++ n)) := by
    unfold encodeV2
    simp [List.append_assoc]
  have hopen : openIndex (encodeV2 w idx metaBytes) =
      some (⟨20 + metaBytes.length, nodeSize w, idx.nodes.length,
        20 + metaBytes.length + idx.nodes.length * nodeSize w,
        idx.names.length, idx.names, idx.total⟩, w) := by
    show (match (readAtD (encodeV2 w idx metaBytes) 0 20).2.1 with
      | some _ => none
      | none =>
        match hdUnmarshal (readAtD (encodeV2 w idx metaBytes) 0 20).2.2 with
        | none => none
        | some h =>
          if (if 0 < h.metadataLen then
              (readAtD (encodeV2 w idx metaBytes) 20 h.metadataLen).2.1 = none
            else True) then
            match readNamesF (encodeV2 w idx metaBytes) h.namesLen
                ((20 + h.metadataLen) +
                  h.nodesLen * nodeSize (if h.wide then 32 else 16)) with
            | none => none
            | some names =>
              some (⟨20 + h.metadataLen,
                nodeSize (if h.wide then 32 else 16), h.nodesLen,
                (20 + h.metadataLen) +
                  h.nodesLen * nodeSize (if h.wide then 32 else 16),
                h.namesLen, names, h.total⟩, if h.wide then 32 else 16)
          else none : Option (CIDRIndexFile × Nat)) = _
    rw [hq0]
    change (match hdUnmarshal (putU32 ((if w = 16 then 0 else 2 ^ 31) + 1) ++
        (putU32 idx.total ++ (putU32 idx.nodes.length ++
          (putU32 idx.names.length ++ putU32 metaBytes.length)))) with
      | none => none
      | some h =>
        if (if 0 < h.metadataLen then
            (readAtD (encodeV2 w idx metaBytes) 20 h.metadataLen).2.1 = none
          else True) then
          match readNamesF (encodeV2 w idx metaBytes) h.namesLen
              ((20 + h.metadataLen) +
                h.nodesLen * nodeSize (if h.wide then 32 else 16)) with
          | none => none
          | some names =>
            some (⟨20 + h.metadataLen,
              nodeSize (if h.wide then 32 else 16), h.nodesLen,
              (20 + h.metadataLen) +
                h.nodesLen * nodeSize (if h.wide then 32 else 16),
              h.namesLen, names, h.total⟩, if h.wide then 32 else 16)
        else none : Option (CIDRIndexFile × Nat)) = _
    rw [hdUnmarshal_encode w hw idx.total idx.nodes.length idx.names.length
      metaBytes.length htot hnl hml hmb]
    change (if (if 0 < metaBytes.length then
        (readAtD (encodeV2 w idx metaBytes) 20 metaBytes.length).2.1 = none
      else True) then
        match readNamesF (encodeV2 w idx metaBytes) idx.names.length
            ((20 + metaBytes.length) +
              idx.nodes.length * nodeSize (if decide (w = 32) then 32 else 16)) with
        | none => none
        | some names =>
          some (⟨20 + metaBytes.length,
            nodeSize (if decide (w = 32) then 32 else 16), idx.nodes.length,
            (20 + metaBytes.length) +
              idx.nodes.length * nodeSize (if decide (w = 32) then 32 else 16),
            idx.names.length, names, idx.total⟩,
            if decide (w = 32) then 32 else 16)
      else none : Option (CIDRIndexFile × Nat)) = _
    rw [hwv]
    have hmgate : (if 0 < metaBytes.length then
        (readAtD (encodeV2 w idx metaBytes) 20 metaBytes.length).2.1 = none
      else True) := by
      by_cases hpos : 0 < metaBytes.length
      · rw [if_pos hpos]
        exact hmeta hpos
      · rw [if_neg hpos]
        trivial
    rw [if_pos hmgate, hnamesF]
  show (match openIndex (encodeV2 w idx metaBytes) with
    | none => none
    | some (f, w2) => fileLookupIP (encodeV2 w idx metaBytes) w2 f a) = _
  rw [hopen]
  change fileLookupIP (encodeV2 w idx metaBytes) w
    ⟨20 + metaBytes.length, nodeSize w, idx.nodes.length,
      20 + metaBytes.length + idx.nodes.length * nodeSize w,
      idx.names.length, idx.names, idx.total⟩ a = _
  rw [hd2]
  exact fileLookupIP_eq w hw
    ((putU32 ((if w = 16 then 0 else 2 ^ 31) + 1) ++
      (putU32 idx.total ++ (putU32 idx.nodes.length ++
        (putU32 idx.names.length ++ putU32 metaBytes.length)))) ++ metaBytes)
    (idx.names.flatMap (fun n => putU32 n.length ++ n)) idx.nodes a
    ⟨20 + metaBytes.length, nodeSize w, idx.nodes.length,
      20 + metaBytes.length + idx.nodes.length * nodeSize w,
      idx.names.length, idx.names, idx.total⟩
    { meta := Metadata.empty
      nodes := idx.nodes
      names := idx.names
      total := idx.total
      idByName := buildIdByName w idx.names }
    hpre2len.symm rfl rfl hwf hroot hnodes

/-- Witness for C4 at a concrete one-prefix index. -/
theorem C4_witness :
    ((16 : Nat) = 16 ∨ (16 : Nat) = 32) ∧
    EncOK 16 (insertAll 16 [(⟨[10, 0, 0, 0], 8⟩, [1])]) ∧
    0 < (insertAll 16 [(⟨[10, 0, 0, 0], 8⟩, [1])]).nodes.length ∧
    WFC (insertAll 16 [(⟨[10, 0, 0, 0], 8⟩, [1])]).nodes ∧
    ([9] : List Nat).length < 2 ^ 32 ∧
    (∀ nm ∈ (insertAll 16 [(⟨[10, 0, 0, 0], 8⟩, [1])]).names, 0 < nm.length) ∧
    ∃ idx2, loadV2 (encodeV2 16 (insertAll 16 [(⟨[10, 0, 0, 0], 8⟩, [1])])
        [9]) = some idx2 ∧
      openLookup (encodeV2 16 (insertAll 16 [(⟨[10, 0, 0, 0], 8⟩, [1])]) [9])
          [10, 1, 2, 3] =
        lookupIP idx2 [10, 1, 2, 3] :=
  ⟨Or.inl rfl, by unfold EncOK; decide, by decide,
    by unfold WFC ChildOK; decide, by decide, by decide,
    C4_open_load_lookup_agree 16 (insertAll 16 [(⟨[10, 0, 0, 0], 8⟩, [1])])
      [9] [10, 1, 2, 3] (Or.inl rfl) (by unfold EncOK; decide) (by decide)
      (by unfold WFC ChildOK; decide) (by decide) (by decide)⟩

end Netrie
